import Mathlib

/-!
Verification of the EMG (exponentially modified Gaussian) custom-distribution
code from `Stats_with_Scipy.ipynb`.

The notebook defines, on top of `scipy.stats.rv_continuous`:

* `EMG_gen1` with analytic `_pdf`, `_cdf`, `_stats` and `_argcheck`;
* `EMG_gen2` (subclass of `EMG_gen1`) overriding `_ppf` by a linear
  interpolation of a tabulated CDF on the grid
  `np.arange(mu - 50*sqrt(var), mu + 50*sqrt(var), 0.01)`;
* `EMG_gen3` (subclass of `EMG_gen1`) overriding `_rvs` by the sum of a
  normal and an exponential sample.

External library functions (`scipy.stats.norm.cdf`, `scipy.special.erfc`)
are embedded by their mathematical definitions as Lebesgue integrals over ℝ.
-/

open MeasureTheory Set Filter Topology

noncomputable section

/-- Density of the standard normal distribution,
`exp (-t^2/2) / sqrt (2*pi)`.  This is the mathematical function underlying
`scipy.stats.norm.pdf` with `loc=0, scale=1`. -/
def stdNormPdf (t : ℝ) : ℝ := (Real.sqrt (2 * Real.pi))⁻¹ * Real.exp (-t ^ 2 / 2)

/-- Cumulative distribution function of the standard normal distribution,
the integral of `stdNormPdf` over `(-∞, x]`.  This is the mathematical
function underlying `scipy.stats.norm.cdf` with `loc=0, scale=1`. -/
def stdNormCdf (x : ℝ) : ℝ := ∫ t in Iic x, stdNormPdf t

/-- `scipy.stats.norm.cdf(x, loc, scale)`: the location-scale transform of
the standard normal CDF. -/
def normCdf (x loc scale : ℝ) : ℝ := stdNormCdf ((x - loc) / scale)

/-- `scipy.special.erfc(z) = (2/sqrt pi) * ∫_z^∞ exp (-t^2) dt`, the
complementary error function. -/
def erfc (z : ℝ) : ℝ := 2 / Real.sqrt Real.pi * ∫ t in Ioi z, Real.exp (-t ^ 2)

namespace EMG_gen1

/-- `EMG_gen1._pdf` from the notebook:
```
u = 0.5 * lam * (2 * mu + lam * sig**2 - 2 * x)
v = (mu + lam * sig**2 - x)/(sig * np.sqrt(2))
return 0.5 * lam * np.exp(u) * erfc(v)
``` -/
def pdf (x mu sig lam : ℝ) : ℝ :=
  let u := 0.5 * lam * (2 * mu + lam * sig ^ 2 - 2 * x)
  let v := (mu + lam * sig ^ 2 - x) / (sig * Real.sqrt 2)
  0.5 * lam * Real.exp u * erfc v

/-- `EMG_gen1._cdf` from the notebook:
```
u = lam * (x - mu)
v = lam * sig
phi1 = st.norm.cdf(u, loc=0, scale=v)
phi2 = st.norm.cdf(u, loc=v**2, scale=v)
return phi1 - phi2 * np.exp(-u + 0.5 * v**2)
``` -/
def cdf (x mu sig lam : ℝ) : ℝ :=
  let u := lam * (x - mu)
  let v := lam * sig
  let phi1 := normCdf u 0 v
  let phi2 := normCdf u (v ^ 2) v
  phi1 - phi2 * Real.exp (-u + 0.5 * v ^ 2)

/-- `EMG_gen1._stats` from the notebook: the analytic
(mean, variance, skewness, excess kurtosis).  The Python expression
`u**(-3 / 2)` is a real power with exponent `-1.5`. -/
def stats (mu sig lam : ℝ) : ℝ × ℝ × ℝ × ℝ :=
  let mean := mu + 1 / lam
  let var := sig ^ 2 + 1 / lam ^ 2
  let sl := sig * lam
  let u := 1 + 1 / sl ^ 2
  let skew := 2 / sl ^ 3 * u ^ (-3 / 2 : ℝ)
  let v := 3 * (1 + 2 / sl ^ 2 + 3 / sl ^ 4) / u ^ 2
  let kurt := v - 3
  (mean, var, skew, kurt)

end EMG_gen1

/-! ### Basic facts about the standard normal density and CDF -/

/-- Bundled basic facts about the standard normal density: positivity of the normalizing constant, closed form, positivity, nonnegativity, continuity, integrability, total mass one, and evenness. -/
theorem stdNormPdf_facts :
    (0 < Real.sqrt (2 * Real.pi))
    ∧ (∀ (t : ℝ), stdNormPdf t = (Real.sqrt (2 * Real.pi))⁻¹ * Real.exp (-(1 / 2) * t ^ 2))
    ∧ (∀ (t : ℝ), 0 < stdNormPdf t)
    ∧ (∀ (t : ℝ), 0 ≤ stdNormPdf t)
    ∧ (Continuous stdNormPdf)
    ∧ (Integrable stdNormPdf)
    ∧ (∫ t, stdNormPdf t = 1)
    ∧ (∀ (t : ℝ), stdNormPdf (-t) = stdNormPdf t) := by
  have sqrt_two_pi_pos : 0 < Real.sqrt (2 * Real.pi) := by
    exact
      (Real.sqrt_pos.mpr (by positivity))
  have stdNormPdf_eq : ∀ (t : ℝ), stdNormPdf t = (Real.sqrt (2 * Real.pi))⁻¹ * Real.exp (-(1 / 2) * t ^ 2) := by
    intro t
    unfold stdNormPdf; ring_nf
  have stdNormPdf_pos : ∀ (t : ℝ), 0 < stdNormPdf t := by
    intro t
    exact
      (mul_pos (inv_pos.mpr sqrt_two_pi_pos) (Real.exp_pos _))
  have stdNormPdf_nonneg : ∀ (t : ℝ), 0 ≤ stdNormPdf t := by
    intro t
    exact
      ((stdNormPdf_pos t).le)
  have continuous_stdNormPdf : Continuous stdNormPdf := by
    unfold stdNormPdf
    exact continuous_const.mul ((continuous_pow 2).neg.div_const 2).rexp
  have integrable_stdNormPdf : Integrable stdNormPdf := by
    have h := (integrable_exp_neg_mul_sq (show (0:ℝ) < 1 / 2 by norm_num)).const_mul
      (Real.sqrt (2 * Real.pi))⁻¹
    refine h.congr (Eventually.of_forall fun t => ?_)
    rw [stdNormPdf_eq]
  have integral_stdNormPdf : ∫ t, stdNormPdf t = 1 := by
    have h : ∫ t, stdNormPdf t
        = (Real.sqrt (2 * Real.pi))⁻¹ * ∫ t : ℝ, Real.exp (-(1 / 2) * t ^ 2) := by
      rw [← integral_mul_left]
      exact integral_congr_ae (Eventually.of_forall fun t => stdNormPdf_eq t)
    rw [h, integral_gaussian]
    have h2 : Real.pi / (1 / 2) = 2 * Real.pi := by ring
    rw [h2, inv_mul_cancel₀ sqrt_two_pi_pos.ne']
  have stdNormPdf_even : ∀ (t : ℝ), stdNormPdf (-t) = stdNormPdf t := by
    intro t
    unfold stdNormPdf; rw [neg_pow]; ring_nf
  exact ⟨sqrt_two_pi_pos, stdNormPdf_eq, stdNormPdf_pos, stdNormPdf_nonneg, continuous_stdNormPdf, integrable_stdNormPdf, integral_stdNormPdf, stdNormPdf_even⟩

/-- Bundled facts about the standard normal CDF: interval-integral decomposition, derivative, continuity, bounds, monotonicity, and limits at both infinities. -/
theorem stdNormCdf_facts :
    (∀ (x : ℝ), stdNormCdf x = stdNormCdf 0 + ∫ t in (0:ℝ)..x, stdNormPdf t)
    ∧ (∀ (x : ℝ), HasDerivAt stdNormCdf (stdNormPdf x) x)
    ∧ (Continuous stdNormCdf)
    ∧ (∀ (x : ℝ), 0 ≤ stdNormCdf x)
    ∧ (∀ (x : ℝ), stdNormCdf x ≤ 1)
    ∧ (Monotone stdNormCdf)
    ∧ (Tendsto stdNormCdf atTop (𝓝 1))
    ∧ (Tendsto stdNormCdf atBot (𝓝 0)) := by
  have stdNormCdf_eq_add_intervalIntegral : ∀ (x : ℝ), stdNormCdf x = stdNormCdf 0 + ∫ t in (0:ℝ)..x, stdNormPdf t := by
    intro x
    have h := intervalIntegral.integral_Iic_sub_Iic
      ((stdNormPdf_facts.2.2.2.2.2.1).integrableOn (s := Iic 0))
      ((stdNormPdf_facts.2.2.2.2.2.1).integrableOn (s := Iic x))
    unfold stdNormCdf
    linarith [h]
  have stdNormCdf_hasDerivAt : ∀ (x : ℝ), HasDerivAt stdNormCdf (stdNormPdf x) x := by
    intro x
    have key : HasDerivAt (fun y => stdNormCdf 0 + ∫ t in (0:ℝ)..y, stdNormPdf t)
        (stdNormPdf x) x := by
      refine HasDerivAt.const_add _ ?_
      exact intervalIntegral.integral_hasDerivAt_right
        ((stdNormPdf_facts.2.2.2.2.2.1).intervalIntegrable)
        ((stdNormPdf_facts.2.2.2.2.1).stronglyMeasurableAtFilter _ _)
        (stdNormPdf_facts.2.2.2.2.1).continuousAt
    refine key.congr_of_eventuallyEq (Eventually.of_forall fun y => ?_)
    exact stdNormCdf_eq_add_intervalIntegral y
  have continuous_stdNormCdf : Continuous stdNormCdf := by
    have : Differentiable ℝ stdNormCdf := fun x => (stdNormCdf_hasDerivAt x).differentiableAt
    exact this.continuous
  have stdNormCdf_nonneg : ∀ (x : ℝ), 0 ≤ stdNormCdf x := by
    intro x
    exact
      (setIntegral_nonneg measurableSet_Iic fun t _ => (stdNormPdf_facts.2.2.2.1) t)
  have stdNormCdf_le_one : ∀ (x : ℝ), stdNormCdf x ≤ 1 := by
    intro x
    rw [← (stdNormPdf_facts.2.2.2.2.2.2.1)]
    exact setIntegral_le_integral (stdNormPdf_facts.2.2.2.2.2.1)
      (Eventually.of_forall fun t => (stdNormPdf_facts.2.2.2.1) t)
  have stdNormCdf_mono : Monotone stdNormCdf := by
    exact
      (monotone_of_hasDerivAt_nonneg stdNormCdf_hasDerivAt (stdNormPdf_facts.2.2.2.1))
  have stdNormCdf_tendsto_atTop : Tendsto stdNormCdf atTop (𝓝 1) := by
    have h : Tendsto (fun y => stdNormCdf 0 + ∫ t in (0:ℝ)..y, stdNormPdf t) atTop
        (𝓝 (stdNormCdf 0 + ∫ t in Ioi (0:ℝ), stdNormPdf t)) := by
      exact (MeasureTheory.intervalIntegral_tendsto_integral_Ioi 0
        ((stdNormPdf_facts.2.2.2.2.2.1).integrableOn) tendsto_id).const_add _
    have htot : stdNormCdf 0 + ∫ t in Ioi (0:ℝ), stdNormPdf t = 1 := by
      unfold stdNormCdf
      rw [intervalIntegral.integral_Iic_add_Ioi ((stdNormPdf_facts.2.2.2.2.2.1).integrableOn)
        ((stdNormPdf_facts.2.2.2.2.2.1).integrableOn)]
      exact (stdNormPdf_facts.2.2.2.2.2.2.1)
    rw [htot] at h
    refine h.congr fun y => (stdNormCdf_eq_add_intervalIntegral y).symm
  have stdNormCdf_tendsto_atBot : Tendsto stdNormCdf atBot (𝓝 0) := by
    have h : Tendsto (fun y : ℝ => ∫ t in y..(0:ℝ), stdNormPdf t) atBot
        (𝓝 (∫ t in Iic (0:ℝ), stdNormPdf t)) :=
      MeasureTheory.intervalIntegral_tendsto_integral_Iic 0
        ((stdNormPdf_facts.2.2.2.2.2.1).integrableOn) tendsto_id
    have h2 : Tendsto (fun y : ℝ => stdNormCdf 0 - ∫ t in y..(0:ℝ), stdNormPdf t) atBot
        (𝓝 (stdNormCdf 0 - ∫ t in Iic (0:ℝ), stdNormPdf t)) := (tendsto_const_nhds).sub h
    have h3 : (stdNormCdf 0 - ∫ t in Iic (0:ℝ), stdNormPdf t) = 0 := by
      unfold stdNormCdf; ring
    rw [h3] at h2
    refine h2.congr fun y => ?_
    rw [stdNormCdf_eq_add_intervalIntegral y, intervalIntegral.integral_symm y 0]
    ring
  exact ⟨stdNormCdf_eq_add_intervalIntegral, stdNormCdf_hasDerivAt, continuous_stdNormCdf, stdNormCdf_nonneg, stdNormCdf_le_one, stdNormCdf_mono, stdNormCdf_tendsto_atTop, stdNormCdf_tendsto_atBot⟩

/-! ### The complementary error function and its relation to `stdNormCdf` -/

/-- Bundled facts relating the complementary error function to the standard normal CDF: integrability of the Gaussian kernel, the scaling identity, sign bounds, strict positivity, continuity, and the reflection formula for the CDF. -/
theorem erfc_facts :
    (Integrable fun t : ℝ => Real.exp (-t ^ 2))
    ∧ (∀ (z : ℝ), erfc z = 2 * stdNormCdf (-(Real.sqrt 2 * z)))
    ∧ (∀ (z : ℝ), 0 ≤ erfc z)
    ∧ (∀ (x : ℝ), 0 < stdNormCdf x)
    ∧ (∀ (z : ℝ), 0 < erfc z)
    ∧ (Continuous erfc)
    ∧ (∀ (x : ℝ), stdNormCdf (-x) = 1 - stdNormCdf x) := by
  have integrable_exp_neg_sq : Integrable fun t : ℝ => Real.exp (-t ^ 2) := by
    have h := integrable_exp_neg_mul_sq (show (0:ℝ) < 1 by norm_num)
    refine h.congr (Eventually.of_forall fun t => ?_)
    ring_nf
  have erfc_eq_stdNormCdf : ∀ (z : ℝ), erfc z = 2 * stdNormCdf (-(Real.sqrt 2 * z)) := by
    intro z
    have h2 : (0:ℝ) < Real.sqrt 2 := Real.sqrt_pos.mpr (by norm_num)
    have even_eq : ∀ x : ℝ, stdNormPdf (-x) = stdNormPdf x := (stdNormPdf_facts.2.2.2.2.2.2.2)
    have step1 : stdNormCdf (-(Real.sqrt 2 * z)) = ∫ t in Ioi (Real.sqrt 2 * z), stdNormPdf t := by
      unfold stdNormCdf
      have := integral_comp_neg_Iic (-(Real.sqrt 2 * z)) stdNormPdf
      rw [neg_neg] at this
      rw [← this]
      exact integral_congr_ae (Eventually.of_forall fun t => (even_eq t).symm)
    have step2 : ∫ t in Ioi z, stdNormPdf (Real.sqrt 2 * t)
        = (Real.sqrt 2)⁻¹ * ∫ t in Ioi (Real.sqrt 2 * z), stdNormPdf t := by
      have := MeasureTheory.integral_comp_mul_left_Ioi stdNormPdf z h2
      rw [this, smul_eq_mul]
    have step3 : ∀ t : ℝ, stdNormPdf (Real.sqrt 2 * t)
        = (Real.sqrt (2 * Real.pi))⁻¹ * Real.exp (-t ^ 2) := by
      intro t
      unfold stdNormPdf
      congr 1
      rw [mul_pow, Real.sq_sqrt (by norm_num : (0:ℝ) ≤ 2)]
      ring_nf
    have step4 : ∫ t in Ioi z, stdNormPdf (Real.sqrt 2 * t)
        = (Real.sqrt (2 * Real.pi))⁻¹ * ∫ t in Ioi z, Real.exp (-t ^ 2) := by
      rw [← integral_mul_left]
      exact integral_congr_ae (Eventually.of_forall fun t => step3 t)
    have rhs : (∫ t in Ioi (Real.sqrt 2 * z), stdNormPdf t)
        = Real.sqrt 2 * ((Real.sqrt (2 * Real.pi))⁻¹ * ∫ t in Ioi z, Real.exp (-t ^ 2)) := by
      rw [← step4, step2]
      field_simp
    rw [erfc, step1, rhs]
    have hpi : (0:ℝ) < Real.sqrt Real.pi := Real.sqrt_pos.mpr Real.pi_pos
    have key : Real.sqrt 2 * Real.sqrt Real.pi = Real.sqrt (2 * Real.pi) :=
      (Real.sqrt_mul (by norm_num) _).symm
    have h2' : (0:ℝ) < Real.sqrt 2 := Real.sqrt_pos.mpr (by norm_num)
    rw [← key]
    field_simp
    ring
  have erfc_nonneg : ∀ (z : ℝ), 0 ≤ erfc z := by
    intro z
    rw [erfc_eq_stdNormCdf]
    have := (stdNormCdf_facts.2.2.2.1) (-(Real.sqrt 2 * z))
    linarith
  have stdNormCdf_pos : ∀ (x : ℝ), 0 < stdNormCdf x := by
    intro x
    unfold stdNormCdf
    rw [MeasureTheory.setIntegral_pos_iff_support_of_nonneg_ae
      (Eventually.of_forall fun t => (stdNormPdf_facts.2.2.2.1) t) ((stdNormPdf_facts.2.2.2.2.2.1).integrableOn)]
    have hsupp : (Function.support stdNormPdf) = univ := by
      ext t; simp [Function.support, ((stdNormPdf_facts.2.2.1) t).ne']
    rw [hsupp, univ_inter]
    simp [Real.volume_Iic]
  have erfc_pos : ∀ (z : ℝ), 0 < erfc z := by
    intro z
    rw [erfc_eq_stdNormCdf]
    have := stdNormCdf_pos (-(Real.sqrt 2 * z))
    linarith
  have continuous_erfc : Continuous erfc := by
    have : erfc = fun z => 2 * stdNormCdf (-(Real.sqrt 2 * z)) := by
      funext z; exact erfc_eq_stdNormCdf z
    rw [this]
    exact continuous_const.mul
      ((stdNormCdf_facts.2.2.1).comp ((continuous_const.mul continuous_id).neg))
  have stdNormCdf_neg : ∀ (x : ℝ), stdNormCdf (-x) = 1 - stdNormCdf x := by
    intro x
    have h1 : stdNormCdf (-x) = ∫ t in Ioi x, stdNormPdf t := by
      unfold stdNormCdf
      have := integral_comp_neg_Iic (-x) stdNormPdf
      rw [neg_neg] at this
      rw [← this]
      exact integral_congr_ae (Eventually.of_forall fun t => ((stdNormPdf_facts.2.2.2.2.2.2.2) t).symm)
    have h2 := intervalIntegral.integral_Iic_add_Ioi
      (b := x) ((stdNormPdf_facts.2.2.2.2.2.1).integrableOn) ((stdNormPdf_facts.2.2.2.2.2.1).integrableOn)
    rw [(stdNormPdf_facts.2.2.2.2.2.2.1)] at h2
    rw [h1]
    unfold stdNormCdf
    linarith
  exact ⟨integrable_exp_neg_sq, erfc_eq_stdNormCdf, erfc_nonneg, stdNormCdf_pos, erfc_pos, continuous_erfc, stdNormCdf_neg⟩

/-! ### Closed forms for the EMG density and CDF in terms of `stdNormCdf` -/

/-- Bundled closed forms for the EMG cumulative and density functions in terms of the standard normal CDF, together with the Gaussian cancellation identity used to differentiate the CDF. -/
theorem EMG_closed_form_facts :
    (∀ (mu sig lam x : ℝ) (hs : sig ≠ 0) (hl : lam ≠ 0), EMG_gen1.cdf x mu sig lam
      = stdNormCdf ((x - mu) / sig)
        - stdNormCdf ((x - mu) / sig - lam * sig)
          * Real.exp (-(lam * (x - mu)) + (lam * sig) ^ 2 / 2))
    ∧ (∀ (mu sig lam x : ℝ) (hs : sig ≠ 0), EMG_gen1.pdf x mu sig lam
      = lam * Real.exp (-(lam * (x - mu)) + (lam * sig) ^ 2 / 2)
          * stdNormCdf ((x - mu) / sig - lam * sig))
    ∧ (∀ (mu sig lam x : ℝ) (hs : sig ≠ 0), stdNormPdf ((x - mu) / sig - lam * sig)
        * Real.exp (-(lam * (x - mu)) + (lam * sig) ^ 2 / 2)
      = stdNormPdf ((x - mu) / sig)) := by
  have EMG_gen1_cdf_closed_form : ∀ (mu sig lam x : ℝ) (hs : sig ≠ 0) (hl : lam ≠ 0), EMG_gen1.cdf x mu sig lam
      = stdNormCdf ((x - mu) / sig)
        - stdNormCdf ((x - mu) / sig - lam * sig)
          * Real.exp (-(lam * (x - mu)) + (lam * sig) ^ 2 / 2) := by
    intro mu sig lam x hs hl
    unfold EMG_gen1.cdf normCdf
    have e1 : (lam * (x - mu) - 0) / (lam * sig) = (x - mu) / sig := by
      field_simp
      ring
    have e2 : (lam * (x - mu) - (lam * sig) ^ 2) / (lam * sig)
        = (x - mu) / sig - lam * sig := by
      field_simp; ring
    have e3 : -(lam * (x - mu)) + 0.5 * (lam * sig) ^ 2
        = -(lam * (x - mu)) + (lam * sig) ^ 2 / 2 := by ring
    show stdNormCdf ((lam * (x - mu) - 0) / (lam * sig))
        - stdNormCdf ((lam * (x - mu) - (lam * sig) ^ 2) / (lam * sig))
          * Real.exp (-(lam * (x - mu)) + 0.5 * (lam * sig) ^ 2) = _
    rw [e1, e2, e3]
  have EMG_gen1_pdf_closed_form : ∀ (mu sig lam x : ℝ) (hs : sig ≠ 0), EMG_gen1.pdf x mu sig lam
      = lam * Real.exp (-(lam * (x - mu)) + (lam * sig) ^ 2 / 2)
          * stdNormCdf ((x - mu) / sig - lam * sig) := by
    intro mu sig lam x hs
    unfold EMG_gen1.pdf
    show 0.5 * lam * Real.exp (0.5 * lam * (2 * mu + lam * sig ^ 2 - 2 * x))
        * erfc ((mu + lam * sig ^ 2 - x) / (sig * Real.sqrt 2)) = _
    rw [(erfc_facts.2.1)]
    have hsqrt2 : Real.sqrt 2 ≠ 0 := (Real.sqrt_pos.mpr (by norm_num)).ne'
    have e1 : -(Real.sqrt 2 * ((mu + lam * sig ^ 2 - x) / (sig * Real.sqrt 2)))
        = (x - mu) / sig - lam * sig := by
      field_simp
      ring
    have e2 : 0.5 * lam * (2 * mu + lam * sig ^ 2 - 2 * x)
        = -(lam * (x - mu)) + (lam * sig) ^ 2 / 2 := by ring
    rw [e1, e2]
    ring
  have gauss_cancel : ∀ (mu sig lam x : ℝ) (hs : sig ≠ 0), stdNormPdf ((x - mu) / sig - lam * sig)
        * Real.exp (-(lam * (x - mu)) + (lam * sig) ^ 2 / 2)
      = stdNormPdf ((x - mu) / sig) := by
    intro mu sig lam x hs
    unfold stdNormPdf
    rw [mul_assoc, ← Real.exp_add]
    congr 2
    field_simp
    ring
  exact ⟨EMG_gen1_cdf_closed_form, EMG_gen1_pdf_closed_form, gauss_cancel⟩

/-- Bundled basic facts about the EMG density: it is the derivative of the cumulative function, a rewriting of its defining expression, nonnegativity, and strict positivity. -/
theorem EMG_pdf_basic_facts :
    (∀ (mu sig lam : ℝ) (hs : 0 < sig) (hl : 0 < lam) (x : ℝ), HasDerivAt (fun y => EMG_gen1.cdf y mu sig lam) (EMG_gen1.pdf x mu sig lam) x)
    ∧ (∀ (x mu sig lam : ℝ), EMG_gen1.pdf x mu sig lam
      = 0.5 * lam * Real.exp (0.5 * lam * (2 * mu + lam * sig ^ 2 - 2 * x))
          * erfc ((mu + lam * sig ^ 2 - x) / (sig * Real.sqrt 2)))
    ∧ (∀ (mu sig lam : ℝ) (hl : 0 ≤ lam) (x : ℝ), 0 ≤ EMG_gen1.pdf x mu sig lam)
    ∧ (∀ (mu sig lam : ℝ) (hl : 0 < lam) (x : ℝ), 0 < EMG_gen1.pdf x mu sig lam) := by
  have EMG_cdf_hasDerivAt : ∀ (mu sig lam : ℝ) (hs : 0 < sig) (hl : 0 < lam) (x : ℝ), HasDerivAt (fun y => EMG_gen1.cdf y mu sig lam) (EMG_gen1.pdf x mu sig lam) x := by
    intro mu sig lam hs hl x
    have hs' : sig ≠ 0 := hs.ne'
    have hl' : lam ≠ 0 := hl.ne'
    set g : ℝ → ℝ := fun y => (y - mu) / sig with hg_def
    set h : ℝ → ℝ := fun y => (y - mu) / sig - lam * sig with hh_def
    set k : ℝ → ℝ := fun y => -(lam * (y - mu)) + (lam * sig) ^ 2 / 2 with hk_def
    have hg : HasDerivAt g (1 / sig) x := by
      simpa using ((hasDerivAt_id x).sub_const mu).div_const sig
    have hh : HasDerivAt h (1 / sig) x := hg.sub_const _
    have hk : HasDerivAt k (-lam) x := by
      have h1 : HasDerivAt (fun y => lam * (y - mu)) (lam * 1) x :=
        ((hasDerivAt_id x).sub_const mu).const_mul lam
      simpa using (h1.neg).add_const ((lam * sig) ^ 2 / 2)
    have h1 : HasDerivAt (fun y => stdNormCdf (g y)) (stdNormPdf (g x) * (1 / sig)) x :=
      ((stdNormCdf_facts.2.1) (g x)).comp x hg
    have h2 : HasDerivAt (fun y => stdNormCdf (h y)) (stdNormPdf (h x) * (1 / sig)) x :=
      ((stdNormCdf_facts.2.1) (h x)).comp x hh
    have h3 : HasDerivAt (fun y => Real.exp (k y)) (Real.exp (k x) * (-lam)) x := hk.exp
    have hprod : HasDerivAt (fun y => stdNormCdf (h y) * Real.exp (k y))
        (stdNormPdf (h x) * (1 / sig) * Real.exp (k x)
          + stdNormCdf (h x) * (Real.exp (k x) * (-lam))) x := h2.mul h3
    have htotal : HasDerivAt (fun y => stdNormCdf (g y) - stdNormCdf (h y) * Real.exp (k y))
        (stdNormPdf (g x) * (1 / sig)
          - (stdNormPdf (h x) * (1 / sig) * Real.exp (k x)
              + stdNormCdf (h x) * (Real.exp (k x) * (-lam)))) x := h1.sub hprod
    have cancel := (EMG_closed_form_facts.2.2) mu sig lam x hs'
    have hval : stdNormPdf (g x) * (1 / sig)
        - (stdNormPdf (h x) * (1 / sig) * Real.exp (k x)
            + stdNormCdf (h x) * (Real.exp (k x) * (-lam)))
        = EMG_gen1.pdf x mu sig lam := by
      rw [(EMG_closed_form_facts.2.1) mu sig lam x hs']
      simp only [hg_def, hh_def, hk_def]
      linear_combination (-1 / sig) * cancel
    rw [hval] at htotal
    refine htotal.congr_of_eventuallyEq (Eventually.of_forall fun y => ?_)
    show EMG_gen1.cdf y mu sig lam = stdNormCdf (g y) - stdNormCdf (h y) * Real.exp (k y)
    simp only [hg_def, hh_def, hk_def]
    exact (EMG_closed_form_facts.1) mu sig lam y hs' hl'
  have EMG_gen1_pdf_def : ∀ (x mu sig lam : ℝ), EMG_gen1.pdf x mu sig lam
      = 0.5 * lam * Real.exp (0.5 * lam * (2 * mu + lam * sig ^ 2 - 2 * x))
          * erfc ((mu + lam * sig ^ 2 - x) / (sig * Real.sqrt 2)) := by
    intro x mu sig lam
    exact
      (rfl)
  have EMG_pdf_nonneg : ∀ (mu sig lam : ℝ) (hl : 0 ≤ lam) (x : ℝ), 0 ≤ EMG_gen1.pdf x mu sig lam := by
    intro mu sig lam hl x
    rw [EMG_gen1_pdf_def]
    have := (erfc_facts.2.2.1) ((mu + lam * sig ^ 2 - x) / (sig * Real.sqrt 2))
    have := Real.exp_pos (0.5 * lam * (2 * mu + lam * sig ^ 2 - 2 * x))
    positivity
  have EMG_pdf_pos : ∀ (mu sig lam : ℝ) (hl : 0 < lam) (x : ℝ), 0 < EMG_gen1.pdf x mu sig lam := by
    intro mu sig lam hl x
    rw [EMG_gen1_pdf_def]
    have := (erfc_facts.2.2.2.2.1) ((mu + lam * sig ^ 2 - x) / (sig * Real.sqrt 2))
    have := Real.exp_pos (0.5 * lam * (2 * mu + lam * sig ^ 2 - 2 * x))
    positivity
  exact ⟨EMG_cdf_hasDerivAt, EMG_gen1_pdf_def, EMG_pdf_nonneg, EMG_pdf_pos⟩

/-! ### Nonnegativity and positivity of the EMG density -/

/-! ### Exponential-tail helpers -/

/-- Bundled integrability and tail estimates used for the EMG cumulative limits: reflection of integrability domains, the exponential integral over a left half-line, the Chernoff-type bound on the standard normal CDF, affine argument limits, and the vanishing of the correction term at plus infinity. -/
theorem EMG_tail_facts :
    (∀ {f : ℝ → ℝ} {c : ℝ} (hf : IntegrableOn f (Ioi (-c))), IntegrableOn (fun x => f (-x)) (Iic c))
    ∧ (∀ {a : ℝ} (ha : 0 < a) (y : ℝ), IntegrableOn (fun t => Real.exp (a * t)) (Iic y))
    ∧ (∀ {a : ℝ} (ha : 0 < a) (y : ℝ), ∫ t in Iic y, Real.exp (a * t) = Real.exp (a * y) / a)
    ∧ (∀ {a : ℝ} (ha : 0 < a) (y : ℝ), stdNormCdf y
      ≤ (Real.sqrt (2 * Real.pi))⁻¹ * Real.exp (a ^ 2 / 2) * (Real.exp (a * y) / a))
    ∧ (∀ (mu sig : ℝ) (hs : 0 < sig), Tendsto (fun x : ℝ => (x - mu) / sig) atTop atTop)
    ∧ (∀ (mu sig : ℝ) (hs : 0 < sig), Tendsto (fun x : ℝ => (x - mu) / sig) atBot atBot)
    ∧ (∀ (mu sig lam : ℝ) (hs : 0 < sig) (hl : 0 < lam), Tendsto (fun x : ℝ => stdNormCdf ((x - mu) / sig - lam * sig)
      * Real.exp (-(lam * (x - mu)) + (lam * sig) ^ 2 / 2)) atTop (𝓝 0)) := by
  have integrableOn_Iic_comp_neg : ∀ {f : ℝ → ℝ} {c : ℝ} (hf : IntegrableOn f (Ioi (-c))), IntegrableOn (fun x => f (-x)) (Iic c) := by
    intro f c hf
    have key := (MeasurePreserving.integrableOn_comp_preimage
      (Measure.measurePreserving_neg (volume : Measure ℝ))
      (Homeomorph.neg ℝ).measurableEmbedding).2 hf
    have hset : (Set.preimage Neg.neg (Ioi (-c)) : Set ℝ) = Iio c := by
      ext t; simp
    rw [hset] at key
    have key2 : IntegrableOn (fun x : ℝ => f (-x)) (Iio c) := key
    exact integrableOn_Iic_iff_integrableOn_Iio.2 key2
  have integrableOn_exp_mul_Iic : ∀ {a : ℝ} (ha : 0 < a) (y : ℝ), IntegrableOn (fun t => Real.exp (a * t)) (Iic y) := by
    intro a ha y
    have h1 : IntegrableOn (fun x : ℝ => Real.exp (-a * x)) (Ioi (-y)) :=
      exp_neg_integrableOn_Ioi (-y) ha
    have h2 := integrableOn_Iic_comp_neg (c := y) h1
    refine h2.congr_fun (fun t _ => ?_) measurableSet_Iic
    ring_nf
  have integral_exp_mul_Iic : ∀ {a : ℝ} (ha : 0 < a) (y : ℝ), ∫ t in Iic y, Real.exp (a * t) = Real.exp (a * y) / a := by
    intro a ha y
    have h1 : ∫ t in Iic y, Real.exp (a * t)
        = ∫ x in Ioi (-y), Real.exp (a * (-x)) := by
      have := integral_comp_neg_Ioi (-y) (fun t => Real.exp (a * t))
      rw [neg_neg] at this
      rw [← this]
    rw [h1]
    have h2 : ∀ x : ℝ, Real.exp (a * (-x)) = (fun u => Real.exp (-u)) (x * a) := by
      intro x; simp only []; ring_nf
    rw [integral_congr_ae (Eventually.of_forall fun x => h2 x),
      MeasureTheory.integral_comp_mul_right_Ioi (fun u => Real.exp (-u)) (-y) ha,
      integral_exp_neg_Ioi]
    rw [smul_eq_mul]
    rw [show -y * a = -(a * y) by ring, neg_neg]
    rw [div_eq_inv_mul]
  have stdNormCdf_le_exp : ∀ {a : ℝ} (ha : 0 < a) (y : ℝ), stdNormCdf y
      ≤ (Real.sqrt (2 * Real.pi))⁻¹ * Real.exp (a ^ 2 / 2) * (Real.exp (a * y) / a) := by
    intro a ha y
    have hmono : ∀ t ∈ Iic y, stdNormPdf t
        ≤ (Real.sqrt (2 * Real.pi))⁻¹ * Real.exp (a ^ 2 / 2) * Real.exp (a * t) := by
      intro t _
      unfold stdNormPdf
      rw [mul_assoc, ← Real.exp_add]
      have h1 : -t ^ 2 / 2 ≤ a ^ 2 / 2 + a * t := by nlinarith [sq_nonneg (t + a)]
      have h2 := Real.exp_le_exp.2 h1
      have h3 : (0:ℝ) < (Real.sqrt (2 * Real.pi))⁻¹ := inv_pos.mpr (stdNormPdf_facts.1)
      exact mul_le_mul_of_nonneg_left h2 h3.le
    have hint : IntegrableOn
        (fun t => (Real.sqrt (2 * Real.pi))⁻¹ * Real.exp (a ^ 2 / 2) * Real.exp (a * t))
        (Iic y) := ((integrableOn_exp_mul_Iic ha y).const_mul _)
    have hle := setIntegral_mono_on ((stdNormPdf_facts.2.2.2.2.2.1).integrableOn) hint
      measurableSet_Iic hmono
    calc stdNormCdf y ≤ ∫ t in Iic y,
          (Real.sqrt (2 * Real.pi))⁻¹ * Real.exp (a ^ 2 / 2) * Real.exp (a * t) := hle
      _ = (Real.sqrt (2 * Real.pi))⁻¹ * Real.exp (a ^ 2 / 2) * (Real.exp (a * y) / a) := by
          rw [MeasureTheory.integral_mul_left, integral_exp_mul_Iic ha y]
  have tendsto_std_arg_atTop : ∀ (mu sig : ℝ) (hs : 0 < sig), Tendsto (fun x : ℝ => (x - mu) / sig) atTop atTop := by
    intro mu sig hs
    have h : Tendsto (fun x : ℝ => x - mu) atTop atTop :=
      tendsto_atTop_add_const_right atTop (-mu) tendsto_id
    exact h.atTop_div_const hs
  have tendsto_std_arg_atBot : ∀ (mu sig : ℝ) (hs : 0 < sig), Tendsto (fun x : ℝ => (x - mu) / sig) atBot atBot := by
    intro mu sig hs
    have h : Tendsto (fun x : ℝ => x - mu) atBot atBot :=
      tendsto_atBot_add_const_right atBot (-mu) tendsto_id
    exact h.atBot_div_const hs
  have EMG_cdf_second_term_tendsto_atTop : ∀ (mu sig lam : ℝ) (hs : 0 < sig) (hl : 0 < lam), Tendsto (fun x : ℝ => stdNormCdf ((x - mu) / sig - lam * sig)
      * Real.exp (-(lam * (x - mu)) + (lam * sig) ^ 2 / 2)) atTop (𝓝 0) := by
    intro mu sig lam hs hl
    have hexp : Tendsto (fun x : ℝ => Real.exp (-(lam * (x - mu)) + (lam * sig) ^ 2 / 2))
        atTop (𝓝 0) := by
      have h1 : Tendsto (fun x : ℝ => lam * (x - mu)) atTop atTop := by
        apply Tendsto.const_mul_atTop hl
        exact tendsto_atTop_add_const_right atTop (-mu) tendsto_id
      have h2 : Tendsto (fun x : ℝ => -(lam * (x - mu))) atTop atBot :=
        tendsto_neg_atTop_atBot.comp h1
      have h3 : Tendsto (fun x : ℝ => -(lam * (x - mu)) + (lam * sig) ^ 2 / 2) atTop atBot :=
        tendsto_atBot_add_const_right atTop ((lam * sig) ^ 2 / 2) h2
      exact Real.tendsto_exp_atBot.comp h3
    refine tendsto_of_tendsto_of_tendsto_of_le_of_le tendsto_const_nhds hexp ?_ ?_
    · intro x
      exact mul_nonneg ((stdNormCdf_facts.2.2.2.1) _) (Real.exp_pos _).le
    · intro x
      have h1 := (stdNormCdf_facts.2.2.2.2.1) ((x - mu) / sig - lam * sig)
      have h2 := (Real.exp_pos (-(lam * (x - mu)) + (lam * sig) ^ 2 / 2)).le
      nlinarith [(stdNormCdf_facts.2.2.2.1) ((x - mu) / sig - lam * sig)]
  exact ⟨integrableOn_Iic_comp_neg, integrableOn_exp_mul_Iic, integral_exp_mul_Iic, stdNormCdf_le_exp, tendsto_std_arg_atTop, tendsto_std_arg_atBot, EMG_cdf_second_term_tendsto_atTop⟩

/-! ### Limits of the EMG CDF at the two infinities -/

/-- Constant in the exponential bound on the second CDF term in the lower tail. -/
def EMGtailK (sig lam : ℝ) : ℝ :=
  (Real.sqrt (2 * Real.pi))⁻¹ * Real.exp ((2 * (lam * sig)) ^ 2 / 2) / (2 * (lam * sig))
    * Real.exp (-(2 * (lam * sig)) * (lam * sig) + (lam * sig) ^ 2 / 2)

/-- Bundled bounds on the exponential correction term of the EMG cumulative function and its vanishing at minus infinity. -/
theorem EMG_second_term_facts :
    (∀ (mu sig lam x : ℝ) (hs : 0 < sig) (hl : 0 < lam), stdNormCdf ((x - mu) / sig - lam * sig)
        * Real.exp (-(lam * (x - mu)) + (lam * sig) ^ 2 / 2)
      ≤ EMGtailK sig lam * Real.exp (lam * (x - mu)))
    ∧ (∀ (mu sig lam : ℝ) (hs : 0 < sig) (hl : 0 < lam), Tendsto (fun x : ℝ => stdNormCdf ((x - mu) / sig - lam * sig)
      * Real.exp (-(lam * (x - mu)) + (lam * sig) ^ 2 / 2)) atBot (𝓝 0)) := by
  have EMG_second_term_le : ∀ (mu sig lam x : ℝ) (hs : 0 < sig) (hl : 0 < lam), stdNormCdf ((x - mu) / sig - lam * sig)
        * Real.exp (-(lam * (x - mu)) + (lam * sig) ^ 2 / 2)
      ≤ EMGtailK sig lam * Real.exp (lam * (x - mu)) := by
    intro mu sig lam x hs hl
    set v := lam * sig with hv
    have hv0 : 0 < v := mul_pos hl hs
    have hch := (EMG_tail_facts.2.2.2.1) (show (0:ℝ) < 2 * v by linarith) ((x - mu) / sig - v)
    have hE := (Real.exp_pos (-(lam * (x - mu)) + v ^ 2 / 2)).le
    have step := mul_le_mul_of_nonneg_right hch hE
    refine step.trans (le_of_eq ?_)
    have hexp2 : Real.exp (2 * v * ((x - mu) / sig - v))
        * Real.exp (-(lam * (x - mu)) + v ^ 2 / 2)
        = Real.exp (-(2 * v) * v + v ^ 2 / 2) * Real.exp (lam * (x - mu)) := by
      rw [← Real.exp_add, ← Real.exp_add]
      congr 1
      rw [hv]
      field_simp
      ring
    calc (Real.sqrt (2 * Real.pi))⁻¹ * Real.exp ((2 * v) ^ 2 / 2)
          * (Real.exp (2 * v * ((x - mu) / sig - v)) / (2 * v))
          * Real.exp (-(lam * (x - mu)) + v ^ 2 / 2)
        = (Real.sqrt (2 * Real.pi))⁻¹ * Real.exp ((2 * v) ^ 2 / 2) / (2 * v)
          * (Real.exp (2 * v * ((x - mu) / sig - v))
              * Real.exp (-(lam * (x - mu)) + v ^ 2 / 2)) := by ring
      _ = (Real.sqrt (2 * Real.pi))⁻¹ * Real.exp ((2 * v) ^ 2 / 2) / (2 * v)
          * (Real.exp (-(2 * v) * v + v ^ 2 / 2) * Real.exp (lam * (x - mu))) := by
            rw [hexp2]
      _ = EMGtailK sig lam * Real.exp (lam * (x - mu)) := by rw [EMGtailK, hv]; ring
  have EMG_cdf_second_term_tendsto_atBot : ∀ (mu sig lam : ℝ) (hs : 0 < sig) (hl : 0 < lam), Tendsto (fun x : ℝ => stdNormCdf ((x - mu) / sig - lam * sig)
      * Real.exp (-(lam * (x - mu)) + (lam * sig) ^ 2 / 2)) atBot (𝓝 0) := by
    intro mu sig lam hs hl
    have hlim : Tendsto (fun x : ℝ => EMGtailK sig lam * Real.exp (lam * (x - mu))) atBot
        (𝓝 0) := by
      have h1 : Tendsto (fun x : ℝ => lam * (x - mu)) atBot atBot := by
        apply Tendsto.const_mul_atBot hl
        exact tendsto_atBot_add_const_right atBot (-mu) tendsto_id
      have h2 : Tendsto (fun x : ℝ => Real.exp (lam * (x - mu))) atBot (𝓝 0) :=
        Real.tendsto_exp_atBot.comp h1
      simpa using h2.const_mul (EMGtailK sig lam)
    refine tendsto_of_tendsto_of_tendsto_of_le_of_le tendsto_const_nhds hlim ?_ ?_
    · intro x
      exact mul_nonneg ((stdNormCdf_facts.2.2.2.1) _) (Real.exp_pos _).le
    · intro x
      exact EMG_second_term_le mu sig lam x hs hl
  exact ⟨EMG_second_term_le, EMG_cdf_second_term_tendsto_atBot⟩

/-- Bundled global facts about the EMG cumulative function and density: limits at both infinities, monotonicity, strict monotonicity, bounds in the unit interval, continuity of the density, and integrability of the density with total mass one. -/
theorem EMG_cdf_global_facts :
    (∀ (mu sig lam : ℝ) (hs : 0 < sig) (hl : 0 < lam), Tendsto (fun x => EMG_gen1.cdf x mu sig lam) atTop (𝓝 1))
    ∧ (∀ (mu sig lam : ℝ) (hs : 0 < sig) (hl : 0 < lam), Tendsto (fun x => EMG_gen1.cdf x mu sig lam) atBot (𝓝 0))
    ∧ (∀ (mu sig lam : ℝ) (hs : 0 < sig) (hl : 0 < lam), Monotone (fun x => EMG_gen1.cdf x mu sig lam))
    ∧ (∀ (mu sig lam : ℝ) (hs : 0 < sig) (hl : 0 < lam), StrictMono (fun x => EMG_gen1.cdf x mu sig lam))
    ∧ (∀ (mu sig lam : ℝ) (hs : 0 < sig) (hl : 0 < lam) (x : ℝ), 0 ≤ EMG_gen1.cdf x mu sig lam)
    ∧ (∀ (mu sig lam : ℝ) (hs : 0 < sig) (hl : 0 < lam) (x : ℝ), EMG_gen1.cdf x mu sig lam ≤ 1)
    ∧ (∀ (mu sig lam : ℝ), Continuous (fun x => EMG_gen1.pdf x mu sig lam))
    ∧ (∀ (mu sig lam : ℝ) (hs : 0 < sig) (hl : 0 < lam), IntegrableOn (fun x => EMG_gen1.pdf x mu sig lam) (Ioi 0))
    ∧ (∀ (mu sig lam : ℝ) (hs : 0 < sig) (hl : 0 < lam), IntegrableOn (fun x => EMG_gen1.pdf x mu sig lam) (Iic 0))
    ∧ (∀ (mu sig lam : ℝ) (hs : 0 < sig) (hl : 0 < lam), Integrable (fun x => EMG_gen1.pdf x mu sig lam))
    ∧ (∀ (mu sig lam : ℝ) (hs : 0 < sig) (hl : 0 < lam), ∫ x, EMG_gen1.pdf x mu sig lam = 1) := by
  have EMG_cdf_tendsto_atTop : ∀ (mu sig lam : ℝ) (hs : 0 < sig) (hl : 0 < lam), Tendsto (fun x => EMG_gen1.cdf x mu sig lam) atTop (𝓝 1) := by
    intro mu sig lam hs hl
    have h1 : Tendsto (fun x : ℝ => stdNormCdf ((x - mu) / sig)) atTop (𝓝 1) :=
      (stdNormCdf_facts.2.2.2.2.2.2.1).comp ((EMG_tail_facts.2.2.2.2.1) mu sig hs)
    have h2 := (EMG_tail_facts.2.2.2.2.2.2) mu sig lam hs hl
    have h3 := h1.sub h2
    rw [sub_zero] at h3
    refine h3.congr fun x => ?_
    exact ((EMG_closed_form_facts.1) mu sig lam x hs.ne' hl.ne').symm
  have EMG_cdf_tendsto_atBot : ∀ (mu sig lam : ℝ) (hs : 0 < sig) (hl : 0 < lam), Tendsto (fun x => EMG_gen1.cdf x mu sig lam) atBot (𝓝 0) := by
    intro mu sig lam hs hl
    have h1 : Tendsto (fun x : ℝ => stdNormCdf ((x - mu) / sig)) atBot (𝓝 0) :=
      (stdNormCdf_facts.2.2.2.2.2.2.2).comp ((EMG_tail_facts.2.2.2.2.2.1) mu sig hs)
    have h2 := (EMG_second_term_facts.2) mu sig lam hs hl
    have h3 := h1.sub h2
    rw [sub_zero] at h3
    refine h3.congr fun x => ?_
    exact ((EMG_closed_form_facts.1) mu sig lam x hs.ne' hl.ne').symm
  have EMG_cdf_mono : ∀ (mu sig lam : ℝ) (hs : 0 < sig) (hl : 0 < lam), Monotone (fun x => EMG_gen1.cdf x mu sig lam) := by
    intro mu sig lam hs hl
    exact
      (monotone_of_hasDerivAt_nonneg ((EMG_pdf_basic_facts.1) mu sig lam hs hl)
          fun x => (EMG_pdf_basic_facts.2.2.1) mu sig lam hl.le x)
  have EMG_cdf_strictMono : ∀ (mu sig lam : ℝ) (hs : 0 < sig) (hl : 0 < lam), StrictMono (fun x => EMG_gen1.cdf x mu sig lam) := by
    intro mu sig lam hs hl
    exact
      (strictMono_of_hasDerivAt_pos ((EMG_pdf_basic_facts.1) mu sig lam hs hl)
          fun x => (EMG_pdf_basic_facts.2.2.2) mu sig lam hl x)
  have EMG_cdf_nonneg : ∀ (mu sig lam : ℝ) (hs : 0 < sig) (hl : 0 < lam) (x : ℝ), 0 ≤ EMG_gen1.cdf x mu sig lam := by
    intro mu sig lam hs hl x
    exact
      ((EMG_cdf_mono mu sig lam hs hl).le_of_tendsto (EMG_cdf_tendsto_atBot mu sig lam hs hl) x)
  have EMG_cdf_le_one : ∀ (mu sig lam : ℝ) (hs : 0 < sig) (hl : 0 < lam) (x : ℝ), EMG_gen1.cdf x mu sig lam ≤ 1 := by
    intro mu sig lam hs hl x
    exact
      ((EMG_cdf_mono mu sig lam hs hl).ge_of_tendsto (EMG_cdf_tendsto_atTop mu sig lam hs hl) x)
  have continuous_EMG_pdf : ∀ (mu sig lam : ℝ), Continuous (fun x => EMG_gen1.pdf x mu sig lam) := by
    intro mu sig lam
    have : (fun x => EMG_gen1.pdf x mu sig lam)
        = fun x => 0.5 * lam * Real.exp (0.5 * lam * (2 * mu + lam * sig ^ 2 - 2 * x))
            * erfc ((mu + lam * sig ^ 2 - x) / (sig * Real.sqrt 2)) := by
      funext x; exact (EMG_pdf_basic_facts.2.1) x mu sig lam
    rw [this]
    refine Continuous.mul (continuous_const.mul ?_) ((erfc_facts.2.2.2.2.2.1).comp ?_)
    · fun_prop
    · fun_prop
  have integrableOn_EMG_pdf_Ioi : ∀ (mu sig lam : ℝ) (hs : 0 < sig) (hl : 0 < lam), IntegrableOn (fun x => EMG_gen1.pdf x mu sig lam) (Ioi 0) := by
    intro mu sig lam hs hl
    set c := lam * Real.exp ((lam * sig) ^ 2 / 2 + lam * mu) with hc
    have hg : IntegrableOn (fun x : ℝ => c * Real.exp (-lam * x)) (Ioi 0) :=
      (exp_neg_integrableOn_Ioi 0 hl).const_mul c
    refine Integrable.mono' hg
      ((continuous_EMG_pdf mu sig lam).aestronglyMeasurable) ?_
    refine Eventually.of_forall fun x => ?_
    rw [Real.norm_of_nonneg ((EMG_pdf_basic_facts.2.2.1) mu sig lam hl.le x)]
    rw [(EMG_closed_form_facts.2.1) mu sig lam x hs.ne']
    have h1 : stdNormCdf ((x - mu) / sig - lam * sig) ≤ 1 := (stdNormCdf_facts.2.2.2.2.1) _
    have h2 : (0:ℝ) < Real.exp (-(lam * (x - mu)) + (lam * sig) ^ 2 / 2) := Real.exp_pos _
    have key : lam * Real.exp (-(lam * (x - mu)) + (lam * sig) ^ 2 / 2)
        = c * Real.exp (-lam * x) := by
      rw [hc, mul_assoc, ← Real.exp_add]
      congr 2
      ring
    calc lam * Real.exp (-(lam * (x - mu)) + (lam * sig) ^ 2 / 2)
          * stdNormCdf ((x - mu) / sig - lam * sig)
        ≤ lam * Real.exp (-(lam * (x - mu)) + (lam * sig) ^ 2 / 2) * 1 := by
          have := (stdNormCdf_facts.2.2.2.1) ((x - mu) / sig - lam * sig)
          have h3 : (0:ℝ) ≤ lam * Real.exp (-(lam * (x - mu)) + (lam * sig) ^ 2 / 2) := by
            positivity
          exact mul_le_mul_of_nonneg_left h1 h3
      _ = c * Real.exp (-lam * x) := by rw [mul_one, key]
  have integrableOn_EMG_pdf_Iic : ∀ (mu sig lam : ℝ) (hs : 0 < sig) (hl : 0 < lam), IntegrableOn (fun x => EMG_gen1.pdf x mu sig lam) (Iic 0) := by
    intro mu sig lam hs hl
    set c := lam * EMGtailK sig lam * Real.exp (-(lam * mu)) with hc
    have hg : IntegrableOn (fun x : ℝ => c * Real.exp (lam * x)) (Iic 0) :=
      ((EMG_tail_facts.2.1) hl 0).const_mul c
    refine Integrable.mono' hg
      ((continuous_EMG_pdf mu sig lam).aestronglyMeasurable) ?_
    refine Eventually.of_forall fun x => ?_
    rw [Real.norm_of_nonneg ((EMG_pdf_basic_facts.2.2.1) mu sig lam hl.le x)]
    rw [(EMG_closed_form_facts.2.1) mu sig lam x hs.ne']
    have h1 := (EMG_second_term_facts.1) mu sig lam x hs hl
    have key : lam * (EMGtailK sig lam * Real.exp (lam * (x - mu)))
        = c * Real.exp (lam * x) := by
      rw [hc, mul_assoc, mul_assoc, ← Real.exp_add]
      congr 2
      ring
    calc lam * Real.exp (-(lam * (x - mu)) + (lam * sig) ^ 2 / 2)
          * stdNormCdf ((x - mu) / sig - lam * sig)
        = lam * (stdNormCdf ((x - mu) / sig - lam * sig)
            * Real.exp (-(lam * (x - mu)) + (lam * sig) ^ 2 / 2)) := by ring
      _ ≤ lam * (EMGtailK sig lam * Real.exp (lam * (x - mu))) :=
          mul_le_mul_of_nonneg_left h1 hl.le
      _ = c * Real.exp (lam * x) := key
  have integrable_EMG_pdf : ∀ (mu sig lam : ℝ) (hs : 0 < sig) (hl : 0 < lam), Integrable (fun x => EMG_gen1.pdf x mu sig lam) := by
    intro mu sig lam hs hl
    rw [← integrableOn_univ, ← Iic_union_Ioi (a := (0:ℝ))]
    exact (integrableOn_EMG_pdf_Iic mu sig lam hs hl).union
      (integrableOn_EMG_pdf_Ioi mu sig lam hs hl)
  have EMG_pdf_integral_one : ∀ (mu sig lam : ℝ) (hs : 0 < sig) (hl : 0 < lam), ∫ x, EMG_gen1.pdf x mu sig lam = 1 := by
    intro mu sig lam hs hl
    have h := MeasureTheory.integral_of_hasDerivAt_of_tendsto
      ((EMG_pdf_basic_facts.1) mu sig lam hs hl)
      (integrable_EMG_pdf mu sig lam hs hl)
      (EMG_cdf_tendsto_atBot mu sig lam hs hl)
      (EMG_cdf_tendsto_atTop mu sig lam hs hl)
    simpa using h
  exact ⟨EMG_cdf_tendsto_atTop, EMG_cdf_tendsto_atBot, EMG_cdf_mono, EMG_cdf_strictMono, EMG_cdf_nonneg, EMG_cdf_le_one, continuous_EMG_pdf, integrableOn_EMG_pdf_Ioi, integrableOn_EMG_pdf_Iic, integrable_EMG_pdf, EMG_pdf_integral_one⟩

/-! ### Integrability of the EMG density and total mass 1 -/

/-! ### Claim theorems C1 and C2 -/

/-- Claim C1: for every valid parameter triple (`mu` finite, `sig > 0`,
`lam > 0`), the analytic density `EMG_gen1._pdf` is the derivative of the
analytic cumulative function `EMG_gen1._cdf` at every point `x`; in
particular the density value always agrees with the density derived from
the cumulative function alone (its derivative) within any tolerance such
as `1e-6`. -/
theorem claim_C1_pdf_is_deriv_of_cdf (mu sig lam : ℝ) (hs : 0 < sig) (hl : 0 < lam)
    (x : ℝ) :
    HasDerivAt (fun y => EMG_gen1.cdf y mu sig lam) (EMG_gen1.pdf x mu sig lam) x
    ∧ |deriv (fun y => EMG_gen1.cdf y mu sig lam) x - EMG_gen1.pdf x mu sig lam|
        ≤ 1e-6 := by
  have h := (EMG_pdf_basic_facts.1) mu sig lam hs hl x
  refine ⟨h, ?_⟩
  rw [h.deriv, sub_self, abs_zero]
  norm_num

/-- Witness for C1, at the spec's concrete scenario `mu=0, sigma=1,
lambda=0.5`, evaluated at `x=0`. -/
theorem claim_C1_witness :
    HasDerivAt (fun y => EMG_gen1.cdf y 0 1 0.5) (EMG_gen1.pdf 0 0 1 0.5) 0
    ∧ |deriv (fun y => EMG_gen1.cdf y 0 1 0.5) 0 - EMG_gen1.pdf 0 0 1 0.5| ≤ 1e-6 :=
  claim_C1_pdf_is_deriv_of_cdf 0 1 0.5 (by norm_num) (by norm_num) 0

/-- Claim C2: for every valid parameter triple, the EMG cumulative function
is monotone non-decreasing in `x`, takes values in `[0,1]`, tends to `0` at
`-∞` and to `1` at `+∞`, and the density is non-negative and integrates to
`1` over the real line. -/
theorem claim_C2_cdf_invariants (mu sig lam : ℝ) (hs : 0 < sig) (hl : 0 < lam) :
    Monotone (fun x => EMG_gen1.cdf x mu sig lam)
    ∧ (∀ x, EMG_gen1.cdf x mu sig lam ∈ Icc (0:ℝ) 1)
    ∧ Tendsto (fun x => EMG_gen1.cdf x mu sig lam) atBot (𝓝 0)
    ∧ Tendsto (fun x => EMG_gen1.cdf x mu sig lam) atTop (𝓝 1)
    ∧ (∀ x, 0 ≤ EMG_gen1.pdf x mu sig lam)
    ∧ ∫ x, EMG_gen1.pdf x mu sig lam = 1 :=
  ⟨(EMG_cdf_global_facts.2.2.1) mu sig lam hs hl,
   fun x => ⟨(EMG_cdf_global_facts.2.2.2.2.1) mu sig lam hs hl x, (EMG_cdf_global_facts.2.2.2.2.2.1) mu sig lam hs hl x⟩,
   (EMG_cdf_global_facts.2.1) mu sig lam hs hl,
   (EMG_cdf_global_facts.1) mu sig lam hs hl,
   fun x => (EMG_pdf_basic_facts.2.2.1) mu sig lam hl.le x,
   (EMG_cdf_global_facts.2.2.2.2.2.2.2.2.2.2) mu sig lam hs hl⟩

/-- Witness for C2 at `mu=0, sigma=1, lambda=0.5`. -/
theorem claim_C2_witness :
    Monotone (fun x => EMG_gen1.cdf x 0 1 0.5)
    ∧ (∀ x, EMG_gen1.cdf x 0 1 0.5 ∈ Icc (0:ℝ) 1)
    ∧ Tendsto (fun x => EMG_gen1.cdf x 0 1 0.5) atBot (𝓝 0)
    ∧ Tendsto (fun x => EMG_gen1.cdf x 0 1 0.5) atTop (𝓝 1)
    ∧ (∀ x, 0 ≤ EMG_gen1.pdf x 0 1 0.5)
    ∧ ∫ x, EMG_gen1.pdf x 0 1 0.5 = 1 :=
  claim_C2_cdf_invariants 0 1 0.5 (by norm_num) (by norm_num)

/-! ### The analytic-decomposition sampler: Normal + Exponential (claim C5) -/

/-- Density of `scipy.stats.norm(loc, scale)`. -/
def normPdf (x loc scale : ℝ) : ℝ := stdNormPdf ((x - loc) / scale) / scale

/-- Modelled from the spec ("EMG: distribution of the sum of an independent
normal and exponential random variable", sampled by `EMG_gen3._rvs` as
`st.norm.rvs(loc=mu, scale=sig) + st.expon.rvs(loc=0, scale=1/lam)`):
the cumulative distribution function of the sum `N + E`, obtained by
conditioning on the exponential component, whose density is
`lam * exp(-lam*t)` on `t > 0`:
`P(N + E ≤ x) = ∫_0^∞ lam * exp(-lam*t) * P(N ≤ x - t) dt`. -/
def sumNormExpCdf (x mu sig lam : ℝ) : ℝ :=
  ∫ t in Ioi (0:ℝ), lam * Real.exp (-(lam * t)) * normCdf (x - t) mu sig

/-- The density of the sum `N + E`: the convolution of the normal density
with the exponential density. -/
def sumNormExpPdf (x mu sig lam : ℝ) : ℝ :=
  ∫ t in Ioi (0:ℝ), lam * Real.exp (-(lam * t)) * normPdf (x - t) mu sig

/-- Bundled facts about the normal-plus-exponential mixture representation: substitution identities for half-line integrals, the exponential density integral, pointwise and integral bounds, the convolution identity for the density, continuity and integrability of the integrand, the derivative of the mixture CDF, its nonnegativity and upper bound, and its vanishing at minus infinity. -/
theorem sumNormExp_facts :
    (∀ (f : ℝ → ℝ) (c d : ℝ), ∫ u in Ioi c, f (u - d) = ∫ u in Ioi (c - d), f u)
    ∧ (∀ (f : ℝ → ℝ) (a m sig : ℝ) (hs : 0 < sig), ∫ t in Ioi a, f ((t - m) / sig) = sig * ∫ u in Ioi ((a - m) / sig), f u)
    ∧ (∀ (lam : ℝ) (hl : 0 < lam), ∫ t in Ioi (0:ℝ), lam * Real.exp (-(lam * t)) = 1)
    ∧ (∀ (lam : ℝ) (hl : 0 < lam), IntegrableOn (fun t : ℝ => lam * Real.exp (-(lam * t))) (Ioi 0))
    ∧ (∀ (t : ℝ), stdNormPdf t ≤ (Real.sqrt (2 * Real.pi))⁻¹)
    ∧ (∀ (c : ℝ), ∫ u in Ioi c, stdNormPdf u = 1 - stdNormCdf c)
    ∧ (∀ (mu sig lam : ℝ) (hs : 0 < sig) (hl : 0 < lam) (x : ℝ), sumNormExpPdf x mu sig lam = EMG_gen1.pdf x mu sig lam)
    ∧ (∀ (x mu sig lam : ℝ), Continuous (fun t : ℝ => lam * Real.exp (-(lam * t)) * normCdf (x - t) mu sig))
    ∧ (∀ (x mu sig lam : ℝ), Continuous (fun t : ℝ => lam * Real.exp (-(lam * t)) * normPdf (x - t) mu sig))
    ∧ (∀ (x mu sig lam : ℝ) (hl : 0 < lam), IntegrableOn (fun t : ℝ => lam * Real.exp (-(lam * t)) * normCdf (x - t) mu sig)
      (Ioi 0))
    ∧ (∀ (mu sig lam : ℝ) (hs : 0 < sig) (hl : 0 < lam) (x : ℝ), HasDerivAt (fun y => sumNormExpCdf y mu sig lam) (sumNormExpPdf x mu sig lam) x)
    ∧ (∀ (mu sig lam : ℝ) (hl : 0 < lam) (x : ℝ), 0 ≤ sumNormExpCdf x mu sig lam)
    ∧ (∀ (mu sig lam : ℝ) (hs : 0 < sig) (hl : 0 < lam) (x : ℝ), sumNormExpCdf x mu sig lam ≤ stdNormCdf ((x - mu) / sig))
    ∧ (∀ (mu sig lam : ℝ) (hs : 0 < sig) (hl : 0 < lam), Tendsto (fun x => sumNormExpCdf x mu sig lam) atBot (𝓝 0)) := by
  have integral_comp_sub_Ioi : ∀ (f : ℝ → ℝ) (c d : ℝ), ∫ u in Ioi c, f (u - d) = ∫ u in Ioi (c - d), f u := by
    intro f c d
    rw [← integral_indicator measurableSet_Ioi, ← integral_indicator measurableSet_Ioi]
    have key : ∀ u : ℝ, indicator (Ioi c) (fun u => f (u - d)) u
        = indicator (Ioi (c - d)) f (u - d) := by
      intro u
      by_cases h : u ∈ Ioi c
      · rw [indicator_of_mem h, indicator_of_mem]
        exact sub_lt_sub_right h d
      · rw [indicator_of_not_mem h, indicator_of_not_mem]
        intro hc
        exact h (by simpa using add_lt_add_right hc d)
    rw [integral_congr_ae (Eventually.of_forall key)]
    exact integral_sub_right_eq_self (indicator (Ioi (c - d)) f) d
  have integral_comp_affine_Ioi : ∀ (f : ℝ → ℝ) (a m sig : ℝ) (hs : 0 < sig), ∫ t in Ioi a, f ((t - m) / sig) = sig * ∫ u in Ioi ((a - m) / sig), f u := by
    intro f a m sig hs
    have hinv : (0:ℝ) < sig⁻¹ := inv_pos.mpr hs
    have step1 : ∀ t : ℝ, f ((t - m) / sig) = (fun y => f (y - m / sig)) (t * sig⁻¹) := by
      intro t
      congr 1
      field_simp
    rw [integral_congr_ae (Eventually.of_forall step1),
      MeasureTheory.integral_comp_mul_right_Ioi (fun y => f (y - m / sig)) a hinv,
      integral_comp_sub_Ioi f (a * sig⁻¹) (m / sig)]
    rw [smul_eq_mul, inv_inv]
    congr 2
    field_simp
  have integral_expPdf : ∀ (lam : ℝ) (hl : 0 < lam), ∫ t in Ioi (0:ℝ), lam * Real.exp (-(lam * t)) = 1 := by
    intro lam hl
    have step1 : ∀ t : ℝ, Real.exp (-(lam * t)) = (fun u => Real.exp (-u)) (t * lam) := by
      intro t; simp only []; ring_nf
    rw [MeasureTheory.integral_mul_left,
      integral_congr_ae (Eventually.of_forall step1),
      MeasureTheory.integral_comp_mul_right_Ioi (fun u => Real.exp (-u)) 0 hl]
    rw [zero_mul, integral_exp_neg_Ioi, neg_zero, Real.exp_zero, smul_eq_mul, mul_one,
      mul_inv_cancel₀ hl.ne']
  have integrableOn_expPdf : ∀ (lam : ℝ) (hl : 0 < lam), IntegrableOn (fun t : ℝ => lam * Real.exp (-(lam * t))) (Ioi 0) := by
    intro lam hl
    have h : IntegrableOn (fun t : ℝ => Real.exp (-lam * t)) (Ioi 0) :=
      exp_neg_integrableOn_Ioi 0 hl
    have h2 : IntegrableOn (fun t : ℝ => lam * Real.exp (-lam * t)) (Ioi 0) :=
      h.const_mul lam
    refine h2.congr_fun (fun t _ => ?_) measurableSet_Ioi
    ring_nf
  have stdNormPdf_le : ∀ (t : ℝ), stdNormPdf t ≤ (Real.sqrt (2 * Real.pi))⁻¹ := by
    intro t
    unfold stdNormPdf
    have h1 : Real.exp (-t ^ 2 / 2) ≤ 1 := by
      rw [show (1:ℝ) = Real.exp 0 from (Real.exp_zero).symm]
      apply Real.exp_le_exp.2
      nlinarith [sq_nonneg t]
    nlinarith [inv_pos.mpr (stdNormPdf_facts.1), Real.exp_pos (-t ^ 2 / 2)]
  have integral_stdNormPdf_Ioi : ∀ (c : ℝ), ∫ u in Ioi c, stdNormPdf u = 1 - stdNormCdf c := by
    intro c
    have h2 := intervalIntegral.integral_Iic_add_Ioi (b := c)
      ((stdNormPdf_facts.2.2.2.2.2.1).integrableOn) ((stdNormPdf_facts.2.2.2.2.2.1).integrableOn)
    rw [(stdNormPdf_facts.2.2.2.2.2.2.1)] at h2
    unfold stdNormCdf
    linarith
  have sumNormExpPdf_eq_pdf : ∀ (mu sig lam : ℝ) (hs : 0 < sig) (hl : 0 < lam) (x : ℝ), sumNormExpPdf x mu sig lam = EMG_gen1.pdf x mu sig lam := by
    intro mu sig lam hs hl x
    unfold sumNormExpPdf
    have hpt : ∀ t : ℝ, lam * Real.exp (-(lam * t)) * normPdf (x - t) mu sig
        = lam * Real.exp (-(lam * (x - mu)) + (lam * sig) ^ 2 / 2) / sig
          * stdNormPdf ((t - (x - mu - lam * sig ^ 2)) / sig) := by
      intro t
      unfold normPdf stdNormPdf
      have hexp : Real.exp (-(lam * t)) * Real.exp (-((x - t - mu) / sig) ^ 2 / 2)
          = Real.exp (-(lam * (x - mu)) + (lam * sig) ^ 2 / 2)
            * Real.exp (-((t - (x - mu - lam * sig ^ 2)) / sig) ^ 2 / 2) := by
        rw [← Real.exp_add, ← Real.exp_add]
        congr 1
        field_simp
        ring
      calc lam * Real.exp (-(lam * t))
            * ((Real.sqrt (2 * Real.pi))⁻¹ * Real.exp (-((x - t - mu) / sig) ^ 2 / 2) / sig)
          = lam * (Real.sqrt (2 * Real.pi))⁻¹ / sig
            * (Real.exp (-(lam * t)) * Real.exp (-((x - t - mu) / sig) ^ 2 / 2)) := by
            ring
        _ = lam * (Real.sqrt (2 * Real.pi))⁻¹ / sig
            * (Real.exp (-(lam * (x - mu)) + (lam * sig) ^ 2 / 2)
              * Real.exp (-((t - (x - mu - lam * sig ^ 2)) / sig) ^ 2 / 2)) := by
            rw [hexp]
        _ = lam * Real.exp (-(lam * (x - mu)) + (lam * sig) ^ 2 / 2) / sig
            * ((Real.sqrt (2 * Real.pi))⁻¹
              * Real.exp (-((t - (x - mu - lam * sig ^ 2)) / sig) ^ 2 / 2)) := by
            ring
    rw [integral_congr_ae (Eventually.of_forall hpt), MeasureTheory.integral_mul_left,
      integral_comp_affine_Ioi stdNormPdf 0 (x - mu - lam * sig ^ 2) sig hs,
      integral_stdNormPdf_Ioi]
    have harg : (0 - (x - mu - lam * sig ^ 2)) / sig = -((x - mu) / sig - lam * sig) := by
      field_simp
      ring
    rw [harg, (erfc_facts.2.2.2.2.2.2), (EMG_closed_form_facts.2.1) mu sig lam x hs.ne']
    field_simp
    ring
  have continuous_sumNormExp_integrand : ∀ (x mu sig lam : ℝ), Continuous (fun t : ℝ => lam * Real.exp (-(lam * t)) * normCdf (x - t) mu sig) := by
    intro x mu sig lam
    have h1 : Continuous fun t : ℝ => lam * Real.exp (-(lam * t)) := by fun_prop
    have h2 : Continuous fun t : ℝ => normCdf (x - t) mu sig := by
      unfold normCdf
      exact (stdNormCdf_facts.2.2.1).comp (by fun_prop)
    exact h1.mul h2
  have continuous_sumNormExp_integrand' : ∀ (x mu sig lam : ℝ), Continuous (fun t : ℝ => lam * Real.exp (-(lam * t)) * normPdf (x - t) mu sig) := by
    intro x mu sig lam
    have h1 : Continuous fun t : ℝ => lam * Real.exp (-(lam * t)) := by fun_prop
    have h2 : Continuous fun t : ℝ => normPdf (x - t) mu sig := by
      unfold normPdf
      exact ((stdNormPdf_facts.2.2.2.2.1).comp (by fun_prop)).div_const sig
    exact h1.mul h2
  have integrableOn_sumNormExp_integrand : ∀ (x mu sig lam : ℝ) (hl : 0 < lam), IntegrableOn (fun t : ℝ => lam * Real.exp (-(lam * t)) * normCdf (x - t) mu sig)
      (Ioi 0) := by
    intro x mu sig lam hl
    refine Integrable.mono' (integrableOn_expPdf lam hl)
      ((continuous_sumNormExp_integrand x mu sig lam).aestronglyMeasurable) ?_
    refine Eventually.of_forall fun t => ?_
    have h0 : (0:ℝ) ≤ normCdf (x - t) mu sig := (stdNormCdf_facts.2.2.2.1) _
    have h1 : normCdf (x - t) mu sig ≤ 1 := (stdNormCdf_facts.2.2.2.2.1) _
    have hpos : (0:ℝ) < lam * Real.exp (-(lam * t)) :=
      mul_pos hl (Real.exp_pos _)
    rw [Real.norm_of_nonneg (by positivity)]
    nlinarith
  have sumNormExpCdf_hasDerivAt : ∀ (mu sig lam : ℝ) (hs : 0 < sig) (hl : 0 < lam) (x : ℝ), HasDerivAt (fun y => sumNormExpCdf y mu sig lam) (sumNormExpPdf x mu sig lam) x := by
    intro mu sig lam hs hl x
    set F : ℝ → ℝ → ℝ := fun y t => lam * Real.exp (-(lam * t)) * normCdf (y - t) mu sig with hF
    set G : ℝ → ℝ → ℝ := fun y t => lam * Real.exp (-(lam * t)) * normPdf (y - t) mu sig with hG
    set B : ℝ → ℝ := fun t => lam * Real.exp (-(lam * t)) * ((Real.sqrt (2 * Real.pi))⁻¹ / sig)
      with hB
    have h1 : ∀ᶠ y in 𝓝 x, AEStronglyMeasurable (F y) (volume.restrict (Ioi 0)) :=
      Eventually.of_forall fun y =>
        (continuous_sumNormExp_integrand y mu sig lam).aestronglyMeasurable
    have h2 : Integrable (F x) (volume.restrict (Ioi 0)) :=
      integrableOn_sumNormExp_integrand x mu sig lam hl
    have h3 : AEStronglyMeasurable (G x) (volume.restrict (Ioi 0)) :=
      (continuous_sumNormExp_integrand' x mu sig lam).aestronglyMeasurable
    have h4 : ∀ᵐ t ∂(volume.restrict (Ioi (0:ℝ))), ∀ y ∈ Metric.ball x 1, ‖G y t‖ ≤ B t := by
      refine Eventually.of_forall fun t => fun y _ => ?_
      have h0 : (0:ℝ) ≤ normPdf (y - t) mu sig := by
        unfold normPdf
        exact div_nonneg ((stdNormPdf_facts.2.2.2.1) _) hs.le
      have h1' : normPdf (y - t) mu sig ≤ (Real.sqrt (2 * Real.pi))⁻¹ / sig := by
        unfold normPdf
        exact (div_le_div_right hs).2 (stdNormPdf_le _)
      have hpos : (0:ℝ) < lam * Real.exp (-(lam * t)) := mul_pos hl (Real.exp_pos _)
      simp only [hG, hB]
      rw [Real.norm_of_nonneg (mul_nonneg hpos.le h0)]
      nlinarith
    have h5 : Integrable B (volume.restrict (Ioi 0)) := by
      have := (integrableOn_expPdf lam hl).mul_const ((Real.sqrt (2 * Real.pi))⁻¹ / sig)
      exact this
    have h6 : ∀ᵐ t ∂(volume.restrict (Ioi (0:ℝ))), ∀ y ∈ Metric.ball x 1,
        HasDerivAt (fun z => F z t) (G y t) y := by
      refine Eventually.of_forall fun t => fun y _ => ?_
      have hinner : HasDerivAt (fun z => normCdf (z - t) mu sig)
          (stdNormPdf ((y - t - mu) / sig) * (1 / sig)) y := by
        unfold normCdf
        have haff : HasDerivAt (fun z : ℝ => (z - t - mu) / sig) (1 / sig) y := by
          simpa using (((hasDerivAt_id y).sub_const t).sub_const mu).div_const sig
        exact ((stdNormCdf_facts.2.1) ((y - t - mu) / sig)).comp y haff
      have hd := hinner.const_mul (lam * Real.exp (-(lam * t)))
      simp only [hF, hG]
      convert hd using 1
      unfold normPdf
      ring
    have key := hasDerivAt_integral_of_dominated_loc_of_deriv_le
      (show (0:ℝ) < 1 by norm_num) h1 h2 h3 h4 h5 h6
    exact key.2
  have sumNormExpCdf_nonneg : ∀ (mu sig lam : ℝ) (hl : 0 < lam) (x : ℝ), 0 ≤ sumNormExpCdf x mu sig lam := by
    intro mu sig lam hl x
    unfold sumNormExpCdf
    refine setIntegral_nonneg measurableSet_Ioi fun t ht => ?_
    have h0 : (0:ℝ) ≤ normCdf (x - t) mu sig := (stdNormCdf_facts.2.2.2.1) _
    exact mul_nonneg (mul_nonneg hl.le (Real.exp_pos _).le) h0
  have sumNormExpCdf_le_stdNormCdf : ∀ (mu sig lam : ℝ) (hs : 0 < sig) (hl : 0 < lam) (x : ℝ), sumNormExpCdf x mu sig lam ≤ stdNormCdf ((x - mu) / sig) := by
    intro mu sig lam hs hl x
    unfold sumNormExpCdf
    have hmono : ∀ t ∈ Ioi (0:ℝ), lam * Real.exp (-(lam * t)) * normCdf (x - t) mu sig
        ≤ lam * Real.exp (-(lam * t)) * stdNormCdf ((x - mu) / sig) := by
      intro t ht
      have harg : (x - t - mu) / sig ≤ (x - mu) / sig := by
        apply (div_le_div_right hs).2
        linarith [mem_Ioi.mp ht]
      have h1 : normCdf (x - t) mu sig ≤ stdNormCdf ((x - mu) / sig) := (stdNormCdf_facts.2.2.2.2.2.1) harg
      have hpos : (0:ℝ) ≤ lam * Real.exp (-(lam * t)) :=
        mul_nonneg hl.le (Real.exp_pos _).le
      exact mul_le_mul_of_nonneg_left h1 hpos
    have hint2 : IntegrableOn
        (fun t : ℝ => lam * Real.exp (-(lam * t)) * stdNormCdf ((x - mu) / sig)) (Ioi 0) :=
      (integrableOn_expPdf lam hl).mul_const _
    calc ∫ t in Ioi (0:ℝ), lam * Real.exp (-(lam * t)) * normCdf (x - t) mu sig
        ≤ ∫ t in Ioi (0:ℝ), lam * Real.exp (-(lam * t)) * stdNormCdf ((x - mu) / sig) :=
          setIntegral_mono_on (integrableOn_sumNormExp_integrand x mu sig lam hl) hint2
            measurableSet_Ioi hmono
      _ = stdNormCdf ((x - mu) / sig) := by
          rw [MeasureTheory.integral_mul_right, integral_expPdf lam hl, one_mul]
  have sumNormExpCdf_tendsto_atBot : ∀ (mu sig lam : ℝ) (hs : 0 < sig) (hl : 0 < lam), Tendsto (fun x => sumNormExpCdf x mu sig lam) atBot (𝓝 0) := by
    intro mu sig lam hs hl
    have hupper : Tendsto (fun x : ℝ => stdNormCdf ((x - mu) / sig)) atBot (𝓝 0) :=
      (stdNormCdf_facts.2.2.2.2.2.2.2).comp ((EMG_tail_facts.2.2.2.2.2.1) mu sig hs)
    refine tendsto_of_tendsto_of_tendsto_of_le_of_le tendsto_const_nhds hupper ?_ ?_
    · exact fun x => sumNormExpCdf_nonneg mu sig lam hl x
    · exact fun x => sumNormExpCdf_le_stdNormCdf mu sig lam hs hl x
  exact ⟨integral_comp_sub_Ioi, integral_comp_affine_Ioi, integral_expPdf, integrableOn_expPdf, stdNormPdf_le, integral_stdNormPdf_Ioi, sumNormExpPdf_eq_pdf, continuous_sumNormExp_integrand, continuous_sumNormExp_integrand', integrableOn_sumNormExp_integrand, sumNormExpCdf_hasDerivAt, sumNormExpCdf_nonneg, sumNormExpCdf_le_stdNormCdf, sumNormExpCdf_tendsto_atBot⟩

/-- Claim C5: the cumulative distribution of the sum `Normal(mu, sig) +
Exponential(scale 1/lam)` sampled by `EMG_gen3._rvs` is exactly the
notebook's analytic cumulative `EMG_gen1._cdf`. -/
theorem claim_C5_rvs_decomposition_exact (mu sig lam : ℝ) (hs : 0 < sig) (hl : 0 < lam)
    (x : ℝ) : sumNormExpCdf x mu sig lam = EMG_gen1.cdf x mu sig lam := by
  have hD : ∀ y : ℝ, HasDerivAt
      (fun z => sumNormExpCdf z mu sig lam - EMG_gen1.cdf z mu sig lam) 0 y := by
    intro y
    have h1 := ((sumNormExp_facts.2.2.2.2.2.2.2.2.2.2.1) mu sig lam hs hl y).sub
      ((EMG_pdf_basic_facts.1) mu sig lam hs hl y)
    rwa [(sumNormExp_facts.2.2.2.2.2.2.1) mu sig lam hs hl y, sub_self] at h1
  have hconst : ∀ y z : ℝ,
      sumNormExpCdf y mu sig lam - EMG_gen1.cdf y mu sig lam
        = sumNormExpCdf z mu sig lam - EMG_gen1.cdf z mu sig lam := by
    intro y z
    exact is_const_of_deriv_eq_zero
      (fun w => (hD w).differentiableAt) (fun w => (hD w).deriv) y z
  have htend : Tendsto
      (fun z => sumNormExpCdf z mu sig lam - EMG_gen1.cdf z mu sig lam) atBot (𝓝 0) := by
    have := ((sumNormExp_facts.2.2.2.2.2.2.2.2.2.2.2.2.2) mu sig lam hs hl).sub
      ((EMG_cdf_global_facts.2.1) mu sig lam hs hl)
    simpa using this
  have hconst2 : Tendsto
      (fun z => sumNormExpCdf z mu sig lam - EMG_gen1.cdf z mu sig lam) atBot
      (𝓝 (sumNormExpCdf x mu sig lam - EMG_gen1.cdf x mu sig lam)) := by
    have : (fun z => sumNormExpCdf z mu sig lam - EMG_gen1.cdf z mu sig lam)
        = fun _ => sumNormExpCdf x mu sig lam - EMG_gen1.cdf x mu sig lam := by
      funext z
      exact hconst z x
    rw [this]
    exact tendsto_const_nhds
  have := tendsto_nhds_unique hconst2 htend
  linarith

/-- Witness for C5 at `mu=0, sigma=1, lambda=0.5`, `x=0`. -/
theorem claim_C5_witness : sumNormExpCdf 0 0 1 0.5 = EMG_gen1.cdf 0 0 1 0.5 :=
  claim_C5_rvs_decomposition_exact 0 1 0.5 (by norm_num) (by norm_num) 0

/-! ### Parameter validation (claims C6, C7) -/

/-- A Python float as seen by `np.isfinite`: either a finite real, one of the
two infinities, or NaN. -/
inductive PyFloat where
  | finite (val : ℝ)
  | inf
  | neginf
  | nan

namespace PyFloat

/-- `np.isfinite`. -/
def isfinite : PyFloat → Prop
  | finite _ => True
  | _ => False

/-- The Python comparison `p > 0` (NumPy semantics: `inf > 0` is true,
`-inf > 0` and `nan > 0` are false). -/
def gtZero : PyFloat → Prop
  | finite v => 0 < v
  | inf => True
  | neginf => False
  | nan => False

/-- Underlying real value of a finite float (junk value `0` otherwise;
only used behind a successful `isfinite` check). -/
def val : PyFloat → ℝ
  | finite v => v
  | _ => 0

end PyFloat

/-- `EMG_gen1._argcheck` from the notebook:
`return np.isfinite(mu) and (sig > 0) and (lam > 0)`. -/
def EMG_gen1.argcheck (mu sig lam : PyFloat) : Prop :=
  mu.isfinite ∧ sig.gtZero ∧ lam.gtZero

/-- Claim C6: the parameter validator returns true exactly when `mu` is
finite, `sig > 0` and `lam > 0`; in particular it rejects every triple with
a non-positive (finite) scale `sig` or a non-finite location `mu`. -/
theorem claim_C6_argcheck_iff :
    (∀ mu sig lam : PyFloat, EMG_gen1.argcheck mu sig lam ↔
      (mu.isfinite ∧ sig.gtZero ∧ lam.gtZero))
    ∧ (∀ mu lam : PyFloat, ∀ x : ℝ, x ≤ 0 →
        ¬ EMG_gen1.argcheck mu (PyFloat.finite x) lam)
    ∧ (∀ sig lam : PyFloat, ¬ EMG_gen1.argcheck PyFloat.inf sig lam
        ∧ ¬ EMG_gen1.argcheck PyFloat.neginf sig lam
        ∧ ¬ EMG_gen1.argcheck PyFloat.nan sig lam) := by
  refine ⟨fun mu sig lam => Iff.rfl, ?_, ?_⟩
  · intro mu lam x hx h
    exact absurd h.2.1 (by simpa [PyFloat.gtZero] using hx)
  · intro sig lam
    refine ⟨fun h => h.1, fun h => h.1, fun h => h.1⟩

/-- Witness for C6: the validator rejects `sig = -1` and accepts nothing
with `mu = inf`. -/
theorem claim_C6_witness :
    ¬ EMG_gen1.argcheck (PyFloat.finite 0) (PyFloat.finite (-1)) (PyFloat.finite 0.5) :=
  claim_C6_argcheck_iff.2.1 (PyFloat.finite 0) (PyFloat.finite 0.5) (-1) (by norm_num)

/-- Error taxonomy of the spec that is relevant here. -/
inductive DistError where
  | invalidParameter
deriving DecidableEq

/-- Modelled from the spec: the evaluation dispatcher of the distribution
framework ("`validate_params` is called before any evaluation; evaluation
with invalid parameters fails with an `InvalidParameter` error rather than
producing NaN silently").  The scipy `rv_continuous` dispatch machinery is
not part of the notebook source, so it is modelled as a guard that checks
`_argcheck` first and only then runs the requested computation. -/
def guardParams {α : Type} (mu sig lam : PyFloat) (k : Unit → α) : Except DistError α :=
  open Classical in
  if EMG_gen1.argcheck mu sig lam then Except.ok (k ()) else Except.error DistError.invalidParameter

/-- Density evaluation through the parameter guard. -/
def pdfChecked (x : ℝ) (mu sig lam : PyFloat) : Except DistError ℝ :=
  guardParams mu sig lam fun _ => EMG_gen1.pdf x mu.val sig.val lam.val

/-- Cumulative evaluation through the parameter guard. -/
def cdfChecked (x : ℝ) (mu sig lam : PyFloat) : Except DistError ℝ :=
  guardParams mu sig lam fun _ => EMG_gen1.cdf x mu.val sig.val lam.val

/-- Survival-function evaluation (`1 - cdf`) through the parameter guard. -/
def sfChecked (x : ℝ) (mu sig lam : PyFloat) : Except DistError ℝ :=
  guardParams mu sig lam fun _ => 1 - EMG_gen1.cdf x mu.val sig.val lam.val

/-- Modelled from the spec: the generic quantile fallback, "exact numerical
root-finding on `cumulative(x) - q = 0`", i.e. the generalized inverse of
the cumulative function. -/
def genericPpf (cdf : ℝ → ℝ) (q : ℝ) : ℝ := sInf {x : ℝ | q ≤ cdf x}

/-- Quantile evaluation through the parameter guard. -/
def ppfChecked (q : ℝ) (mu sig lam : PyFloat) : Except DistError ℝ :=
  guardParams mu sig lam fun _ =>
    genericPpf (fun x => EMG_gen1.cdf x mu.val sig.val lam.val) q

/-- Moment evaluation through the parameter guard. -/
def statsChecked (mu sig lam : PyFloat) : Except DistError (ℝ × ℝ × ℝ × ℝ) :=
  guardParams mu sig lam fun _ => EMG_gen1.stats mu.val sig.val lam.val

/-- Modelled from the spec: generic inversion sampling, "draw uniform(0,1)
values and map through `quantile`"; `u` is the uniform draw. -/
def rvsChecked (u : ℝ) (mu sig lam : PyFloat) : Except DistError ℝ :=
  guardParams mu sig lam fun _ =>
    genericPpf (fun x => EMG_gen1.cdf x mu.val sig.val lam.val) u

/-- Claim C7: with a parameter triple failing the domain check, every
evaluation operation (density, cumulative, survival, quantile, moments,
sampling) fails with `InvalidParameter` and never returns a value. -/
theorem claim_C7_invalid_params_error (mu sig lam : PyFloat)
    (h : ¬ EMG_gen1.argcheck mu sig lam) (x q u : ℝ) :
    pdfChecked x mu sig lam = Except.error DistError.invalidParameter
    ∧ cdfChecked x mu sig lam = Except.error DistError.invalidParameter
    ∧ sfChecked x mu sig lam = Except.error DistError.invalidParameter
    ∧ ppfChecked q mu sig lam = Except.error DistError.invalidParameter
    ∧ statsChecked mu sig lam = Except.error DistError.invalidParameter
    ∧ rvsChecked u mu sig lam = Except.error DistError.invalidParameter
    ∧ (∀ y : ℝ, pdfChecked x mu sig lam ≠ Except.ok y) := by
  have key : ∀ {α : Type} (k : Unit → α),
      guardParams mu sig lam k = Except.error DistError.invalidParameter := by
    intro α k
    unfold guardParams
    rw [if_neg h]
  refine ⟨key _, key _, key _, key _, key _, key _, fun y => ?_⟩
  rw [pdfChecked, key _]
  intro hcontr
  exact Except.noConfusion hcontr

/-- Witness for C7 at the invalid triple `mu = 0, sig = -1, lam = 0.5`,
evaluated at `x = q = u = 0`. -/
theorem claim_C7_witness :
    pdfChecked 0 (PyFloat.finite 0) (PyFloat.finite (-1)) (PyFloat.finite 0.5)
      = Except.error DistError.invalidParameter
    ∧ cdfChecked 0 (PyFloat.finite 0) (PyFloat.finite (-1)) (PyFloat.finite 0.5)
      = Except.error DistError.invalidParameter
    ∧ sfChecked 0 (PyFloat.finite 0) (PyFloat.finite (-1)) (PyFloat.finite 0.5)
      = Except.error DistError.invalidParameter
    ∧ ppfChecked 0 (PyFloat.finite 0) (PyFloat.finite (-1)) (PyFloat.finite 0.5)
      = Except.error DistError.invalidParameter
    ∧ statsChecked (PyFloat.finite 0) (PyFloat.finite (-1)) (PyFloat.finite 0.5)
      = Except.error DistError.invalidParameter
    ∧ rvsChecked 0 (PyFloat.finite 0) (PyFloat.finite (-1)) (PyFloat.finite 0.5)
      = Except.error DistError.invalidParameter
    ∧ (∀ y : ℝ, pdfChecked 0 (PyFloat.finite 0) (PyFloat.finite (-1)) (PyFloat.finite 0.5)
        ≠ Except.ok y) :=
  claim_C7_invalid_params_error (PyFloat.finite 0) (PyFloat.finite (-1)) (PyFloat.finite 0.5)
    (fun h => absurd h.2.1 (by norm_num [PyFloat.gtZero])) 0 0 0

/-! ### The fit cell and the unbound name `EMG` (claim C8) -/

/-- The global names bound by the notebook's cells before the fit cell runs:
imports, the plotting variables, the three generator classes, the three
instances `EMG1`, `EMG2`, `EMG3`, the frozen distribution `dist`, and the
sample `sample_emg`.  No cell ever binds the bare name `EMG`. -/
def notebookBoundNames : List String :=
  ["np", "st", "erfc", "plt", "hist", "mpl_style",
   "norm", "x", "sample_norm", "i",
   "EMG_gen1", "EMG_gen2", "EMG_gen3", "EMG1", "EMG2", "EMG3",
   "dist", "sample_emg"]

/-- Python name resolution: an identifier evaluates to itself when bound,
and raises `NameError` (here: `none`) when unbound. -/
def resolveName (env : List String) (n : String) : Option String :=
  if n ∈ env then some n else none

/-- Outcome of executing the notebook's fit line
`EMG.fit(sample_emg, floc=0, fscale=1)`. -/
inductive FitOutcome where
  | ok (lamEst : ℝ)
  | nameError
deriving DecidableEq

/-- Evaluating `EMG.fit(...)` first resolves the name `EMG`; an unbound name
raises `NameError` before the attribute access and the call, so no fitting
computation ever runs.  The estimate branch is never reached and is
represented by an arbitrary successful value. -/
noncomputable def fitCellOutcome : FitOutcome :=
  match resolveName notebookBoundNames "EMG" with
  | none => FitOutcome.nameError
  | some _ => FitOutcome.ok 0

/-- Claim C8 evaluation: the notebook's fit cell references the name `EMG`,
which is never defined (only `EMG1`, `EMG2`, `EMG3` are), so the cell fails
with `NameError` before any fitting is attempted. -/
theorem claim_C8_fit_cell_name_unbound :
    resolveName notebookBoundNames "EMG" = none
    ∧ fitCellOutcome = FitOutcome.nameError
    ∧ ("EMG1" ∈ notebookBoundNames ∧ "EMG2" ∈ notebookBoundNames
        ∧ "EMG3" ∈ notebookBoundNames) := by
  refine ⟨?_, ?_, by decide⟩
  · rw [resolveName, if_neg (by decide)]
  · rw [fitCellOutcome, resolveName, if_neg (by decide)]

/-! ### Inheritance structure of the three generator classes (claim C9) -/

/-- Which quantile (`_ppf`) implementation a generator class uses. -/
inductive QuantileMethod where
  | genericRootFinding
  | interpolatedTable
deriving DecidableEq

/-- Which sampling (`_rvs`) implementation a generator class uses. -/
inductive SamplingMethod where
  | inversion
  | normalPlusExponential
deriving DecidableEq

/-- The method table of an EMG generator class: the four analytic members
plus the chosen quantile and sampling strategies. -/
structure EMGClassSig where
  pdf : ℝ → ℝ → ℝ → ℝ → ℝ
  cdf : ℝ → ℝ → ℝ → ℝ → ℝ
  stats : ℝ → ℝ → ℝ → ℝ × ℝ × ℝ × ℝ
  argcheck : PyFloat → PyFloat → PyFloat → Prop
  quantileMethod : QuantileMethod
  samplingMethod : SamplingMethod

/-- `EMG1 = EMG_gen1(name='EMG1')`: analytic members, generic fallbacks. -/
noncomputable def EMG1inst : EMGClassSig :=
  { pdf := EMG_gen1.pdf, cdf := EMG_gen1.cdf, stats := EMG_gen1.stats,
    argcheck := EMG_gen1.argcheck,
    quantileMethod := QuantileMethod.genericRootFinding,
    samplingMethod := SamplingMethod.inversion }

/-- `EMG2 = EMG_gen2(name='EMG2')`: `EMG_gen2` subclasses `EMG_gen1`
overriding only `_ppf`. -/
noncomputable def EMG2inst : EMGClassSig :=
  { EMG1inst with quantileMethod := QuantileMethod.interpolatedTable }

/-- `EMG3 = EMG_gen3(name='EMG3')`: `EMG_gen3` subclasses `EMG_gen1`
overriding only `_rvs`. -/
noncomputable def EMG3inst : EMGClassSig :=
  { EMG1inst with samplingMethod := SamplingMethod.normalPlusExponential }

/-- Claim C9: `EMG_gen2` and `EMG_gen3` inherit `_pdf`, `_cdf`, `_stats`
and `_argcheck` unchanged from `EMG_gen1`: the three instantiated variants
give identical density, cumulative, moment and validation results on every
input, and differ only in the quantile and sampling strategies. -/
theorem claim_C9_inheritance :
    (∀ x mu sig lam : ℝ,
        EMG2inst.pdf x mu sig lam = EMG1inst.pdf x mu sig lam
        ∧ EMG3inst.pdf x mu sig lam = EMG1inst.pdf x mu sig lam
        ∧ EMG2inst.cdf x mu sig lam = EMG1inst.cdf x mu sig lam
        ∧ EMG3inst.cdf x mu sig lam = EMG1inst.cdf x mu sig lam)
    ∧ (∀ mu sig lam : ℝ,
        EMG2inst.stats mu sig lam = EMG1inst.stats mu sig lam
        ∧ EMG3inst.stats mu sig lam = EMG1inst.stats mu sig lam)
    ∧ (∀ mu sig lam : PyFloat,
        (EMG2inst.argcheck mu sig lam ↔ EMG1inst.argcheck mu sig lam)
        ∧ (EMG3inst.argcheck mu sig lam ↔ EMG1inst.argcheck mu sig lam))
    ∧ EMG2inst.quantileMethod ≠ EMG1inst.quantileMethod
    ∧ EMG2inst.samplingMethod = EMG1inst.samplingMethod
    ∧ EMG3inst.samplingMethod ≠ EMG1inst.samplingMethod
    ∧ EMG3inst.quantileMethod = EMG1inst.quantileMethod := by
  refine ⟨fun x mu sig lam => ⟨rfl, rfl, rfl, rfl⟩,
    fun mu sig lam => ⟨rfl, rfl⟩,
    fun mu sig lam => ⟨Iff.rfl, Iff.rfl⟩, ?_, rfl, ?_, rfl⟩
  · intro h
    exact QuantileMethod.noConfusion h
  · intro h
    exact SamplingMethod.noConfusion h

/-! ### The interpolated quantile of `EMG_gen2` (claims C4, C10) -/

/-- `np.arange(start, stop, step)` for a positive step: the points
`start + step*i` for `0 ≤ i < ⌈(stop-start)/step⌉`. -/
noncomputable def arange (start stop step : ℝ) : List ℝ :=
  (List.range (Nat.ceil ((stop - start) / step))).map fun i : ℕ => start + step * (i : ℝ)

/-- The scanning loop of `np.interp q yTable xTable` on the table of
`(y, x)` pairs: `(y0, x0)` is the last entry already passed
(with `y0 ≤ q` on every recursive call); on the first entry `(y1, x1)` with
`q ≤ y1` the result is interpolated linearly, and after the table is
exhausted the last `x` is returned (right clamp). -/
noncomputable def interpGo (q y0 x0 : ℝ) : List (ℝ × ℝ) → ℝ
  | [] => x0
  | (y1, x1) :: tl =>
    if q ≤ y1 then x0 + (x1 - x0) * ((q - y0) / (y1 - y0)) else interpGo q y1 x1 tl

/-- `np.interp q yTable xTable` on a table of `(y, x)` pairs with
increasing `y`: left clamp below the first `y`, then the scanning loop. -/
noncomputable def interp (q : ℝ) : List (ℝ × ℝ) → ℝ
  | [] => 0
  | (y0, x0) :: tl => if q < y0 then x0 else interpGo q y0 x0 tl

/-- `EMG_gen2._ppf` from the notebook:
```
var = sig**2 + 1 / lam**2
x = np.arange(mu - 50 * np.sqrt(var), mu + 50 * np.sqrt(var), 0.01)
y = self.cdf(x, mu, sig, lam)
return np.interp(q, y, x)
``` -/
noncomputable def EMG_gen2.ppf (q mu sig lam : ℝ) : ℝ :=
  let var := sig ^ 2 + 1 / lam ^ 2
  let xs := arange (mu - 50 * Real.sqrt var) (mu + 50 * Real.sqrt var) 0.01
  interp q (xs.map fun t => (EMG_gen1.cdf t mu sig lam, t))

/-- Strictly increasing `y` and non-decreasing `x` along the table. -/
def TRel (p r : ℝ × ℝ) : Prop := p.1 < r.1 ∧ p.2 ≤ r.2

lemma tchain_head_rel {p r : ℝ × ℝ} {l : List (ℝ × ℝ)}
    (hc : List.Chain' TRel (p :: l)) (hr : r ∈ l) : p.1 < r.1 ∧ p.2 ≤ r.2 := by
  induction l generalizing p with
  | nil => cases hr
  | cons s tl ih =>
    rw [List.chain'_cons] at hc
    rcases List.mem_cons.mp hr with h | h
    · subst h
      exact hc.1
    · have h1 := hc.1
      have h2 := ih hc.2 h
      exact ⟨h1.1.trans h2.1, h1.2.trans h2.2⟩

/-- The scan result is at least the `x` already passed. -/
lemma interpGo_ge {q y0 x0 : ℝ} {l : List (ℝ × ℝ)}
    (hc : List.Chain' TRel ((y0, x0) :: l)) (hq : y0 ≤ q) :
    x0 ≤ interpGo q y0 x0 l := by
  induction l generalizing y0 x0 with
  | nil => exact le_refl x0
  | cons s tl ih =>
    obtain ⟨y1, x1⟩ := s
    rw [List.chain'_cons] at hc
    have hrel : y0 < y1 ∧ x0 ≤ x1 := hc.1
    rw [interpGo]
    by_cases hcase : q ≤ y1
    · rw [if_pos hcase]
      have hr0 : 0 ≤ (q - y0) / (y1 - y0) :=
        div_nonneg (by linarith) (by linarith [hrel.1])
      nlinarith [hrel.2]
    · rw [if_neg hcase]
      have hq1 : y1 ≤ q := le_of_not_le hcase
      exact hrel.2.trans (ih hc.2 hq1)

/-- Along a sorted table, the head's `x` never exceeds the last `x`. -/
lemma tchain_last_rel {p : ℝ × ℝ} {l : List (ℝ × ℝ)}
    (hc : List.Chain' TRel (p :: l)) : p.2 ≤ (l.getLastD p).2 := by
  cases l with
  | nil => exact le_refl _
  | cons w tw =>
    have hmem : (w :: tw).getLastD p ∈ w :: tw := by
      rw [List.getLastD_cons]
      exact List.getLastD_mem_cons tw w
    have h := tchain_head_rel hc hmem
    exact h.2

/-- The scan result never exceeds the last `x` of the table. -/
lemma interpGo_le_last {q y0 x0 : ℝ} {l : List (ℝ × ℝ)}
    (hc : List.Chain' TRel ((y0, x0) :: l)) :
    interpGo q y0 x0 l ≤ (l.getLastD (y0, x0)).2 := by
  induction l generalizing y0 x0 with
  | nil => exact le_refl x0
  | cons s tl ih =>
    obtain ⟨y1, x1⟩ := s
    rw [List.chain'_cons] at hc
    have hrel : y0 < y1 ∧ x0 ≤ x1 := hc.1
    rw [interpGo, List.getLastD_cons]
    by_cases hcase : q ≤ y1
    · rw [if_pos hcase]
      have hr1 : (q - y0) / (y1 - y0) ≤ 1 := by
        rw [div_le_one (by linarith [hrel.1])]
        linarith
      have step : x0 + (x1 - x0) * ((q - y0) / (y1 - y0)) ≤ x1 := by
        nlinarith [hrel.2]
      exact step.trans (tchain_last_rel hc.2)
    · rw [if_neg hcase]
      exact ih hc.2

/-- Along a sorted table, the head's `y` never exceeds the last `y`. -/
lemma tchain_last_fst {p : ℝ × ℝ} {l : List (ℝ × ℝ)}
    (hc : List.Chain' TRel (p :: l)) : p.1 ≤ (l.getLastD p).1 := by
  cases l with
  | nil => exact le_refl _
  | cons w tw =>
    have hmem : (w :: tw).getLastD p ∈ w :: tw := by
      rw [List.getLastD_cons]
      exact List.getLastD_mem_cons tw w
    exact (tchain_head_rel hc hmem).1.le

/-- Any table entry at or below the query bounds the scan result from below. -/
lemma interpGo_ge_of_mem {q y0 x0 yi xi : ℝ} {l : List (ℝ × ℝ)}
    (hc : List.Chain' TRel ((y0, x0) :: l)) (hq : y0 ≤ q)
    (hmem : (yi, xi) ∈ (y0, x0) :: l) (hqi : yi ≤ q) :
    xi ≤ interpGo q y0 x0 l := by
  induction l generalizing y0 x0 with
  | nil =>
    rcases List.mem_singleton.mp hmem with h
    rw [interpGo, (Prod.mk.injEq _ _ _ _).mp h |>.2]
  | cons s tl ih =>
    obtain ⟨y1, x1⟩ := s
    have hc' := hc
    rw [List.chain'_cons] at hc'
    have hrel : y0 < y1 ∧ x0 ≤ x1 := hc'.1
    rcases List.mem_cons.mp hmem with h | h
    · have hx : xi = x0 := ((Prod.mk.injEq _ _ _ _).mp h).2
      rw [hx]
      exact interpGo_ge hc hq
    · rw [interpGo]
      by_cases hcase : q ≤ y1
      · rw [if_pos hcase]
        rcases List.mem_cons.mp h with h2 | h2
        · have hy : yi = y1 := ((Prod.mk.injEq _ _ _ _).mp h2).1
          have hx : xi = x1 := ((Prod.mk.injEq _ _ _ _).mp h2).2
          have hq1 : q = y1 := le_antisymm hcase (hy ▸ hqi)
          have : x0 + (x1 - x0) * ((q - y0) / (y1 - y0)) = x1 := by
            rw [hq1, div_self (by linarith [hrel.1] : y1 - y0 ≠ 0)]
            ring
          rw [this, hx]
        · have hstrict := tchain_head_rel hc'.2 h2
          exact absurd hqi (by linarith [hstrict.1])
      · rw [if_neg hcase]
        exact ih hc'.2 (le_of_not_le hcase) h
  
/-- Any table entry at or above the query bounds the scan result from above. -/
lemma interpGo_le_of_mem {q y0 x0 yi xi : ℝ} {l : List (ℝ × ℝ)}
    (hc : List.Chain' TRel ((y0, x0) :: l))
    (hmem : (yi, xi) ∈ l) (hqi : q ≤ yi) :
    interpGo q y0 x0 l ≤ xi := by
  induction l generalizing y0 x0 with
  | nil => cases hmem
  | cons s tl ih =>
    obtain ⟨y1, x1⟩ := s
    rw [List.chain'_cons] at hc
    have hrel : y0 < y1 ∧ x0 ≤ x1 := hc.1
    rw [interpGo]
    by_cases hcase : q ≤ y1
    · rw [if_pos hcase]
      have step : x0 + (x1 - x0) * ((q - y0) / (y1 - y0)) ≤ x1 := by
        have hr1 : (q - y0) / (y1 - y0) ≤ 1 := by
          rw [div_le_one (by linarith [hrel.1])]
          linarith
        nlinarith [hrel.2]
      rcases List.mem_cons.mp hmem with h2 | h2
      · have hx : xi = x1 := ((Prod.mk.injEq _ _ _ _).mp h2).2
        rw [hx]
        exact step
      · exact step.trans (tchain_head_rel hc.2 h2).2
    · rw [if_neg hcase]
      rcases List.mem_cons.mp hmem with h2 | h2
      · have hy : yi = y1 := ((Prod.mk.injEq _ _ _ _).mp h2).1
        exact absurd (hy ▸ hqi) hcase
      · exact ih hc.2 h2

/-- The interpolation result lies between the first and the last tabulated
`x`. -/
lemma interp_mem_Icc {q y0 x0 : ℝ} {l : List (ℝ × ℝ)}
    (hc : List.Chain' TRel ((y0, x0) :: l)) :
    interp q ((y0, x0) :: l) ∈ Icc x0 (l.getLastD (y0, x0)).2 := by
  rw [interp]
  by_cases hcase : q < y0
  · rw [if_pos hcase]
    exact ⟨le_refl x0, tchain_last_rel hc⟩
  · rw [if_neg hcase]
    exact ⟨interpGo_ge hc (le_of_not_lt hcase), interpGo_le_last hc⟩

/-- Left clamp: a query at or below the first tabulated `y` returns the
first tabulated `x`. -/
lemma interp_left_clamp {q y0 x0 : ℝ} {l : List (ℝ × ℝ)}
    (hc : List.Chain' TRel ((y0, x0) :: l)) (hq : q ≤ y0) :
    interp q ((y0, x0) :: l) = x0 := by
  rw [interp]
  by_cases hcase : q < y0
  · rw [if_pos hcase]
  · rw [if_neg hcase]
    have hq0 : q = y0 := le_antisymm hq (le_of_not_lt hcase)
    cases l with
    | nil => rw [interpGo]
    | cons s tl =>
      obtain ⟨y1, x1⟩ := s
      rw [List.chain'_cons] at hc
      have hrel : y0 < y1 ∧ x0 ≤ x1 := hc.1
      rw [interpGo, if_pos (by linarith [hrel.1] : q ≤ y1), hq0]
      ring

/-- Right clamp, scan part: a query at or above the last tabulated `y`
returns the last tabulated `x`. -/
lemma interpGo_right_clamp {q y0 x0 : ℝ} {l : List (ℝ × ℝ)}
    (hc : List.Chain' TRel ((y0, x0) :: l))
    (hq : (l.getLastD (y0, x0)).1 ≤ q) :
    interpGo q y0 x0 l = (l.getLastD (y0, x0)).2 := by
  induction l generalizing y0 x0 with
  | nil => rw [interpGo]; rfl
  | cons s tl ih =>
    obtain ⟨y1, x1⟩ := s
    have hc' := hc
    rw [List.chain'_cons] at hc'
    have hrel : y0 < y1 ∧ x0 ≤ x1 := hc'.1
    rw [List.getLastD_cons] at hq ⊢
    rw [interpGo]
    by_cases hcase : q ≤ y1
    · rw [if_pos hcase]
      cases tl with
      | nil =>
        have hq1 : q = y1 := le_antisymm hcase (by simpa [List.getLastD] using hq)
        rw [List.getLastD]
        rw [hq1, div_self (by linarith [hrel.1] : y1 - y0 ≠ 0)]
        ring
      | cons w tw =>
        have hmem : (w :: tw).getLastD (y1, x1) ∈ w :: tw := by
          rw [List.getLastD_cons]
          exact List.getLastD_mem_cons tw w
        have hstrict := tchain_head_rel hc'.2 hmem
        exact absurd hq (by linarith [hstrict.1])
    · rw [if_neg hcase]
      exact ih hc'.2 hq

/-- Right clamp for the full interpolation. -/
lemma interp_right_clamp {q y0 x0 : ℝ} {l : List (ℝ × ℝ)}
    (hc : List.Chain' TRel ((y0, x0) :: l))
    (hq : (l.getLastD (y0, x0)).1 ≤ q) :
    interp q ((y0, x0) :: l) = (l.getLastD (y0, x0)).2 := by
  rw [interp]
  have hy0 : y0 ≤ q := (tchain_last_fst hc).trans hq
  rw [if_neg (not_lt.mpr hy0)]
  exact interpGo_right_clamp hc hq

namespace EMG_gen2

/-- Lower end of the `_ppf` interpolation grid, `mu - 50*sqrt(var)`. -/
noncomputable def gridLo (mu sig lam : ℝ) : ℝ :=
  mu - 50 * Real.sqrt (sig ^ 2 + 1 / lam ^ 2)

/-- Number of points of the `_ppf` grid (the `np.arange` length). -/
noncomputable def gridN (mu sig lam : ℝ) : ℕ :=
  Nat.ceil ((mu + 50 * Real.sqrt (sig ^ 2 + 1 / lam ^ 2)
    - (mu - 50 * Real.sqrt (sig ^ 2 + 1 / lam ^ 2))) / 0.01)

/-- The `i`-th grid point. -/
noncomputable def grid (mu sig lam : ℝ) (i : ℕ) : ℝ :=
  gridLo mu sig lam + 0.01 * i

/-- The largest (last) grid point. -/
noncomputable def gridHi (mu sig lam : ℝ) : ℝ :=
  grid mu sig lam (gridN mu sig lam - 1)

lemma grid_zero (mu sig lam : ℝ) : grid mu sig lam 0 = gridLo mu sig lam := by
  simp [grid]

lemma gridN_pos (mu sig lam : ℝ) (hs : 0 < sig) (hl : 0 < lam) :
    1 ≤ gridN mu sig lam := by
  have hvar : (0:ℝ) < sig ^ 2 + 1 / lam ^ 2 := by positivity
  have hsqrt : (0:ℝ) < Real.sqrt (sig ^ 2 + 1 / lam ^ 2) := Real.sqrt_pos.mpr hvar
  have harg : (0:ℝ) < (mu + 50 * Real.sqrt (sig ^ 2 + 1 / lam ^ 2)
      - (mu - 50 * Real.sqrt (sig ^ 2 + 1 / lam ^ 2))) / 0.01 := by
    apply div_pos ?_ (by norm_num)
    linarith
  exact Nat.one_le_iff_ne_zero.mpr (Nat.pos_iff_ne_zero.mp (Nat.ceil_pos.mpr harg))

/-- The `_ppf` definition written through the grid function. -/
lemma ppf_eq (q mu sig lam : ℝ) :
    EMG_gen2.ppf q mu sig lam
      = interp q ((List.range (gridN mu sig lam)).map
          (fun i => (EMG_gen1.cdf (grid mu sig lam i) mu sig lam,
            grid mu sig lam i))) := by
  unfold EMG_gen2.ppf arange
  simp only [EMG_gen2.grid, EMG_gen2.gridLo, EMG_gen2.gridN, List.map_map]
  rfl

end EMG_gen2

/-- Bundled facts about the interpolation table: last element of an appended list, head and last of a mapped range, sortedness of the tabulated CDF pairs, and the bracketing property of linear interpolation on a sorted table. -/
theorem EMG_table_facts :
    (∀ {α : Type} (l : List α) (a d : α), (l ++ [a]).getLastD d = a)
    ∧ (∀ {α : Type} (N : ℕ) (hN : 1 ≤ N) (F : ℕ → α), ∃ l, (List.range N).map F = F 0 :: l)
    ∧ (∀ {α : Type} (N : ℕ) (hN : 1 ≤ N) (F : ℕ → α) (d : α), ((List.range N).map F).getLastD d = F (N - 1))
    ∧ (∀ (mu sig lam : ℝ) (hs : 0 < sig) (hl : 0 < lam), List.Chain' TRel ((List.range (EMG_gen2.gridN mu sig lam)).map
      (fun i => (EMG_gen1.cdf (EMG_gen2.grid mu sig lam i) mu sig lam,
        EMG_gen2.grid mu sig lam i))))
    ∧ (∀ {q y0 x0 : ℝ} {l : List (ℝ × ℝ)} {plo phi : ℝ × ℝ}
    (hc : List.Chain' TRel ((y0, x0) :: l))
    (hlo : plo ∈ (y0, x0) :: l) (hhi : phi ∈ (y0, x0) :: l)
    (hqlo : plo.1 ≤ q) (hqhi : q ≤ phi.1), plo.2 ≤ interp q ((y0, x0) :: l) ∧ interp q ((y0, x0) :: l) ≤ phi.2) := by
  have getLastD_append_singleton : ∀ {α : Type} (l : List α) (a d : α), (l ++ [a]).getLastD d = a := by
    intro α l a d
    induction l generalizing d with
    | nil => rfl
    | cons b tl ih =>
      rw [List.cons_append, List.getLastD_cons]
      exact ih b
  have range_map_head : ∀ {α : Type} (N : ℕ) (hN : 1 ≤ N) (F : ℕ → α), ∃ l, (List.range N).map F = F 0 :: l := by
    intro α N hN F
    obtain ⟨n, rfl⟩ : ∃ n, N = n + 1 := ⟨N - 1, (Nat.succ_pred_eq_of_pos hN).symm⟩
    rw [List.range_succ_eq_map, List.map_cons]
    exact ⟨_, rfl⟩
  have range_map_last : ∀ {α : Type} (N : ℕ) (hN : 1 ≤ N) (F : ℕ → α) (d : α), ((List.range N).map F).getLastD d = F (N - 1) := by
    intro α N hN F d
    obtain ⟨n, rfl⟩ : ∃ n, N = n + 1 := ⟨N - 1, (Nat.succ_pred_eq_of_pos hN).symm⟩
    rw [List.range_succ, List.map_append, List.map_singleton,
      getLastD_append_singleton]
    rfl
  have EMG_table_chain : ∀ (mu sig lam : ℝ) (hs : 0 < sig) (hl : 0 < lam), List.Chain' TRel ((List.range (EMG_gen2.gridN mu sig lam)).map
      (fun i => (EMG_gen1.cdf (EMG_gen2.grid mu sig lam i) mu sig lam,
        EMG_gen2.grid mu sig lam i))) := by
    intro mu sig lam hs hl
    rw [List.chain'_map]
    cases hN : EMG_gen2.gridN mu sig lam with
    | zero => simp
    | succ n =>
      rw [List.chain'_range_succ]
      intro m hm
      have hgrid : EMG_gen2.grid mu sig lam m < EMG_gen2.grid mu sig lam (m + 1) := by
        unfold EMG_gen2.grid
        push_cast
        linarith
      exact ⟨(EMG_cdf_global_facts.2.2.2.1) mu sig lam hs hl hgrid, hgrid.le⟩
  have interp_bracket : ∀ {q y0 x0 : ℝ} {l : List (ℝ × ℝ)} {plo phi : ℝ × ℝ}
    (hc : List.Chain' TRel ((y0, x0) :: l))
    (hlo : plo ∈ (y0, x0) :: l) (hhi : phi ∈ (y0, x0) :: l)
    (hqlo : plo.1 ≤ q) (hqhi : q ≤ phi.1), plo.2 ≤ interp q ((y0, x0) :: l) ∧ interp q ((y0, x0) :: l) ≤ phi.2 := by
    intro q y0 x0 l plo phi hc hlo hhi hqlo hqhi
    rw [interp]
    by_cases hcase : q < y0
    · rw [if_pos hcase]
      constructor
      · rcases List.mem_cons.mp hlo with h | h
        · rw [show plo.2 = x0 from congrArg Prod.snd h]
        · have := tchain_head_rel hc h
          exact absurd hqlo (by simp only [not_le]; linarith [this.1])
      · rcases List.mem_cons.mp hhi with h | h
        · rw [show phi.2 = x0 from congrArg Prod.snd h]
        · exact (tchain_head_rel hc h).2
    · rw [if_neg hcase]
      have hy0 : y0 ≤ q := le_of_not_lt hcase
      constructor
      · obtain ⟨ylo, xlo⟩ := plo
        exact interpGo_ge_of_mem hc hy0 hlo hqlo
      · rcases List.mem_cons.mp hhi with h | h
        · have hfst : phi.1 = y0 := congrArg Prod.fst h
          have hq0 : q = y0 := le_antisymm (hfst ▸ hqhi) hy0
          have hclamp : interp q ((y0, x0) :: l) = x0 :=
            interp_left_clamp hc (le_of_eq hq0)
          rw [interp, if_neg hcase] at hclamp
          rw [hclamp, show phi.2 = x0 from congrArg Prod.snd h]
        · obtain ⟨yhi, xhi⟩ := phi
          exact interpGo_le_of_mem hc h hqhi
  exact ⟨getLastD_append_singleton, range_map_head, range_map_last, EMG_table_chain, interp_bracket⟩

/-- Claim C4: for every valid parameter triple and every `x` inside the
tabulated range, the interpolated quantile applied to the cumulative value
of `x` returns `x` up to the table resolution `0.01`. -/
theorem claim_C4_ppf_cdf_roundtrip (mu sig lam : ℝ) (hs : 0 < sig) (hl : 0 < lam)
    (x : ℝ) (hx1 : EMG_gen2.gridLo mu sig lam ≤ x)
    (hx2 : x ≤ EMG_gen2.gridHi mu sig lam) :
    |EMG_gen2.ppf (EMG_gen1.cdf x mu sig lam) mu sig lam - x| ≤ 0.01 := by
  set N := EMG_gen2.gridN mu sig lam with hN
  have hN1 : 1 ≤ N := EMG_gen2.gridN_pos mu sig lam hs hl
  set g : ℕ → ℝ := EMG_gen2.grid mu sig lam with hg
  set q : ℝ := EMG_gen1.cdf x mu sig lam with hq
  have hchain := (EMG_table_facts.2.2.2.1) mu sig lam hs hl
  obtain ⟨l, hl_eq⟩ := (EMG_table_facts.2.1) N hN1
    (fun i => (EMG_gen1.cdf (g i) mu sig lam, g i))
  have hmono := (EMG_cdf_global_facts.2.2.1) mu sig lam hs hl
  rcases Nat.lt_or_ge N 2 with hN2 | hN2
  · -- single-point table: x is forced to be the unique grid point
    have hNval : N = 1 := le_antisymm (Nat.lt_succ_iff.mp hN2) hN1
    have hHi : EMG_gen2.gridHi mu sig lam = g 0 := by
      unfold EMG_gen2.gridHi
      rw [← hN, hNval]
    have hx0 : x = g 0 := by
      have := EMG_gen2.grid_zero mu sig lam
      rw [hHi] at hx2
      rw [← this] at hx1
      linarith
    have hmemlo : (EMG_gen1.cdf (g 0) mu sig lam, g 0)
        ∈ (List.range N).map (fun i => (EMG_gen1.cdf (g i) mu sig lam, g i)) :=
      List.mem_map_of_mem _ (List.mem_range.mpr (by omega))
    rw [EMG_gen2.ppf_eq, ← hN, ← hg, hl_eq]
    rw [hl_eq] at hchain hmemlo
    have hqeq : q = EMG_gen1.cdf (g 0) mu sig lam := by rw [hq, hx0]
    have hbr := (EMG_table_facts.2.2.2.2) hchain hmemlo hmemlo
      (le_of_eq hqeq.symm) (le_of_eq hqeq)
    have h1 := hbr.1
    have h2 := hbr.2
    rw [abs_le]
    constructor <;> [linarith [hx0, h1]; linarith [hx0, h2]]
  · -- at least two points: bracket x between two adjacent grid points
    set i0 : ℕ := Nat.floor ((x - EMG_gen2.gridLo mu sig lam) / 0.01) with hi0
    set i : ℕ := min i0 (N - 2) with hi
    have hxlo : (0:ℝ) ≤ (x - EMG_gen2.gridLo mu sig lam) / 0.01 := by
      apply div_nonneg (by linarith) (by norm_num)
    have hgi : g i ≤ x := by
      have h1 : (i : ℝ) ≤ (x - EMG_gen2.gridLo mu sig lam) / 0.01 := by
        calc (i : ℝ) ≤ (i0 : ℝ) := by
              exact_mod_cast Nat.cast_le.mpr (min_le_left _ _)
          _ ≤ (x - EMG_gen2.gridLo mu sig lam) / 0.01 := Nat.floor_le hxlo
      have h2 := (le_div_iff (by norm_num : (0:ℝ) < 0.01)).1 h1
      rw [hg]
      unfold EMG_gen2.grid
      linarith
    have hgi1 : x ≤ g (i + 1) := by
      rcases le_or_lt i0 (N - 2) with hcase | hcase
      · have hieq : i = i0 := min_eq_left hcase
        have h1 : (x - EMG_gen2.gridLo mu sig lam) / 0.01 < i0 + 1 :=
          Nat.lt_floor_add_one _
        have h2 := (div_lt_iff (by norm_num : (0:ℝ) < 0.01)).1 h1
        rw [hg]
        unfold EMG_gen2.grid
        rw [hieq]
        push_cast
        linarith
      · have hieq : i = N - 2 := min_eq_right hcase.le
        have : i + 1 = N - 1 := by omega
        rw [hg, this]
        exact hx2
    have hqlo : EMG_gen1.cdf (g i) mu sig lam ≤ q := hmono hgi
    have hqhi : q ≤ EMG_gen1.cdf (g (i + 1)) mu sig lam := hmono hgi1
    have hmemlo : (EMG_gen1.cdf (g i) mu sig lam, g i)
        ∈ (List.range N).map (fun j => (EMG_gen1.cdf (g j) mu sig lam, g j)) :=
      List.mem_map_of_mem _ (List.mem_range.mpr (by omega))
    have hmemhi : (EMG_gen1.cdf (g (i + 1)) mu sig lam, g (i + 1))
        ∈ (List.range N).map (fun j => (EMG_gen1.cdf (g j) mu sig lam, g j)) :=
      List.mem_map_of_mem _ (List.mem_range.mpr (by omega))
    rw [EMG_gen2.ppf_eq, ← hN, ← hg, hl_eq]
    rw [hl_eq] at hchain hmemlo hmemhi
    have hbr := (EMG_table_facts.2.2.2.2) hchain hmemlo hmemhi hqlo hqhi
    have hgap : g (i + 1) - g i = 0.01 := by
      rw [hg]
      unfold EMG_gen2.grid
      push_cast
      ring
    rw [abs_le]
    constructor <;> [linarith [hbr.1]; linarith [hbr.2]]

/-- Witness for C4 at `mu=0, sigma=1, lambda=0.5`, `x = 0`
(which lies inside the tabulated range `mu ± 50*sqrt(var)`). -/
theorem claim_C4_witness :
    |EMG_gen2.ppf (EMG_gen1.cdf 0 0 1 0.5) 0 1 0.5 - 0| ≤ 0.01 := by
  have hvar : (1:ℝ) ≤ Real.sqrt ((1:ℝ) ^ 2 + 1 / (0.5:ℝ) ^ 2) := by
    rw [show ((1:ℝ) ^ 2 + 1 / (0.5:ℝ) ^ 2) = 5 by norm_num]
    nlinarith [Real.sq_sqrt (by norm_num : (0:ℝ) ≤ 5),
      Real.sqrt_nonneg (5:ℝ)]
  refine claim_C4_ppf_cdf_roundtrip 0 1 0.5 (by norm_num) (by norm_num) 0 ?_ ?_
  · unfold EMG_gen2.gridLo
    nlinarith
  · unfold EMG_gen2.gridHi EMG_gen2.grid EMG_gen2.gridLo
    have hN1 := EMG_gen2.gridN_pos 0 1 0.5 (by norm_num) (by norm_num)
    have hceil : ((0:ℝ) + 50 * Real.sqrt ((1:ℝ) ^ 2 + 1 / (0.5:ℝ) ^ 2)
        - ((0:ℝ) - 50 * Real.sqrt ((1:ℝ) ^ 2 + 1 / (0.5:ℝ) ^ 2))) / 0.01
        ≤ (EMG_gen2.gridN 0 1 0.5 : ℝ) := by
      unfold EMG_gen2.gridN
      exact Nat.le_ceil _
    have hmul := (div_le_iff (by norm_num : (0:ℝ) < 0.01)).1 hceil
    rw [Nat.cast_sub hN1, Nat.cast_one]
    nlinarith

/-- Claim C10: `EMG_gen2._ppf` is total and clamps at the table boundaries:
queries at or below the smallest tabulated cumulative value (including
`q = 0`) return the finite lower endpoint `mu - 50*sqrt(var)`, queries at or
above the largest tabulated value (including `q = 1`) return the last
finite grid point, and every result lies inside the tabulated interval. -/
theorem claim_C10_ppf_clamps (mu sig lam : ℝ) (hs : 0 < sig) (hl : 0 < lam) :
    (∀ q, q ≤ EMG_gen1.cdf (EMG_gen2.gridLo mu sig lam) mu sig lam →
        EMG_gen2.ppf q mu sig lam = EMG_gen2.gridLo mu sig lam)
    ∧ EMG_gen2.ppf 0 mu sig lam = EMG_gen2.gridLo mu sig lam
    ∧ (∀ q, EMG_gen1.cdf (EMG_gen2.gridHi mu sig lam) mu sig lam ≤ q →
        EMG_gen2.ppf q mu sig lam = EMG_gen2.gridHi mu sig lam)
    ∧ EMG_gen2.ppf 1 mu sig lam = EMG_gen2.gridHi mu sig lam
    ∧ (∀ q, EMG_gen2.ppf q mu sig lam
        ∈ Icc (EMG_gen2.gridLo mu sig lam) (EMG_gen2.gridHi mu sig lam)) := by
  set N := EMG_gen2.gridN mu sig lam with hN
  have hN1 : 1 ≤ N := EMG_gen2.gridN_pos mu sig lam hs hl
  set g : ℕ → ℝ := EMG_gen2.grid mu sig lam with hg
  have hchain0 := (EMG_table_facts.2.2.2.1) mu sig lam hs hl
  obtain ⟨l, hl_eq0⟩ := (EMG_table_facts.2.1) N hN1
    (fun i => (EMG_gen1.cdf (g i) mu sig lam, g i))
  have hl_eq : (List.range N).map (fun i => (EMG_gen1.cdf (g i) mu sig lam, g i))
      = (EMG_gen1.cdf (g 0) mu sig lam, g 0) :: l := hl_eq0
  have hchain : List.Chain' TRel ((EMG_gen1.cdf (g 0) mu sig lam, g 0) :: l) := by
    rw [← hl_eq]
    exact hchain0
  have hlast : l.getLastD (EMG_gen1.cdf (g 0) mu sig lam, g 0)
      = (EMG_gen1.cdf (g (N - 1)) mu sig lam, g (N - 1)) := by
    have h0 := (EMG_table_facts.2.2.1) N hN1 (fun i => (EMG_gen1.cdf (g i) mu sig lam, g i))
      (EMG_gen1.cdf (g 0) mu sig lam, g 0)
    rw [hl_eq, List.getLastD_cons] at h0
    exact h0
  have hg0 : g 0 = EMG_gen2.gridLo mu sig lam := EMG_gen2.grid_zero mu sig lam
  have hgHi : g (N - 1) = EMG_gen2.gridHi mu sig lam := by
    rw [hg, hN]
    rfl
  have hppf : ∀ q, EMG_gen2.ppf q mu sig lam
      = interp q ((EMG_gen1.cdf (g 0) mu sig lam, g 0) :: l) := by
    intro q
    rw [EMG_gen2.ppf_eq, ← hN, ← hg, hl_eq]
  have hleft : ∀ q, q ≤ EMG_gen1.cdf (EMG_gen2.gridLo mu sig lam) mu sig lam →
      EMG_gen2.ppf q mu sig lam = EMG_gen2.gridLo mu sig lam := by
    intro q hqle
    rw [hppf q, interp_left_clamp hchain (by rw [hg0]; exact hqle), hg0]
  have hright : ∀ q, EMG_gen1.cdf (EMG_gen2.gridHi mu sig lam) mu sig lam ≤ q →
      EMG_gen2.ppf q mu sig lam = EMG_gen2.gridHi mu sig lam := by
    intro q hqge
    rw [hppf q, interp_right_clamp hchain (by rw [hlast]; simpa [hgHi] using hqge),
      hlast]
    simpa using hgHi
  refine ⟨hleft, ?_, hright, ?_, ?_⟩
  · exact hleft 0 ((EMG_cdf_global_facts.2.2.2.2.1) mu sig lam hs hl _)
  · exact hright 1 ((EMG_cdf_global_facts.2.2.2.2.2.1) mu sig lam hs hl _)
  · intro q
    rw [hppf q, ← hg0, ← hgHi]
    have hres := interp_mem_Icc (q := q) hchain
    rw [hlast] at hres
    exact hres

/-- Witness for C10 at `mu=0, sigma=1, lambda=0.5`. -/
theorem claim_C10_witness :
    EMG_gen2.ppf 0 0 1 0.5 = EMG_gen2.gridLo 0 1 0.5
    ∧ EMG_gen2.ppf 1 0 1 0.5 = EMG_gen2.gridHi 0 1 0.5
    ∧ EMG_gen2.ppf 0.5 0 1 0.5 ∈ Icc (EMG_gen2.gridLo 0 1 0.5) (EMG_gen2.gridHi 0 1 0.5) :=
  ⟨(claim_C10_ppf_clamps 0 1 0.5 (by norm_num) (by norm_num)).2.1,
   (claim_C10_ppf_clamps 0 1 0.5 (by norm_num) (by norm_num)).2.2.2.1,
   (claim_C10_ppf_clamps 0 1 0.5 (by norm_num) (by norm_num)).2.2.2.2 0.5⟩

/-! ### Gaussian moment integrals (towards claim C3) -/

/-- Bundled decay and integrability facts for the Gaussian kernel: polynomial domination by the exponential, integrability of polynomial multiples, vanishing of polynomial multiples at both infinities, the derivative of the Gaussian antiderivative, and its vanishing at infinity. -/
theorem gauss_decay_facts :
    (∀ {j : ℕ} (hj : j ≤ 4) (t : ℝ), |t| ^ j ≤ 1 + t ^ 4)
    ∧ (∀ (t : ℝ), 1 + t ^ 4 ≤ 65 * Real.exp (t ^ 2 / 4))
    ∧ (∀ {j : ℕ} (hj : j ≤ 4) (t : ℝ), |t ^ j * Real.exp (-t ^ 2 / 2)| ≤ 65 * Real.exp (-t ^ 2 / 4))
    ∧ (Integrable fun t : ℝ => 65 * Real.exp (-t ^ 2 / 4))
    ∧ (∀ {j : ℕ} (hj : j ≤ 4), Integrable fun t : ℝ => t ^ j * Real.exp (-t ^ 2 / 2))
    ∧ (∀ {j : ℕ} (hj : j ≤ 4) {l : Filter ℝ}
    (hsq : Tendsto (fun t : ℝ => t ^ 2) l atTop), Tendsto (fun t => t ^ j * Real.exp (-t ^ 2 / 2)) l (𝓝 0))
    ∧ (Tendsto (fun t : ℝ => t ^ 2) atTop atTop)
    ∧ (Tendsto (fun t : ℝ => t ^ 2) atBot atTop)
    ∧ (∀ (t : ℝ), HasDerivAt (fun t : ℝ => Real.exp (-t ^ 2 / 2)) (Real.exp (-t ^ 2 / 2) * (-t)) t)
    ∧ (∀ {l : Filter ℝ} (hsq : Tendsto (fun t : ℝ => t ^ 2) l atTop)
    (a b c d : ℝ), Tendsto (fun t : ℝ => -((a * t ^ 3 + b * t ^ 2 + c * t + d) * Real.exp (-t ^ 2 / 2)))
      l (𝓝 0)) := by
  have abs_pow_le_one_add_pow4 : ∀ {j : ℕ} (hj : j ≤ 4) (t : ℝ), |t| ^ j ≤ 1 + t ^ 4 := by
    intro j hj t
    rcases le_or_lt (|t|) 1 with h | h
    · have h1 : |t| ^ j ≤ 1 := pow_le_one₀ (abs_nonneg t) h
      have h4 : (0:ℝ) ≤ t ^ 4 := by positivity
      linarith
    · have h1 : |t| ^ j ≤ |t| ^ 4 := pow_le_pow_right₀ h.le hj
      have h2 : |t| ^ 4 = t ^ 4 := by
        rw [← abs_pow]
        exact abs_of_nonneg (by positivity)
      nlinarith
  have one_add_pow4_le_exp : ∀ (t : ℝ), 1 + t ^ 4 ≤ 65 * Real.exp (t ^ 2 / 4) := by
    intro t
    have h1 : 1 + t ^ 2 / 8 ≤ Real.exp (t ^ 2 / 8) := by
      have := Real.add_one_le_exp (t ^ 2 / 8)
      linarith
    have h2 : Real.exp (t ^ 2 / 4) = Real.exp (t ^ 2 / 8) * Real.exp (t ^ 2 / 8) := by
      rw [← Real.exp_add]
      congr 1
      ring
    nlinarith [sq_nonneg t, sq_nonneg (t ^ 2), Real.exp_pos (t ^ 2 / 8)]
  have gauss_pow_bound : ∀ {j : ℕ} (hj : j ≤ 4) (t : ℝ), |t ^ j * Real.exp (-t ^ 2 / 2)| ≤ 65 * Real.exp (-t ^ 2 / 4) := by
    intro j hj t
    rw [abs_mul, abs_of_nonneg (Real.exp_pos _).le, abs_pow]
    have h1 : |t| ^ j * Real.exp (-t ^ 2 / 2) ≤ (1 + t ^ 4) * Real.exp (-t ^ 2 / 2) :=
      mul_le_mul_of_nonneg_right (abs_pow_le_one_add_pow4 hj t) (Real.exp_pos _).le
    have h2 : (1 + t ^ 4) * Real.exp (-t ^ 2 / 2)
        ≤ 65 * Real.exp (t ^ 2 / 4) * Real.exp (-t ^ 2 / 2) :=
      mul_le_mul_of_nonneg_right (one_add_pow4_le_exp t) (Real.exp_pos _).le
    have h3 : 65 * Real.exp (t ^ 2 / 4) * Real.exp (-t ^ 2 / 2)
        = 65 * Real.exp (-t ^ 2 / 4) := by
      rw [mul_assoc, ← Real.exp_add]
      congr 2
      ring
    linarith
  have integrable_gauss_quarter : Integrable fun t : ℝ => 65 * Real.exp (-t ^ 2 / 4) := by
    have h0 : ∀ t : ℝ, -(1 / 4 : ℝ) * t ^ 2 = -t ^ 2 / 4 := fun t => by ring
    have h := (integrable_exp_neg_mul_sq (show (0:ℝ) < 1 / 4 by norm_num)).const_mul (65:ℝ)
    simpa only [h0] using h
  have integrable_pow_mul_gauss : ∀ {j : ℕ} (hj : j ≤ 4), Integrable fun t : ℝ => t ^ j * Real.exp (-t ^ 2 / 2) := by
    intro j hj
    refine Integrable.mono' integrable_gauss_quarter ?_
      (Eventually.of_forall fun t => ?_)
    · exact ((continuous_pow j).mul
        (((continuous_pow 2).neg.div_const 2).rexp)).aestronglyMeasurable
    · rw [Real.norm_eq_abs]
      exact gauss_pow_bound hj t
  have tendsto_pow_gauss : ∀ {j : ℕ} (hj : j ≤ 4) {l : Filter ℝ}
    (hsq : Tendsto (fun t : ℝ => t ^ 2) l atTop), Tendsto (fun t => t ^ j * Real.exp (-t ^ 2 / 2)) l (𝓝 0) := by
    intro j hj l hsq
    have hexp : Tendsto (fun t : ℝ => 65 * Real.exp (-t ^ 2 / 4)) l (𝓝 0) := by
      have h1 : Tendsto (fun t : ℝ => -t ^ 2 / 4) l atBot := by
        apply Tendsto.atBot_div_const (show (0:ℝ) < 4 by norm_num)
        exact tendsto_neg_atTop_atBot.comp hsq
      have h2 : Tendsto (fun t : ℝ => Real.exp (-t ^ 2 / 4)) l (𝓝 0) :=
        Real.tendsto_exp_atBot.comp h1
      simpa using h2.const_mul (65:ℝ)
    refine tendsto_of_tendsto_of_tendsto_of_le_of_le (g := fun t => -(65 * Real.exp (-t ^ 2 / 4)))
      (by simpa using hexp.neg) hexp ?_ ?_
    · intro t
      have := gauss_pow_bound hj t
      have h := abs_le.mp this
      linarith [h.1]
    · intro t
      have := gauss_pow_bound hj t
      have h := abs_le.mp this
      linarith [h.2]
  have tendsto_sq_atTop_real : Tendsto (fun t : ℝ => t ^ 2) atTop atTop := by
    exact
      (tendsto_pow_atTop (by norm_num))
  have tendsto_sq_atBot_real : Tendsto (fun t : ℝ => t ^ 2) atBot atTop := by
    have h := tendsto_sq_atTop_real.comp tendsto_neg_atBot_atTop
    refine h.congr fun t => ?_
    simp [neg_pow]
  have hasDerivAt_gaussExp : ∀ (t : ℝ), HasDerivAt (fun t : ℝ => Real.exp (-t ^ 2 / 2)) (Real.exp (-t ^ 2 / 2) * (-t)) t := by
    intro t
    have h := (((hasDerivAt_pow 2 t).neg).div_const 2).exp
    convert h using 1
    simp
    ring
  have tendsto_gaussA_zero : ∀ {l : Filter ℝ} (hsq : Tendsto (fun t : ℝ => t ^ 2) l atTop)
    (a b c d : ℝ), Tendsto (fun t : ℝ => -((a * t ^ 3 + b * t ^ 2 + c * t + d) * Real.exp (-t ^ 2 / 2)))
      l (𝓝 0) := by
    intro l hsq a b c d
    have h3 := (tendsto_pow_gauss (by norm_num : (3:ℕ) ≤ 4) hsq).const_mul a
    have h2 := (tendsto_pow_gauss (by norm_num : (2:ℕ) ≤ 4) hsq).const_mul b
    have h1 := (tendsto_pow_gauss (by norm_num : (1:ℕ) ≤ 4) hsq).const_mul c
    have h0 := (tendsto_pow_gauss (by norm_num : (0:ℕ) ≤ 4) hsq).const_mul d
    have hsum := (((h3.add h2).add h1).add h0).neg
    simp only [mul_zero, add_zero, neg_zero] at hsum
    refine hsum.congr fun t => ?_
    ring
  exact ⟨abs_pow_le_one_add_pow4, one_add_pow4_le_exp, gauss_pow_bound, integrable_gauss_quarter, integrable_pow_mul_gauss, tendsto_pow_gauss, tendsto_sq_atTop_real, tendsto_sq_atBot_real, hasDerivAt_gaussExp, tendsto_gaussA_zero⟩
 

/-- Bundled values of the Gaussian raw integrals of degree zero through four. -/
theorem gauss_moment_facts :
    (∫ t : ℝ, Real.exp (-t ^ 2 / 2) = Real.sqrt (2 * Real.pi))
    ∧ (∫ t : ℝ, t * Real.exp (-t ^ 2 / 2) = 0)
    ∧ (∫ t : ℝ, t ^ 2 * Real.exp (-t ^ 2 / 2) = Real.sqrt (2 * Real.pi))
    ∧ (∫ t : ℝ, t ^ 3 * Real.exp (-t ^ 2 / 2) = 0)
    ∧ (∫ t : ℝ, t ^ 4 * Real.exp (-t ^ 2 / 2) = 3 * Real.sqrt (2 * Real.pi)) := by
  have integral_gauss_pow_zero : ∫ t : ℝ, Real.exp (-t ^ 2 / 2) = Real.sqrt (2 * Real.pi) := by
    have h0 : ∀ t : ℝ, Real.exp (-(1 / 2 : ℝ) * t ^ 2) = Real.exp (-t ^ 2 / 2) :=
      fun t => by ring_nf
    rw [← integral_congr_ae (Eventually.of_forall h0), integral_gaussian,
      show Real.pi / (1 / 2) = 2 * Real.pi by ring]
  have integral_gauss_pow_one : ∫ t : ℝ, t * Real.exp (-t ^ 2 / 2) = 0 := by
    have hderiv : ∀ t : ℝ, HasDerivAt (fun t : ℝ => -Real.exp (-t ^ 2 / 2))
        (t * Real.exp (-t ^ 2 / 2)) t := by
      intro t
      have h := ((gauss_decay_facts.2.2.2.2.2.2.2.2.1) t).neg
      convert h using 1
      ring
    have hint : Integrable (fun t : ℝ => t * Real.exp (-t ^ 2 / 2)) := by
      have := (gauss_decay_facts.2.2.2.2.1) (show (1:ℕ) ≤ 4 by norm_num)
      simpa using this
    have hbot : Tendsto (fun t : ℝ => -Real.exp (-t ^ 2 / 2)) atBot (𝓝 0) := by
      have := (gauss_decay_facts.2.2.2.2.2.2.2.2.2) (gauss_decay_facts.2.2.2.2.2.2.2.1) 0 0 0 1
      simpa using this
    have htop : Tendsto (fun t : ℝ => -Real.exp (-t ^ 2 / 2)) atTop (𝓝 0) := by
      have := (gauss_decay_facts.2.2.2.2.2.2.2.2.2) (gauss_decay_facts.2.2.2.2.2.2.1) 0 0 0 1
      simpa using this
    have h := MeasureTheory.integral_of_hasDerivAt_of_tendsto hderiv hint hbot htop
    simpa using h
  have integral_gauss_pow_two : ∫ t : ℝ, t ^ 2 * Real.exp (-t ^ 2 / 2) = Real.sqrt (2 * Real.pi) := by
    have hderiv : ∀ t : ℝ, HasDerivAt (fun t : ℝ => -(t * Real.exp (-t ^ 2 / 2)))
        (t ^ 2 * Real.exp (-t ^ 2 / 2) - Real.exp (-t ^ 2 / 2)) t := by
      intro t
      have h := ((hasDerivAt_id t).mul ((gauss_decay_facts.2.2.2.2.2.2.2.2.1) t)).neg
      convert h using 1
      simp only [id_eq]
      ring
    have hint2 : Integrable (fun t : ℝ => t ^ 2 * Real.exp (-t ^ 2 / 2)) :=
      (gauss_decay_facts.2.2.2.2.1) (by norm_num)
    have hint0 : Integrable (fun t : ℝ => Real.exp (-t ^ 2 / 2)) := by
      have := (gauss_decay_facts.2.2.2.2.1) (show (0:ℕ) ≤ 4 by norm_num)
      simpa using this
    have hint : Integrable
        (fun t : ℝ => t ^ 2 * Real.exp (-t ^ 2 / 2) - Real.exp (-t ^ 2 / 2)) :=
      hint2.sub hint0
    have hbot : Tendsto (fun t : ℝ => -(t * Real.exp (-t ^ 2 / 2))) atBot (𝓝 0) := by
      have := (gauss_decay_facts.2.2.2.2.2.2.2.2.2) (gauss_decay_facts.2.2.2.2.2.2.2.1) 0 0 1 0
      simpa using this
    have htop : Tendsto (fun t : ℝ => -(t * Real.exp (-t ^ 2 / 2))) atTop (𝓝 0) := by
      have := (gauss_decay_facts.2.2.2.2.2.2.2.2.2) (gauss_decay_facts.2.2.2.2.2.2.1) 0 0 1 0
      simpa using this
    have h := MeasureTheory.integral_of_hasDerivAt_of_tendsto hderiv hint hbot htop
    rw [integral_sub hint2 hint0, integral_gauss_pow_zero] at h
    linarith [h]
  have integral_gauss_pow_three : ∫ t : ℝ, t ^ 3 * Real.exp (-t ^ 2 / 2) = 0 := by
    have hderiv : ∀ t : ℝ, HasDerivAt (fun t : ℝ => -((t ^ 2 + 2) * Real.exp (-t ^ 2 / 2)))
        (t ^ 3 * Real.exp (-t ^ 2 / 2)) t := by
      intro t
      have hpoly : HasDerivAt (fun t : ℝ => t ^ 2 + 2) (2 * t ^ 1) t :=
        (hasDerivAt_pow 2 t).add_const 2
      have h := (hpoly.mul ((gauss_decay_facts.2.2.2.2.2.2.2.2.1) t)).neg
      convert h using 1
      ring
    have hint : Integrable (fun t : ℝ => t ^ 3 * Real.exp (-t ^ 2 / 2)) :=
      (gauss_decay_facts.2.2.2.2.1) (by norm_num)
    have hbot : Tendsto (fun t : ℝ => -((t ^ 2 + 2) * Real.exp (-t ^ 2 / 2))) atBot (𝓝 0) := by
      have := (gauss_decay_facts.2.2.2.2.2.2.2.2.2) (gauss_decay_facts.2.2.2.2.2.2.2.1) 0 1 0 2
      refine (this.congr fun t => ?_)
      ring_nf
    have htop : Tendsto (fun t : ℝ => -((t ^ 2 + 2) * Real.exp (-t ^ 2 / 2))) atTop (𝓝 0) := by
      have := (gauss_decay_facts.2.2.2.2.2.2.2.2.2) (gauss_decay_facts.2.2.2.2.2.2.1) 0 1 0 2
      refine (this.congr fun t => ?_)
      ring_nf
    have h := MeasureTheory.integral_of_hasDerivAt_of_tendsto hderiv hint hbot htop
    simpa using h
  have integral_gauss_pow_four : ∫ t : ℝ, t ^ 4 * Real.exp (-t ^ 2 / 2) = 3 * Real.sqrt (2 * Real.pi) := by
    have hderiv : ∀ t : ℝ,
        HasDerivAt (fun t : ℝ => -((t ^ 3 + 3 * t) * Real.exp (-t ^ 2 / 2)))
        (t ^ 4 * Real.exp (-t ^ 2 / 2) - 3 * Real.exp (-t ^ 2 / 2)) t := by
      intro t
      have hpoly : HasDerivAt (fun t : ℝ => t ^ 3 + 3 * t) (3 * t ^ 2 + 3 * 1) t :=
        (hasDerivAt_pow 3 t).add ((hasDerivAt_id t).const_mul 3)
      have h := (hpoly.mul ((gauss_decay_facts.2.2.2.2.2.2.2.2.1) t)).neg
      convert h using 1
      push_cast
      ring
    have hint4 : Integrable (fun t : ℝ => t ^ 4 * Real.exp (-t ^ 2 / 2)) :=
      (gauss_decay_facts.2.2.2.2.1) (by norm_num)
    have hint0 : Integrable (fun t : ℝ => 3 * Real.exp (-t ^ 2 / 2)) := by
      have := (gauss_decay_facts.2.2.2.2.1) (show (0:ℕ) ≤ 4 by norm_num)
      have h2 := this.const_mul (3:ℝ)
      refine h2.congr (Eventually.of_forall fun t => ?_)
      ring
    have hint : Integrable
        (fun t : ℝ => t ^ 4 * Real.exp (-t ^ 2 / 2) - 3 * Real.exp (-t ^ 2 / 2)) :=
      hint4.sub hint0
    have hbot : Tendsto (fun t : ℝ => -((t ^ 3 + 3 * t) * Real.exp (-t ^ 2 / 2)))
        atBot (𝓝 0) := by
      have := (gauss_decay_facts.2.2.2.2.2.2.2.2.2) (gauss_decay_facts.2.2.2.2.2.2.2.1) 1 0 3 0
      refine (this.congr fun t => ?_)
      ring_nf
    have htop : Tendsto (fun t : ℝ => -((t ^ 3 + 3 * t) * Real.exp (-t ^ 2 / 2)))
        atTop (𝓝 0) := by
      have := (gauss_decay_facts.2.2.2.2.2.2.2.2.2) (gauss_decay_facts.2.2.2.2.2.2.1) 1 0 3 0
      refine (this.congr fun t => ?_)
      ring_nf
    have h := MeasureTheory.integral_of_hasDerivAt_of_tendsto hderiv hint hbot htop
    rw [integral_sub hint4 hint0] at h
    have h3 : ∫ t : ℝ, 3 * Real.exp (-t ^ 2 / 2) = 3 * Real.sqrt (2 * Real.pi) := by
      rw [MeasureTheory.integral_mul_left, integral_gauss_pow_zero]
    rw [h3] at h
    linarith [h]
  exact ⟨integral_gauss_pow_zero, integral_gauss_pow_one, integral_gauss_pow_two, integral_gauss_pow_three, integral_gauss_pow_four⟩

/-- Bundled moment facts for the standard normal density: integrability of polynomial multiples, the change of variables to Gaussian raw integrals, and the values of the raw moments of degree zero through four. -/
theorem stdNorm_moment_facts :
    (∀ {j : ℕ} (hj : j ≤ 4), Integrable fun u : ℝ => u ^ j * stdNormPdf u)
    ∧ (∀ (j : ℕ), ∫ u : ℝ, u ^ j * stdNormPdf u
      = (Real.sqrt (2 * Real.pi))⁻¹ * ∫ t : ℝ, t ^ j * Real.exp (-t ^ 2 / 2))
    ∧ (∫ u : ℝ, u ^ 0 * stdNormPdf u = 1)
    ∧ (∫ u : ℝ, u ^ 1 * stdNormPdf u = 0)
    ∧ (∫ u : ℝ, u ^ 2 * stdNormPdf u = 1)
    ∧ (∫ u : ℝ, u ^ 3 * stdNormPdf u = 0)
    ∧ (∫ u : ℝ, u ^ 4 * stdNormPdf u = 3) := by
  have integrable_pow_mul_stdNormPdf : ∀ {j : ℕ} (hj : j ≤ 4), Integrable fun u : ℝ => u ^ j * stdNormPdf u := by
    intro j hj
    have h := ((gauss_decay_facts.2.2.2.2.1) hj).const_mul (Real.sqrt (2 * Real.pi))⁻¹
    refine h.congr (Eventually.of_forall fun u => ?_)
    unfold stdNormPdf
    ring
  have integral_pow_mul_stdNormPdf_eq : ∀ (j : ℕ), ∫ u : ℝ, u ^ j * stdNormPdf u
      = (Real.sqrt (2 * Real.pi))⁻¹ * ∫ t : ℝ, t ^ j * Real.exp (-t ^ 2 / 2) := by
    intro j
    rw [← MeasureTheory.integral_mul_left]
    refine integral_congr_ae (Eventually.of_forall fun u => ?_)
    unfold stdNormPdf
    ring
  have stdNorm_mom_zero : ∫ u : ℝ, u ^ 0 * stdNormPdf u = 1 := by
    have h : ∀ u : ℝ, u ^ 0 * stdNormPdf u = stdNormPdf u := fun u => by ring
    rw [integral_congr_ae (Eventually.of_forall h)]
    exact (stdNormPdf_facts.2.2.2.2.2.2.1)
  have stdNorm_mom_one : ∫ u : ℝ, u ^ 1 * stdNormPdf u = 0 := by
    rw [integral_pow_mul_stdNormPdf_eq]
    have h : ∀ t : ℝ, t ^ 1 * Real.exp (-t ^ 2 / 2) = t * Real.exp (-t ^ 2 / 2) :=
      fun t => by ring
    rw [integral_congr_ae (Eventually.of_forall h), (gauss_moment_facts.2.1), mul_zero]
  have stdNorm_mom_two : ∫ u : ℝ, u ^ 2 * stdNormPdf u = 1 := by
    rw [integral_pow_mul_stdNormPdf_eq, (gauss_moment_facts.2.2.1),
      inv_mul_cancel₀ (stdNormPdf_facts.1).ne']
  have stdNorm_mom_three : ∫ u : ℝ, u ^ 3 * stdNormPdf u = 0 := by
    rw [integral_pow_mul_stdNormPdf_eq, (gauss_moment_facts.2.2.2.1), mul_zero]
  have stdNorm_mom_four : ∫ u : ℝ, u ^ 4 * stdNormPdf u = 3 := by
    rw [integral_pow_mul_stdNormPdf_eq, (gauss_moment_facts.2.2.2.2)]
    field_simp
  exact ⟨integrable_pow_mul_stdNormPdf, integral_pow_mul_stdNormPdf_eq, stdNorm_mom_zero, stdNorm_mom_one, stdNorm_mom_two, stdNorm_mom_three, stdNorm_mom_four⟩

/-- Bundled centered moment facts for the general normal density: affine substitution identities, integrability of the substituted integrand, and the centered moments of degree one through four. -/
theorem normPdf_moment_facts :
    (∀ (f : ℝ → ℝ) (b sig : ℝ) (hs : 0 < sig), ∫ x : ℝ, f ((x - b) / sig) = sig * ∫ u, f u)
    ∧ (∀ (k : ℕ) (b c sig : ℝ) (hs : 0 < sig), ∫ x : ℝ, (x - c) ^ k * normPdf x b sig
      = ∫ u : ℝ, ((b - c) + sig * u) ^ k * stdNormPdf u)
    ∧ (∀ (c : ℝ) {j : ℕ} (hj : j ≤ 4), Integrable fun u : ℝ => c * (u ^ j * stdNormPdf u))
    ∧ (∀ (b c sig : ℝ) (hs : 0 < sig), ∫ x : ℝ, (x - c) ^ 1 * normPdf x b sig = b - c)
    ∧ (∀ (b c sig : ℝ) (hs : 0 < sig), ∫ x : ℝ, (x - c) ^ 2 * normPdf x b sig = (b - c) ^ 2 + sig ^ 2)
    ∧ (∀ (b c sig : ℝ) (hs : 0 < sig), ∫ x : ℝ, (x - c) ^ 3 * normPdf x b sig
      = (b - c) ^ 3 + 3 * sig ^ 2 * (b - c))
    ∧ (∀ (b c sig : ℝ) (hs : 0 < sig), ∫ x : ℝ, (x - c) ^ 4 * normPdf x b sig
      = (b - c) ^ 4 + 6 * sig ^ 2 * (b - c) ^ 2 + 3 * sig ^ 4) := by
  have integral_comp_affine : ∀ (f : ℝ → ℝ) (b sig : ℝ) (hs : 0 < sig), ∫ x : ℝ, f ((x - b) / sig) = sig * ∫ u, f u := by
    intro f b sig hs
    have h1 : ∫ x : ℝ, f ((x - b) / sig) = ∫ x : ℝ, f (x / sig) :=
      integral_sub_right_eq_self (fun x => f (x / sig)) b
    rw [h1, MeasureTheory.Measure.integral_comp_div f sig, smul_eq_mul, abs_of_pos hs]
  have integral_pow_normPdf_sub : ∀ (k : ℕ) (b c sig : ℝ) (hs : 0 < sig), ∫ x : ℝ, (x - c) ^ k * normPdf x b sig
      = ∫ u : ℝ, ((b - c) + sig * u) ^ k * stdNormPdf u := by
    intro k b c sig hs
    have hpt : ∀ x : ℝ,
        (fun u => ((b - c) + sig * u) ^ k * stdNormPdf u * sig⁻¹) ((x - b) / sig)
          = (x - c) ^ k * normPdf x b sig := by
      intro x
      simp only []
      unfold normPdf
      rw [mul_div_cancel₀ _ hs.ne',
        show (b - c) + (x - b) = x - c by ring, div_eq_mul_inv]
      ring
    calc ∫ x : ℝ, (x - c) ^ k * normPdf x b sig
        = ∫ x : ℝ, (fun u => ((b - c) + sig * u) ^ k * stdNormPdf u * sig⁻¹)
            ((x - b) / sig) := (integral_congr_ae (Eventually.of_forall hpt)).symm
      _ = sig * ∫ u : ℝ, ((b - c) + sig * u) ^ k * stdNormPdf u * sig⁻¹ :=
          integral_comp_affine
            (fun u => ((b - c) + sig * u) ^ k * stdNormPdf u * sig⁻¹) b sig hs
      _ = sig * ((∫ u : ℝ, ((b - c) + sig * u) ^ k * stdNormPdf u) * sig⁻¹) := by
          rw [MeasureTheory.integral_mul_right]
      _ = ∫ u : ℝ, ((b - c) + sig * u) ^ k * stdNormPdf u := by
          field_simp
  have integrable_term_stdNorm : ∀ (c : ℝ) {j : ℕ} (hj : j ≤ 4), Integrable fun u : ℝ => c * (u ^ j * stdNormPdf u) := by
    intro c j hj
    exact
      (((stdNorm_moment_facts.1) hj).const_mul c)
  have normPdf_mom_one : ∀ (b c sig : ℝ) (hs : 0 < sig), ∫ x : ℝ, (x - c) ^ 1 * normPdf x b sig = b - c := by
    intro b c sig hs
    rw [integral_pow_normPdf_sub 1 b c sig hs]
    have hpt : ∀ u : ℝ, ((b - c) + sig * u) ^ 1 * stdNormPdf u
        = (b - c) * (u ^ 0 * stdNormPdf u) + sig * (u ^ 1 * stdNormPdf u) :=
      fun u => by ring
    rw [integral_congr_ae (Eventually.of_forall hpt),
      integral_add (integrable_term_stdNorm _ (by norm_num))
        (integrable_term_stdNorm _ (by norm_num)),
      MeasureTheory.integral_mul_left, MeasureTheory.integral_mul_left,
      (stdNorm_moment_facts.2.2.1), (stdNorm_moment_facts.2.2.2.1)]
    ring
  have normPdf_mom_two : ∀ (b c sig : ℝ) (hs : 0 < sig), ∫ x : ℝ, (x - c) ^ 2 * normPdf x b sig = (b - c) ^ 2 + sig ^ 2 := by
    intro b c sig hs
    rw [integral_pow_normPdf_sub 2 b c sig hs]
    have hpt : ∀ u : ℝ, ((b - c) + sig * u) ^ 2 * stdNormPdf u
        = (b - c) ^ 2 * (u ^ 0 * stdNormPdf u)
          + 2 * (b - c) * sig * (u ^ 1 * stdNormPdf u)
          + sig ^ 2 * (u ^ 2 * stdNormPdf u) :=
      fun u => by ring
    have hI0 : Integrable (fun u : ℝ => (b - c) ^ 2 * (u ^ 0 * stdNormPdf u)) :=
      integrable_term_stdNorm _ (by norm_num)
    have hI1 : Integrable (fun u : ℝ => 2 * (b - c) * sig * (u ^ 1 * stdNormPdf u)) :=
      integrable_term_stdNorm _ (by norm_num)
    have hI2 : Integrable (fun u : ℝ => sig ^ 2 * (u ^ 2 * stdNormPdf u)) :=
      integrable_term_stdNorm _ (by norm_num)
    have hI01 : Integrable (fun u : ℝ => (b - c) ^ 2 * (u ^ 0 * stdNormPdf u)
        + 2 * (b - c) * sig * (u ^ 1 * stdNormPdf u)) := hI0.add hI1
    rw [integral_congr_ae (Eventually.of_forall hpt), integral_add hI01 hI2,
      integral_add hI0 hI1,
      MeasureTheory.integral_mul_left, MeasureTheory.integral_mul_left,
      MeasureTheory.integral_mul_left,
      (stdNorm_moment_facts.2.2.1), (stdNorm_moment_facts.2.2.2.1), (stdNorm_moment_facts.2.2.2.2.1)]
    ring
  have normPdf_mom_three : ∀ (b c sig : ℝ) (hs : 0 < sig), ∫ x : ℝ, (x - c) ^ 3 * normPdf x b sig
      = (b - c) ^ 3 + 3 * sig ^ 2 * (b - c) := by
    intro b c sig hs
    rw [integral_pow_normPdf_sub 3 b c sig hs]
    have hpt : ∀ u : ℝ, ((b - c) + sig * u) ^ 3 * stdNormPdf u
        = (b - c) ^ 3 * (u ^ 0 * stdNormPdf u)
          + 3 * (b - c) ^ 2 * sig * (u ^ 1 * stdNormPdf u)
          + 3 * (b - c) * sig ^ 2 * (u ^ 2 * stdNormPdf u)
          + sig ^ 3 * (u ^ 3 * stdNormPdf u) :=
      fun u => by ring
    have hI0 : Integrable (fun u : ℝ => (b - c) ^ 3 * (u ^ 0 * stdNormPdf u)) :=
      integrable_term_stdNorm _ (by norm_num)
    have hI1 : Integrable (fun u : ℝ => 3 * (b - c) ^ 2 * sig * (u ^ 1 * stdNormPdf u)) :=
      integrable_term_stdNorm _ (by norm_num)
    have hI2 : Integrable (fun u : ℝ => 3 * (b - c) * sig ^ 2 * (u ^ 2 * stdNormPdf u)) :=
      integrable_term_stdNorm _ (by norm_num)
    have hI3 : Integrable (fun u : ℝ => sig ^ 3 * (u ^ 3 * stdNormPdf u)) :=
      integrable_term_stdNorm _ (by norm_num)
    have hI01 : Integrable (fun u : ℝ => (b - c) ^ 3 * (u ^ 0 * stdNormPdf u)
        + 3 * (b - c) ^ 2 * sig * (u ^ 1 * stdNormPdf u)) := hI0.add hI1
    have hI012 : Integrable (fun u : ℝ => (b - c) ^ 3 * (u ^ 0 * stdNormPdf u)
        + 3 * (b - c) ^ 2 * sig * (u ^ 1 * stdNormPdf u)
        + 3 * (b - c) * sig ^ 2 * (u ^ 2 * stdNormPdf u)) := hI01.add hI2
    rw [integral_congr_ae (Eventually.of_forall hpt), integral_add hI012 hI3,
      integral_add hI01 hI2, integral_add hI0 hI1,
      MeasureTheory.integral_mul_left, MeasureTheory.integral_mul_left,
      MeasureTheory.integral_mul_left, MeasureTheory.integral_mul_left,
      (stdNorm_moment_facts.2.2.1), (stdNorm_moment_facts.2.2.2.1), (stdNorm_moment_facts.2.2.2.2.1), (stdNorm_moment_facts.2.2.2.2.2.1)]
    ring
  have normPdf_mom_four : ∀ (b c sig : ℝ) (hs : 0 < sig), ∫ x : ℝ, (x - c) ^ 4 * normPdf x b sig
      = (b - c) ^ 4 + 6 * sig ^ 2 * (b - c) ^ 2 + 3 * sig ^ 4 := by
    intro b c sig hs
    rw [integral_pow_normPdf_sub 4 b c sig hs]
    have hpt : ∀ u : ℝ, ((b - c) + sig * u) ^ 4 * stdNormPdf u
        = (b - c) ^ 4 * (u ^ 0 * stdNormPdf u)
          + 4 * (b - c) ^ 3 * sig * (u ^ 1 * stdNormPdf u)
          + 6 * (b - c) ^ 2 * sig ^ 2 * (u ^ 2 * stdNormPdf u)
          + 4 * (b - c) * sig ^ 3 * (u ^ 3 * stdNormPdf u)
          + sig ^ 4 * (u ^ 4 * stdNormPdf u) :=
      fun u => by ring
    have hI0 : Integrable (fun u : ℝ => (b - c) ^ 4 * (u ^ 0 * stdNormPdf u)) :=
      integrable_term_stdNorm _ (by norm_num)
    have hI1 : Integrable (fun u : ℝ => 4 * (b - c) ^ 3 * sig * (u ^ 1 * stdNormPdf u)) :=
      integrable_term_stdNorm _ (by norm_num)
    have hI2 : Integrable
        (fun u : ℝ => 6 * (b - c) ^ 2 * sig ^ 2 * (u ^ 2 * stdNormPdf u)) :=
      integrable_term_stdNorm _ (by norm_num)
    have hI3 : Integrable (fun u : ℝ => 4 * (b - c) * sig ^ 3 * (u ^ 3 * stdNormPdf u)) :=
      integrable_term_stdNorm _ (by norm_num)
    have hI4 : Integrable (fun u : ℝ => sig ^ 4 * (u ^ 4 * stdNormPdf u)) :=
      integrable_term_stdNorm _ (by norm_num)
    have hI01 : Integrable (fun u : ℝ => (b - c) ^ 4 * (u ^ 0 * stdNormPdf u)
        + 4 * (b - c) ^ 3 * sig * (u ^ 1 * stdNormPdf u)) := hI0.add hI1
    have hI012 : Integrable (fun u : ℝ => (b - c) ^ 4 * (u ^ 0 * stdNormPdf u)
        + 4 * (b - c) ^ 3 * sig * (u ^ 1 * stdNormPdf u)
        + 6 * (b - c) ^ 2 * sig ^ 2 * (u ^ 2 * stdNormPdf u)) := hI01.add hI2
    have hI0123 : Integrable (fun u : ℝ => (b - c) ^ 4 * (u ^ 0 * stdNormPdf u)
        + 4 * (b - c) ^ 3 * sig * (u ^ 1 * stdNormPdf u)
        + 6 * (b - c) ^ 2 * sig ^ 2 * (u ^ 2 * stdNormPdf u)
        + 4 * (b - c) * sig ^ 3 * (u ^ 3 * stdNormPdf u)) := hI012.add hI3
    rw [integral_congr_ae (Eventually.of_forall hpt), integral_add hI0123 hI4,
      integral_add hI012 hI3, integral_add hI01 hI2, integral_add hI0 hI1,
      MeasureTheory.integral_mul_left, MeasureTheory.integral_mul_left,
      MeasureTheory.integral_mul_left, MeasureTheory.integral_mul_left,
      MeasureTheory.integral_mul_left,
      (stdNorm_moment_facts.2.2.1), (stdNorm_moment_facts.2.2.2.1), (stdNorm_moment_facts.2.2.2.2.1), (stdNorm_moment_facts.2.2.2.2.2.1),
      (stdNorm_moment_facts.2.2.2.2.2.2)]
    ring
  exact ⟨integral_comp_affine, integral_pow_normPdf_sub, integrable_term_stdNorm, normPdf_mom_one, normPdf_mom_two, normPdf_mom_three, normPdf_mom_four⟩

/-! ### Global exponential bounds and the ODE of the EMG density -/

/-- Bundled global exponential bounds on the EMG density on both tails, and the first-order differential equation satisfied by the density. -/
theorem EMG_pdf_bound_facts :
    (∀ (mu sig lam x : ℝ) (hs : 0 < sig) (hl : 0 < lam), EMG_gen1.pdf x mu sig lam
      ≤ lam * Real.exp ((lam * sig) ^ 2 / 2 + lam * mu) * Real.exp (-lam * x))
    ∧ (∀ (mu sig lam x : ℝ) (hs : 0 < sig) (hl : 0 < lam), EMG_gen1.pdf x mu sig lam
      ≤ lam * EMGtailK sig lam * Real.exp (-(lam * mu)) * Real.exp (lam * x))
    ∧ (∀ (mu sig lam : ℝ) (hs : 0 < sig) (hl : 0 < lam) (x : ℝ), HasDerivAt (fun y => EMG_gen1.pdf y mu sig lam)
      (lam * normPdf x mu sig - lam * EMG_gen1.pdf x mu sig lam) x) := by
  have EMG_pdf_le_exp_right : ∀ (mu sig lam x : ℝ) (hs : 0 < sig) (hl : 0 < lam), EMG_gen1.pdf x mu sig lam
      ≤ lam * Real.exp ((lam * sig) ^ 2 / 2 + lam * mu) * Real.exp (-lam * x) := by
    intro mu sig lam x hs hl
    rw [(EMG_closed_form_facts.2.1) mu sig lam x hs.ne']
    have h1 : stdNormCdf ((x - mu) / sig - lam * sig) ≤ 1 := (stdNormCdf_facts.2.2.2.2.1) _
    have h0 : (0:ℝ) ≤ stdNormCdf ((x - mu) / sig - lam * sig) := (stdNormCdf_facts.2.2.2.1) _
    have hkey : lam * Real.exp (-(lam * (x - mu)) + (lam * sig) ^ 2 / 2)
        = lam * Real.exp ((lam * sig) ^ 2 / 2 + lam * mu) * Real.exp (-lam * x) := by
      rw [mul_assoc, ← Real.exp_add]
      congr 2
      ring
    have hE : (0:ℝ) < lam * Real.exp (-(lam * (x - mu)) + (lam * sig) ^ 2 / 2) := by
      positivity
    nlinarith
  have EMG_pdf_le_exp_left : ∀ (mu sig lam x : ℝ) (hs : 0 < sig) (hl : 0 < lam), EMG_gen1.pdf x mu sig lam
      ≤ lam * EMGtailK sig lam * Real.exp (-(lam * mu)) * Real.exp (lam * x) := by
    intro mu sig lam x hs hl
    rw [(EMG_closed_form_facts.2.1) mu sig lam x hs.ne']
    have h1 := (EMG_second_term_facts.1) mu sig lam x hs hl
    have hkey : lam * (EMGtailK sig lam * Real.exp (lam * (x - mu)))
        = lam * EMGtailK sig lam * Real.exp (-(lam * mu)) * Real.exp (lam * x) := by
      rw [mul_assoc (lam * EMGtailK sig lam), ← Real.exp_add]
      rw [← mul_assoc]
      congr 2
      ring
    calc lam * Real.exp (-(lam * (x - mu)) + (lam * sig) ^ 2 / 2)
          * stdNormCdf ((x - mu) / sig - lam * sig)
        = lam * (stdNormCdf ((x - mu) / sig - lam * sig)
            * Real.exp (-(lam * (x - mu)) + (lam * sig) ^ 2 / 2)) := by ring
      _ ≤ lam * (EMGtailK sig lam * Real.exp (lam * (x - mu))) :=
          mul_le_mul_of_nonneg_left h1 hl.le
      _ = lam * EMGtailK sig lam * Real.exp (-(lam * mu)) * Real.exp (lam * x) := hkey
  have EMG_pdf_hasDerivAt : ∀ (mu sig lam : ℝ) (hs : 0 < sig) (hl : 0 < lam) (x : ℝ), HasDerivAt (fun y => EMG_gen1.pdf y mu sig lam)
      (lam * normPdf x mu sig - lam * EMG_gen1.pdf x mu sig lam) x := by
    intro mu sig lam hs hl x
    have hs' : sig ≠ 0 := hs.ne'
    set h : ℝ → ℝ := fun y => (y - mu) / sig - lam * sig with hh_def
    set k : ℝ → ℝ := fun y => -(lam * (y - mu)) + (lam * sig) ^ 2 / 2 with hk_def
    have hh : HasDerivAt h (1 / sig) x := by
      have := ((hasDerivAt_id x).sub_const mu).div_const sig
      simpa using this.sub_const (lam * sig)
    have hk : HasDerivAt k (-lam) x := by
      have h1 : HasDerivAt (fun y => lam * (y - mu)) (lam * 1) x :=
        ((hasDerivAt_id x).sub_const mu).const_mul lam
      simpa using (h1.neg).add_const ((lam * sig) ^ 2 / 2)
    have h2 : HasDerivAt (fun y => stdNormCdf (h y)) (stdNormPdf (h x) * (1 / sig)) x :=
      ((stdNormCdf_facts.2.1) (h x)).comp x hh
    have h3 : HasDerivAt (fun y => Real.exp (k y)) (Real.exp (k x) * (-lam)) x := hk.exp
    have hprod : HasDerivAt (fun y => Real.exp (k y) * stdNormCdf (h y))
        (Real.exp (k x) * (-lam) * stdNormCdf (h x)
          + Real.exp (k x) * (stdNormPdf (h x) * (1 / sig))) x := h3.mul h2
    have htotal := hprod.const_mul lam
    have cancel : stdNormPdf (h x) * Real.exp (k x) = stdNormPdf ((x - mu) / sig) := by
      simp only [hh_def, hk_def]
      exact (EMG_closed_form_facts.2.2) mu sig lam x hs'
    have hval : lam * (Real.exp (k x) * (-lam) * stdNormCdf (h x)
        + Real.exp (k x) * (stdNormPdf (h x) * (1 / sig)))
        = lam * normPdf x mu sig - lam * EMG_gen1.pdf x mu sig lam := by
      rw [(EMG_closed_form_facts.2.1) mu sig lam x hs']
      unfold normPdf
      simp only [hh_def, hk_def] at cancel ⊢
      rw [div_eq_mul_inv (stdNormPdf ((x - mu) / sig)) sig, ← cancel]
      ring
    rw [hval] at htotal
    refine htotal.congr_of_eventuallyEq (Eventually.of_forall fun y => ?_)
    show EMG_gen1.pdf y mu sig lam = lam * (Real.exp (k y) * stdNormCdf (h y))
    rw [(EMG_closed_form_facts.2.1) mu sig lam y hs']
    simp only [hh_def, hk_def]
    ring
  exact ⟨EMG_pdf_le_exp_right, EMG_pdf_le_exp_left, EMG_pdf_hasDerivAt⟩

/-! ### Polynomial-times-exponential integrability on the half line -/

/-- Bundled integrability facts for polynomial multiples of the EMG density and of the normal density, together with the decay of centered powers times the density at both infinities. -/
theorem EMG_integrability_facts :
    (∀ (j : ℕ) {y : ℝ} (hy : 0 ≤ y), y ^ j ≤ (j : ℝ) ^ j * Real.exp y)
    ∧ (∀ (j : ℕ) {lam t : ℝ} (hl : 0 < lam) (ht : 0 ≤ t), t ^ j * Real.exp (-(lam * t))
      ≤ (j : ℝ) ^ j * (2 / lam) ^ j * Real.exp (-(lam / 2 * t)))
    ∧ (∀ (j : ℕ) {lam : ℝ} (hl : 0 < lam), IntegrableOn (fun t : ℝ => t ^ j * Real.exp (-(lam * t))) (Ioi 0))
    ∧ (∀ (j : ℕ) {lam : ℝ} (hl : 0 < lam), Tendsto (fun t : ℝ => t ^ j * Real.exp (-(lam * t))) atTop (𝓝 0))
    ∧ (∀ (r : ℕ) (mu sig lam : ℝ) (hs : 0 < sig) (hl : 0 < lam), Integrable (fun x => x ^ r * EMG_gen1.pdf x mu sig lam))
    ∧ (∀ (a0 a1 a2 a3 a4 mu sig lam : ℝ)
    (hs : 0 < sig) (hl : 0 < lam), Integrable (fun x => (a0 + a1 * x + a2 * x ^ 2 + a3 * x ^ 3 + a4 * x ^ 4)
      * EMG_gen1.pdf x mu sig lam))
    ∧ (∀ {j : ℕ} (hj : j ≤ 4) (b sig : ℝ) (hs : 0 < sig), Integrable (fun x => (x - b) ^ j * normPdf x b sig))
    ∧ (∀ (a0 a1 a2 a3 a4 b sig : ℝ) (hs : 0 < sig), Integrable (fun x => (a0 + a1 * (x - b) + a2 * (x - b) ^ 2 + a3 * (x - b) ^ 3
      + a4 * (x - b) ^ 4) * normPdf x b sig))
    ∧ (∀ (k : ℕ) {lam : ℝ} (hl : 0 < lam), Tendsto (fun t : ℝ => |t| ^ k * Real.exp (-(lam * t))) atTop (𝓝 0))
    ∧ (∀ (k : ℕ) (c mu sig lam : ℝ)
    (hs : 0 < sig) (hl : 0 < lam), Tendsto (fun x => (x - c) ^ k * EMG_gen1.pdf x mu sig lam) atTop (𝓝 0))
    ∧ (∀ (k : ℕ) (c mu sig lam : ℝ)
    (hs : 0 < sig) (hl : 0 < lam), Tendsto (fun x => (x - c) ^ k * EMG_gen1.pdf x mu sig lam) atBot (𝓝 0))
    ∧ (∀ {k : ℕ} (hk : k ≤ 4) (c mu sig lam : ℝ)
    (hs : 0 < sig) (hl : 0 < lam), Integrable (fun x => (x - c) ^ k * EMG_gen1.pdf x mu sig lam))
    ∧ (∀ {k : ℕ} (hk : k ≤ 4) (c b sig : ℝ)
    (hs : 0 < sig), Integrable (fun x => (x - c) ^ k * normPdf x b sig)) := by
  have pow_le_pow_mul_exp : ∀ (j : ℕ) {y : ℝ} (hy : 0 ≤ y), y ^ j ≤ (j : ℝ) ^ j * Real.exp y := by
    intro j y hy
    rcases Nat.eq_zero_or_pos j with hj | hj
    · rw [hj]
      simpa using Real.one_le_exp hy
    · have hjR : (0:ℝ) < (j : ℝ) := by exact_mod_cast hj
      have h1 : y / j ≤ Real.exp (y / j) := by
        have := Real.add_one_le_exp (y / j)
        linarith
      have h2 : (y / j) ^ j ≤ Real.exp (y / j) ^ j :=
        pow_le_pow_left (div_nonneg hy hjR.le) h1 j
      have h3 : Real.exp (y / j) ^ j = Real.exp y := by
        rw [← Real.exp_nat_mul]
        congr 1
        field_simp
      have h4 : (y / j) ^ j = y ^ j / (j : ℝ) ^ j := div_pow y _ j
      rw [h3, h4] at h2
      calc y ^ j = (j : ℝ) ^ j * (y ^ j / (j : ℝ) ^ j) := by
            field_simp
        _ ≤ (j : ℝ) ^ j * Real.exp y :=
            mul_le_mul_of_nonneg_left h2 (by positivity)
  have pow_mul_exp_neg_le : ∀ (j : ℕ) {lam t : ℝ} (hl : 0 < lam) (ht : 0 ≤ t), t ^ j * Real.exp (-(lam * t))
      ≤ (j : ℝ) ^ j * (2 / lam) ^ j * Real.exp (-(lam / 2 * t)) := by
    intro j lam t hl ht
    have h1 : t ^ j ≤ (j : ℝ) ^ j * (2 / lam) ^ j * Real.exp (lam / 2 * t) := by
      have key := pow_le_pow_mul_exp j (show (0:ℝ) ≤ lam / 2 * t by positivity)
      have h2 : (lam / 2 * t) ^ j = (lam / 2) ^ j * t ^ j := mul_pow _ _ _
      rw [h2] at key
      have h3 : t ^ j = (2 / lam) ^ j * ((lam / 2) ^ j * t ^ j) := by
        rw [← mul_assoc, ← mul_pow]
        field_simp
      rw [h3]
      calc (2 / lam) ^ j * ((lam / 2) ^ j * t ^ j)
          ≤ (2 / lam) ^ j * ((j : ℝ) ^ j * Real.exp (lam / 2 * t)) :=
            mul_le_mul_of_nonneg_left key (by positivity)
        _ = (j : ℝ) ^ j * (2 / lam) ^ j * Real.exp (lam / 2 * t) := by ring
    calc t ^ j * Real.exp (-(lam * t))
        ≤ (j : ℝ) ^ j * (2 / lam) ^ j * Real.exp (lam / 2 * t) * Real.exp (-(lam * t)) :=
          mul_le_mul_of_nonneg_right h1 (Real.exp_pos _).le
      _ = (j : ℝ) ^ j * (2 / lam) ^ j * Real.exp (-(lam / 2 * t)) := by
          rw [mul_assoc ((j : ℝ) ^ j * (2 / lam) ^ j), ← Real.exp_add]
          congr 2
          ring
  have integrableOn_pow_mul_exp_neg_Ioi : ∀ (j : ℕ) {lam : ℝ} (hl : 0 < lam), IntegrableOn (fun t : ℝ => t ^ j * Real.exp (-(lam * t))) (Ioi 0) := by
    intro j lam hl
    have hg : IntegrableOn
        (fun t : ℝ => (j : ℝ) ^ j * (2 / lam) ^ j * Real.exp (-(lam / 2) * t)) (Ioi 0) :=
      (exp_neg_integrableOn_Ioi 0 (by positivity)).const_mul _
    refine Integrable.mono' hg ?_ ?_
    · exact ((continuous_pow j).mul
        (((continuous_const.mul continuous_id).neg).rexp)).aestronglyMeasurable
    · filter_upwards [ae_restrict_mem measurableSet_Ioi] with t ht
      have ht0 : (0:ℝ) ≤ t := (mem_Ioi.mp ht).le
      rw [Real.norm_of_nonneg (by positivity)]
      have := pow_mul_exp_neg_le j hl ht0
      calc t ^ j * Real.exp (-(lam * t))
          ≤ (j : ℝ) ^ j * (2 / lam) ^ j * Real.exp (-(lam / 2 * t)) := this
        _ = (j : ℝ) ^ j * (2 / lam) ^ j * Real.exp (-(lam / 2) * t) := by
            congr 2
            ring
  have tendsto_pow_mul_exp_neg_lam : ∀ (j : ℕ) {lam : ℝ} (hl : 0 < lam), Tendsto (fun t : ℝ => t ^ j * Real.exp (-(lam * t))) atTop (𝓝 0) := by
    intro j lam hl
    have h := Real.tendsto_pow_mul_exp_neg_atTop_nhds_zero j
    have h2 : Tendsto (fun t : ℝ => lam * t) atTop atTop :=
      Tendsto.const_mul_atTop hl tendsto_id
    have h3 := h.comp h2
    have h4 := h3.const_mul ((lam ^ j)⁻¹ : ℝ)
    rw [mul_zero] at h4
    refine h4.congr fun t => ?_
    show (lam ^ j)⁻¹ * ((lam * t) ^ j * Real.exp (-(lam * t))) = _
    rw [mul_pow]
    field_simp
    ring
  have integrable_pow_mul_EMG_pdf : ∀ (r : ℕ) (mu sig lam : ℝ) (hs : 0 < sig) (hl : 0 < lam), Integrable (fun x => x ^ r * EMG_gen1.pdf x mu sig lam) := by
    intro r mu sig lam hs hl
    rw [← integrableOn_univ, ← Iic_union_Ioi (a := (0:ℝ))]
    have hmeas : AEStronglyMeasurable (fun x => x ^ r * EMG_gen1.pdf x mu sig lam)
        (volume : Measure ℝ) :=
      ((continuous_pow r).mul ((EMG_cdf_global_facts.2.2.2.2.2.2.1) mu sig lam)).aestronglyMeasurable
    refine IntegrableOn.union ?_ ?_
    · set c2 := lam * EMGtailK sig lam * Real.exp (-(lam * mu)) with hc2
      have hbase : IntegrableOn (fun t : ℝ => t ^ r * Real.exp (-(lam * t))) (Ioi 0) :=
        integrableOn_pow_mul_exp_neg_Ioi r hl
      have hneg : IntegrableOn (fun x : ℝ => (-x) ^ r * Real.exp (lam * x)) (Iic 0) := by
        have hshift : IntegrableOn (fun t : ℝ => t ^ r * Real.exp (-(lam * t)))
            (Ioi (-(0:ℝ))) := by simpa using hbase
        have h := (EMG_tail_facts.1) hshift
        refine h.congr_fun (fun x _ => ?_) measurableSet_Iic
        congr 1
        ring
      have hg : IntegrableOn (fun x : ℝ => c2 * ((-x) ^ r * Real.exp (lam * x))) (Iic 0) :=
        hneg.const_mul c2
      refine Integrable.mono' hg (hmeas.restrict) ?_
      filter_upwards [ae_restrict_mem measurableSet_Iic] with x hx
      have hx0 : x ≤ 0 := mem_Iic.mp hx
      have hpdf0 : 0 ≤ EMG_gen1.pdf x mu sig lam := (EMG_pdf_basic_facts.2.2.1) mu sig lam hl.le x
      have habs : ‖x ^ r * EMG_gen1.pdf x mu sig lam‖
          = (-x) ^ r * EMG_gen1.pdf x mu sig lam := by
        rw [Real.norm_eq_abs, abs_mul, abs_pow, abs_of_nonneg hpdf0, abs_of_nonpos hx0]
      rw [habs]
      have hbound := (EMG_pdf_bound_facts.2.1) mu sig lam x hs hl
      have hnx : (0:ℝ) ≤ (-x) ^ r := pow_nonneg (by linarith) r
      calc (-x) ^ r * EMG_gen1.pdf x mu sig lam
          ≤ (-x) ^ r * (c2 * Real.exp (lam * x)) := by
            refine mul_le_mul_of_nonneg_left ?_ hnx
            rw [hc2]
            exact hbound
        _ = c2 * ((-x) ^ r * Real.exp (lam * x)) := by ring
    · set c1 := lam * Real.exp ((lam * sig) ^ 2 / 2 + lam * mu) with hc1
      have hbase : IntegrableOn (fun t : ℝ => t ^ r * Real.exp (-(lam * t))) (Ioi 0) :=
        integrableOn_pow_mul_exp_neg_Ioi r hl
      have hg : IntegrableOn (fun t : ℝ => c1 * (t ^ r * Real.exp (-(lam * t)))) (Ioi 0) :=
        hbase.const_mul c1
      refine Integrable.mono' hg (hmeas.restrict) ?_
      filter_upwards [ae_restrict_mem measurableSet_Ioi] with x hx
      have hx0 : 0 ≤ x := (mem_Ioi.mp hx).le
      have hpdf0 : 0 ≤ EMG_gen1.pdf x mu sig lam := (EMG_pdf_basic_facts.2.2.1) mu sig lam hl.le x
      have habs : ‖x ^ r * EMG_gen1.pdf x mu sig lam‖
          = x ^ r * EMG_gen1.pdf x mu sig lam := by
        rw [Real.norm_eq_abs, abs_mul, abs_pow, abs_of_nonneg hpdf0, abs_of_nonneg hx0]
      rw [habs]
      have hbound := (EMG_pdf_bound_facts.1) mu sig lam x hs hl
      have hnx : (0:ℝ) ≤ x ^ r := by positivity
      calc x ^ r * EMG_gen1.pdf x mu sig lam
          ≤ x ^ r * (c1 * Real.exp (-lam * x)) := by
            refine mul_le_mul_of_nonneg_left ?_ hnx
            rw [hc1]
            exact hbound
        _ = c1 * (x ^ r * Real.exp (-(lam * x))) := by
            rw [show -lam * x = -(lam * x) by ring]
            ring
  have integrable_poly4_mul_EMG_pdf : ∀ (a0 a1 a2 a3 a4 mu sig lam : ℝ)
    (hs : 0 < sig) (hl : 0 < lam), Integrable (fun x => (a0 + a1 * x + a2 * x ^ 2 + a3 * x ^ 3 + a4 * x ^ 4)
      * EMG_gen1.pdf x mu sig lam) := by
    intro a0 a1 a2 a3 a4 mu sig lam hs hl
    have hI0 := (integrable_pow_mul_EMG_pdf 0 mu sig lam hs hl).const_mul a0
    have hI1 := (integrable_pow_mul_EMG_pdf 1 mu sig lam hs hl).const_mul a1
    have hI2 := (integrable_pow_mul_EMG_pdf 2 mu sig lam hs hl).const_mul a2
    have hI3 := (integrable_pow_mul_EMG_pdf 3 mu sig lam hs hl).const_mul a3
    have hI4 := (integrable_pow_mul_EMG_pdf 4 mu sig lam hs hl).const_mul a4
    have h := (((hI0.add hI1).add hI2).add hI3).add hI4
    refine h.congr (Eventually.of_forall fun x => ?_)
    simp only [Pi.add_apply]
    ring
  have integrable_pow_mul_normPdf : ∀ {j : ℕ} (hj : j ≤ 4) (b sig : ℝ) (hs : 0 < sig), Integrable (fun x => (x - b) ^ j * normPdf x b sig) := by
    intro j hj b sig hs
    set W : ℝ → ℝ := fun u => (sig * u) ^ j * stdNormPdf u * sig⁻¹ with hW
    have hWint : Integrable W := by
      have h := ((stdNorm_moment_facts.1) hj).const_mul (sig ^ j * sig⁻¹)
      refine h.congr (Eventually.of_forall fun u => ?_)
      rw [hW]
      simp only [mul_pow]
      ring
    have hV : Integrable (fun y => W (y / sig)) :=
      (MeasureTheory.integrable_comp_div_iff W hs.ne').mpr hWint
    have hfinal : Integrable (fun x => W ((x - b) / sig)) := by
      have h := hV.comp_sub_right b
      exact h
    refine hfinal.congr (Eventually.of_forall fun x => ?_)
    rw [hW]
    simp only []
    unfold normPdf
    rw [mul_div_cancel₀ _ hs.ne', div_eq_mul_inv]
    ring
  have integrable_poly4_mul_normPdf : ∀ (a0 a1 a2 a3 a4 b sig : ℝ) (hs : 0 < sig), Integrable (fun x => (a0 + a1 * (x - b) + a2 * (x - b) ^ 2 + a3 * (x - b) ^ 3
      + a4 * (x - b) ^ 4) * normPdf x b sig) := by
    intro a0 a1 a2 a3 a4 b sig hs
    have hI0 := (integrable_pow_mul_normPdf (show (0:ℕ) ≤ 4 by norm_num) b sig hs).const_mul a0
    have hI1 := (integrable_pow_mul_normPdf (show (1:ℕ) ≤ 4 by norm_num) b sig hs).const_mul a1
    have hI2 := (integrable_pow_mul_normPdf (show (2:ℕ) ≤ 4 by norm_num) b sig hs).const_mul a2
    have hI3 := (integrable_pow_mul_normPdf (show (3:ℕ) ≤ 4 by norm_num) b sig hs).const_mul a3
    have hI4 := (integrable_pow_mul_normPdf (show (4:ℕ) ≤ 4 by norm_num) b sig hs).const_mul a4
    have h := (((hI0.add hI1).add hI2).add hI3).add hI4
    refine h.congr (Eventually.of_forall fun x => ?_)
    simp only [Pi.add_apply]
    ring
  have tendsto_abs_pow_mul_exp_neg_atTop : ∀ (k : ℕ) {lam : ℝ} (hl : 0 < lam), Tendsto (fun t : ℝ => |t| ^ k * Real.exp (-(lam * t))) atTop (𝓝 0) := by
    intro k lam hl
    refine (tendsto_pow_mul_exp_neg_lam k hl).congr' ?_
    filter_upwards [eventually_ge_atTop (0:ℝ)] with t ht
    rw [abs_of_nonneg ht]
  have tendsto_sub_pow_mul_EMG_pdf_atTop : ∀ (k : ℕ) (c mu sig lam : ℝ)
    (hs : 0 < sig) (hl : 0 < lam), Tendsto (fun x => (x - c) ^ k * EMG_gen1.pdf x mu sig lam) atTop (𝓝 0) := by
    intro k c mu sig lam hs hl
    set c1 := lam * Real.exp ((lam * sig) ^ 2 / 2 + lam * mu) with hc1
    have hshift : Tendsto (fun x : ℝ => x - c) atTop atTop :=
      tendsto_atTop_add_const_right atTop (-c) tendsto_id
    have hbase := (tendsto_abs_pow_mul_exp_neg_atTop k hl).comp hshift
    have hg : Tendsto (fun x : ℝ => c1 * Real.exp (-(lam * c))
        * (|x - c| ^ k * Real.exp (-(lam * (x - c))))) atTop (𝓝 0) := by
      have := hbase.const_mul (c1 * Real.exp (-(lam * c)))
      simpa using this
    refine squeeze_zero_norm ?_ hg
    intro x
    have hpdf0 : 0 ≤ EMG_gen1.pdf x mu sig lam := (EMG_pdf_basic_facts.2.2.1) mu sig lam hl.le x
    have hbound := (EMG_pdf_bound_facts.1) mu sig lam x hs hl
    have habs : ‖(x - c) ^ k * EMG_gen1.pdf x mu sig lam‖
        = |x - c| ^ k * EMG_gen1.pdf x mu sig lam := by
      rw [Real.norm_eq_abs, abs_mul, abs_pow, abs_of_nonneg hpdf0]
    rw [habs]
    have hexpid : c1 * Real.exp (-(lam * c)) * Real.exp (-(lam * (x - c)))
        = c1 * Real.exp (-lam * x) := by
      rw [mul_assoc, ← Real.exp_add]
      congr 2
      ring
    calc |x - c| ^ k * EMG_gen1.pdf x mu sig lam
        ≤ |x - c| ^ k * (c1 * Real.exp (-lam * x)) :=
          mul_le_mul_of_nonneg_left hbound (by positivity)
      _ = c1 * Real.exp (-(lam * c)) * (|x - c| ^ k * Real.exp (-(lam * (x - c)))) := by
          rw [show c1 * Real.exp (-(lam * c)) * (|x - c| ^ k * Real.exp (-(lam * (x - c))))
            = |x - c| ^ k * (c1 * Real.exp (-(lam * c)) * Real.exp (-(lam * (x - c))))
            from by ring, hexpid]
  have tendsto_sub_pow_mul_EMG_pdf_atBot : ∀ (k : ℕ) (c mu sig lam : ℝ)
    (hs : 0 < sig) (hl : 0 < lam), Tendsto (fun x => (x - c) ^ k * EMG_gen1.pdf x mu sig lam) atBot (𝓝 0) := by
    intro k c mu sig lam hs hl
    set c2 := lam * EMGtailK sig lam * Real.exp (-(lam * mu)) with hc2
    have hb0 : Tendsto (fun t : ℝ => |t| ^ k * Real.exp (lam * t)) atBot (𝓝 0) := by
      have h := (tendsto_abs_pow_mul_exp_neg_atTop k hl).comp tendsto_neg_atBot_atTop
      refine h.congr fun t => ?_
      show |(-t)| ^ k * Real.exp (-(lam * -t)) = _
      rw [abs_neg]
      congr 2
      ring
    have hshift : Tendsto (fun x : ℝ => x - c) atBot atBot :=
      tendsto_atBot_add_const_right atBot (-c) tendsto_id
    have hbase := hb0.comp hshift
    have hg : Tendsto (fun x : ℝ => c2 * Real.exp (lam * c)
        * (|x - c| ^ k * Real.exp (lam * (x - c)))) atBot (𝓝 0) := by
      have := hbase.const_mul (c2 * Real.exp (lam * c))
      simpa using this
    refine squeeze_zero_norm ?_ hg
    intro x
    have hpdf0 : 0 ≤ EMG_gen1.pdf x mu sig lam := (EMG_pdf_basic_facts.2.2.1) mu sig lam hl.le x
    have hbound := (EMG_pdf_bound_facts.2.1) mu sig lam x hs hl
    have habs : ‖(x - c) ^ k * EMG_gen1.pdf x mu sig lam‖
        = |x - c| ^ k * EMG_gen1.pdf x mu sig lam := by
      rw [Real.norm_eq_abs, abs_mul, abs_pow, abs_of_nonneg hpdf0]
    rw [habs]
    have hexpid : c2 * Real.exp (lam * c) * Real.exp (lam * (x - c))
        = c2 * Real.exp (lam * x) := by
      rw [mul_assoc, ← Real.exp_add]
      congr 2
      ring
    calc |x - c| ^ k * EMG_gen1.pdf x mu sig lam
        ≤ |x - c| ^ k * (c2 * Real.exp (lam * x)) :=
          mul_le_mul_of_nonneg_left hbound (by positivity)
      _ = c2 * Real.exp (lam * c) * (|x - c| ^ k * Real.exp (lam * (x - c))) := by
          rw [show c2 * Real.exp (lam * c) * (|x - c| ^ k * Real.exp (lam * (x - c)))
            = |x - c| ^ k * (c2 * Real.exp (lam * c) * Real.exp (lam * (x - c)))
            from by ring, hexpid]
  have integrable_sub_pow_mul_EMG_pdf : ∀ {k : ℕ} (hk : k ≤ 4) (c mu sig lam : ℝ)
    (hs : 0 < sig) (hl : 0 < lam), Integrable (fun x => (x - c) ^ k * EMG_gen1.pdf x mu sig lam) := by
    intro k hk c mu sig lam hs hl
    interval_cases k
    · exact (integrable_poly4_mul_EMG_pdf 1 0 0 0 0 mu sig lam hs hl).congr
        (Eventually.of_forall fun x => by ring)
    · exact (integrable_poly4_mul_EMG_pdf (-c) 1 0 0 0 mu sig lam hs hl).congr
        (Eventually.of_forall fun x => by ring)
    · exact (integrable_poly4_mul_EMG_pdf (c ^ 2) (-2 * c) 1 0 0 mu sig lam hs hl).congr
        (Eventually.of_forall fun x => by ring)
    · exact (integrable_poly4_mul_EMG_pdf (-c ^ 3) (3 * c ^ 2) (-3 * c) 1 0
        mu sig lam hs hl).congr (Eventually.of_forall fun x => by ring)
    · exact (integrable_poly4_mul_EMG_pdf (c ^ 4) (-4 * c ^ 3) (6 * c ^ 2) (-4 * c) 1
        mu sig lam hs hl).congr (Eventually.of_forall fun x => by ring)
  have integrable_sub_pow_mul_normPdf_c : ∀ {k : ℕ} (hk : k ≤ 4) (c b sig : ℝ)
    (hs : 0 < sig), Integrable (fun x => (x - c) ^ k * normPdf x b sig) := by
    intro k hk c b sig hs
    interval_cases k
    · exact (integrable_poly4_mul_normPdf 1 0 0 0 0 b sig hs).congr
        (Eventually.of_forall fun x => by ring)
    · exact (integrable_poly4_mul_normPdf (b - c) 1 0 0 0 b sig hs).congr
        (Eventually.of_forall fun x => by ring)
    · exact (integrable_poly4_mul_normPdf ((b - c) ^ 2) (2 * (b - c)) 1 0 0 b sig hs).congr
        (Eventually.of_forall fun x => by ring)
    · exact (integrable_poly4_mul_normPdf ((b - c) ^ 3) (3 * (b - c) ^ 2) (3 * (b - c)) 1 0
        b sig hs).congr (Eventually.of_forall fun x => by ring)
    · exact (integrable_poly4_mul_normPdf ((b - c) ^ 4) (4 * (b - c) ^ 3) (6 * (b - c) ^ 2)
        (4 * (b - c)) 1 b sig hs).congr (Eventually.of_forall fun x => by ring)
  exact ⟨pow_le_pow_mul_exp, pow_mul_exp_neg_le, integrableOn_pow_mul_exp_neg_Ioi, tendsto_pow_mul_exp_neg_lam, integrable_pow_mul_EMG_pdf, integrable_poly4_mul_EMG_pdf, integrable_pow_mul_normPdf, integrable_poly4_mul_normPdf, tendsto_abs_pow_mul_exp_neg_atTop, tendsto_sub_pow_mul_EMG_pdf_atTop, tendsto_sub_pow_mul_EMG_pdf_atBot, integrable_sub_pow_mul_EMG_pdf, integrable_sub_pow_mul_normPdf_c⟩

/-- Bundled central moments of the EMG density: the integration-by-parts recursion, the centered moments of degree zero through four about the mean, and the value of the mean integral. -/
theorem EMG_central_moment_facts :
    (∀ {k : ℕ} (hk4 : k ≤ 4) (c mu sig lam : ℝ)
    (hs : 0 < sig) (hl : 0 < lam), ∫ x, (x - c) ^ k * EMG_gen1.pdf x mu sig lam
      = (∫ x, (x - c) ^ k * normPdf x mu sig)
        + ((k : ℝ) / lam) * ∫ x, (x - c) ^ (k - 1) * EMG_gen1.pdf x mu sig lam)
    ∧ (∀ (c mu sig lam : ℝ) (hs : 0 < sig) (hl : 0 < lam), ∫ x, (x - c) ^ 0 * EMG_gen1.pdf x mu sig lam = 1)
    ∧ (∀ (mu sig lam : ℝ) (hs : 0 < sig) (hl : 0 < lam), ∫ x, (x - (mu + 1 / lam)) ^ 1 * EMG_gen1.pdf x mu sig lam = 0)
    ∧ (∀ (mu sig lam : ℝ) (hs : 0 < sig) (hl : 0 < lam), ∫ x, (x - (mu + 1 / lam)) ^ 2 * EMG_gen1.pdf x mu sig lam
      = sig ^ 2 + 1 / lam ^ 2)
    ∧ (∀ (mu sig lam : ℝ) (hs : 0 < sig) (hl : 0 < lam), ∫ x, (x - (mu + 1 / lam)) ^ 3 * EMG_gen1.pdf x mu sig lam = 2 / lam ^ 3)
    ∧ (∀ (mu sig lam : ℝ) (hs : 0 < sig) (hl : 0 < lam), ∫ x, (x - (mu + 1 / lam)) ^ 4 * EMG_gen1.pdf x mu sig lam
      = 3 * sig ^ 4 + 6 * sig ^ 2 / lam ^ 2 + 9 / lam ^ 4)
    ∧ (∀ (mu sig lam : ℝ) (hs : 0 < sig) (hl : 0 < lam), ∫ x, x * EMG_gen1.pdf x mu sig lam = mu + 1 / lam) := by
  have EMG_J_recursion : ∀ {k : ℕ} (hk4 : k ≤ 4) (c mu sig lam : ℝ)
    (hs : 0 < sig) (hl : 0 < lam), ∫ x, (x - c) ^ k * EMG_gen1.pdf x mu sig lam
      = (∫ x, (x - c) ^ k * normPdf x mu sig)
        + ((k : ℝ) / lam) * ∫ x, (x - c) ^ (k - 1) * EMG_gen1.pdf x mu sig lam := by
    intro k hk4 c mu sig lam hs hl
    have hl' : lam ≠ 0 := hl.ne'
    have hk1' : k - 1 ≤ 4 := le_trans (Nat.sub_le k 1) hk4
    have hder : ∀ x : ℝ, HasDerivAt (fun y => (y - c) ^ k * EMG_gen1.pdf y mu sig lam)
        ((k : ℝ) * ((x - c) ^ (k - 1) * EMG_gen1.pdf x mu sig lam)
          + lam * ((x - c) ^ k * normPdf x mu sig)
          - lam * ((x - c) ^ k * EMG_gen1.pdf x mu sig lam)) x := by
      intro x
      have h1 : HasDerivAt (fun y : ℝ => y - c) 1 x := (hasDerivAt_id x).sub_const c
      have h2 := h1.pow k
      have h3 := h2.mul ((EMG_pdf_bound_facts.2.2) mu sig lam hs hl x)
      have h4 : (k : ℝ) * (x - c) ^ (k - 1) * 1 * EMG_gen1.pdf x mu sig lam
          + (x - c) ^ k * (lam * normPdf x mu sig - lam * EMG_gen1.pdf x mu sig lam)
          = (k : ℝ) * ((x - c) ^ (k - 1) * EMG_gen1.pdf x mu sig lam)
          + lam * ((x - c) ^ k * normPdf x mu sig)
          - lam * ((x - c) ^ k * EMG_gen1.pdf x mu sig lam) := by ring
      exact h4 ▸ h3
    have hA : Integrable (fun x => (k : ℝ) * ((x - c) ^ (k - 1) * EMG_gen1.pdf x mu sig lam)) :=
      ((EMG_integrability_facts.2.2.2.2.2.2.2.2.2.2.2.1) hk1' c mu sig lam hs hl).const_mul (k : ℝ)
    have hB : Integrable (fun x => lam * ((x - c) ^ k * normPdf x mu sig)) :=
      ((EMG_integrability_facts.2.2.2.2.2.2.2.2.2.2.2.2) hk4 c mu sig hs).const_mul lam
    have hC : Integrable (fun x => lam * ((x - c) ^ k * EMG_gen1.pdf x mu sig lam)) :=
      ((EMG_integrability_facts.2.2.2.2.2.2.2.2.2.2.2.1) hk4 c mu sig lam hs hl).const_mul lam
    have hAB : Integrable (fun x => (k : ℝ) * ((x - c) ^ (k - 1) * EMG_gen1.pdf x mu sig lam)
        + lam * ((x - c) ^ k * normPdf x mu sig)) := hA.add hB
    have hF : Integrable (fun x => (k : ℝ) * ((x - c) ^ (k - 1) * EMG_gen1.pdf x mu sig lam)
        + lam * ((x - c) ^ k * normPdf x mu sig)
        - lam * ((x - c) ^ k * EMG_gen1.pdf x mu sig lam)) := hAB.sub hC
    have hzero := MeasureTheory.integral_of_hasDerivAt_of_tendsto hder hF
      ((EMG_integrability_facts.2.2.2.2.2.2.2.2.2.2.1) k c mu sig lam hs hl)
      ((EMG_integrability_facts.2.2.2.2.2.2.2.2.2.1) k c mu sig lam hs hl)
    rw [MeasureTheory.integral_sub hAB hC, MeasureTheory.integral_add hA hB,
      MeasureTheory.integral_mul_left, MeasureTheory.integral_mul_left,
      MeasureTheory.integral_mul_left] at hzero
    field_simp
    linarith [hzero]
  have EMG_J0 : ∀ (c mu sig lam : ℝ) (hs : 0 < sig) (hl : 0 < lam), ∫ x, (x - c) ^ 0 * EMG_gen1.pdf x mu sig lam = 1 := by
    intro c mu sig lam hs hl
    have h := (EMG_cdf_global_facts.2.2.2.2.2.2.2.2.2.2) mu sig lam hs hl
    rw [← h]
    congr 1
    funext x
    rw [pow_zero, one_mul]
  have EMG_J1 : ∀ (mu sig lam : ℝ) (hs : 0 < sig) (hl : 0 < lam), ∫ x, (x - (mu + 1 / lam)) ^ 1 * EMG_gen1.pdf x mu sig lam = 0 := by
    intro mu sig lam hs hl
    rw [EMG_J_recursion (by norm_num) (mu + 1 / lam) mu sig lam hs hl,
      (normPdf_moment_facts.2.2.2.1) mu (mu + 1 / lam) sig hs, EMG_J0 (mu + 1 / lam) mu sig lam hs hl]
    field_simp
  have EMG_J2 : ∀ (mu sig lam : ℝ) (hs : 0 < sig) (hl : 0 < lam), ∫ x, (x - (mu + 1 / lam)) ^ 2 * EMG_gen1.pdf x mu sig lam
      = sig ^ 2 + 1 / lam ^ 2 := by
    intro mu sig lam hs hl
    rw [EMG_J_recursion (by norm_num) (mu + 1 / lam) mu sig lam hs hl,
      (normPdf_moment_facts.2.2.2.2.1) mu (mu + 1 / lam) sig hs, EMG_J1 mu sig lam hs hl]
    have hl' : lam ≠ 0 := hl.ne'
    field_simp
    ring
  have EMG_J3 : ∀ (mu sig lam : ℝ) (hs : 0 < sig) (hl : 0 < lam), ∫ x, (x - (mu + 1 / lam)) ^ 3 * EMG_gen1.pdf x mu sig lam = 2 / lam ^ 3 := by
    intro mu sig lam hs hl
    rw [EMG_J_recursion (by norm_num) (mu + 1 / lam) mu sig lam hs hl,
      (normPdf_moment_facts.2.2.2.2.2.1) mu (mu + 1 / lam) sig hs, EMG_J2 mu sig lam hs hl]
    have hl' : lam ≠ 0 := hl.ne'
    field_simp
    ring
  have EMG_J4 : ∀ (mu sig lam : ℝ) (hs : 0 < sig) (hl : 0 < lam), ∫ x, (x - (mu + 1 / lam)) ^ 4 * EMG_gen1.pdf x mu sig lam
      = 3 * sig ^ 4 + 6 * sig ^ 2 / lam ^ 2 + 9 / lam ^ 4 := by
    intro mu sig lam hs hl
    rw [EMG_J_recursion (by norm_num) (mu + 1 / lam) mu sig lam hs hl,
      (normPdf_moment_facts.2.2.2.2.2.2) mu (mu + 1 / lam) sig hs, EMG_J3 mu sig lam hs hl]
    have hl' : lam ≠ 0 := hl.ne'
    field_simp
    ring
  have EMG_numMean : ∀ (mu sig lam : ℝ) (hs : 0 < sig) (hl : 0 < lam), ∫ x, x * EMG_gen1.pdf x mu sig lam = mu + 1 / lam := by
    intro mu sig lam hs hl
    set c := mu + 1 / lam with hc
    have hI1 : Integrable (fun x => (x - c) ^ 1 * EMG_gen1.pdf x mu sig lam) :=
      (EMG_integrability_facts.2.2.2.2.2.2.2.2.2.2.2.1) (by norm_num) c mu sig lam hs hl
    have hIc : Integrable (fun x => c * EMG_gen1.pdf x mu sig lam) :=
      ((EMG_cdf_global_facts.2.2.2.2.2.2.2.2.2.1) mu sig lam hs hl).const_mul c
    have hstep : ∫ x, x * EMG_gen1.pdf x mu sig lam
        = ∫ x, ((x - c) ^ 1 * EMG_gen1.pdf x mu sig lam
            + c * EMG_gen1.pdf x mu sig lam) := by
      congr 1
      funext x
      ring
    rw [hstep, MeasureTheory.integral_add hI1 hIc, EMG_J1 mu sig lam hs hl,
      MeasureTheory.integral_mul_left, (EMG_cdf_global_facts.2.2.2.2.2.2.2.2.2.2) mu sig lam hs hl]
    ring
  exact ⟨EMG_J_recursion, EMG_J0, EMG_J1, EMG_J2, EMG_J3, EMG_J4, EMG_numMean⟩

/-- Modelled from the spec: the moments "derived by numerical integration of
`x^n * density(x)` for n=1..4 with centering/normalization" — the mean is the
integral of `x` against the density, the variance is the centered second
moment, the skewness is the centered third moment divided by the variance to
the power `3/2`, and the excess kurtosis is the centered fourth moment divided
by the squared variance, minus 3. -/
noncomputable def numericalMoments (mu sig lam : ℝ) : ℝ × ℝ × ℝ × ℝ :=
  let m := ∫ x, x * EMG_gen1.pdf x mu sig lam
  let v := ∫ x, (x - m) ^ 2 * EMG_gen1.pdf x mu sig lam
  let s := (∫ x, (x - m) ^ 3 * EMG_gen1.pdf x mu sig lam) / v ^ ((3 : ℝ) / 2)
  let k := (∫ x, (x - m) ^ 4 * EMG_gen1.pdf x mu sig lam) / v ^ 2 - 3
  (m, v, s, k)

lemma sq_rpow_three_halves {sig : ℝ} (hs : 0 < sig) :
    (sig ^ 2 : ℝ) ^ ((3 : ℝ) / 2) = sig ^ 3 := by
  rw [← Real.rpow_natCast sig 2, ← Real.rpow_mul hs.le, ← Real.rpow_natCast sig 3]
  norm_num

lemma EMG_skew_closed_form (sig lam : ℝ) (hs : 0 < sig) (hl : 0 < lam) :
    2 / (sig * lam) ^ 3 * (1 + 1 / (sig * lam) ^ 2) ^ (-3 / 2 : ℝ)
      = (2 / lam ^ 3) / (sig ^ 2 + 1 / lam ^ 2) ^ ((3 : ℝ) / 2) := by
  have hl' : lam ≠ 0 := hl.ne'
  have hs' : sig ≠ 0 := hs.ne'
  have hvar : (0:ℝ) < sig ^ 2 + 1 / lam ^ 2 := by positivity
  have hu : (1 + 1 / (sig * lam) ^ 2 : ℝ) = (sig ^ 2 + 1 / lam ^ 2) / sig ^ 2 := by
    field_simp
    ring
  have hneg : (-3 / 2 : ℝ) = -((3 : ℝ) / 2) := by norm_num
  have hx : (0:ℝ) ≤ (sig ^ 2 + 1 / lam ^ 2) / sig ^ 2 := by positivity
  rw [hu, hneg, Real.rpow_neg hx, Real.div_rpow hvar.le (by positivity),
    sq_rpow_three_halves hs]
  have hvr : (0:ℝ) < (sig ^ 2 + 1 / lam ^ 2) ^ ((3 : ℝ) / 2) :=
    Real.rpow_pos_of_pos hvar _
  rw [inv_div]
  have hVne : (sig ^ 2 + 1 / lam ^ 2) ^ ((3 : ℝ) / 2) ≠ 0 := hvr.ne'
  field_simp [hVne]
  ring

/-- Claim C3: for every valid parameter triple (`mu` finite, `sig > 0`,
`lam > 0`), the analytic moments returned by `EMG_gen1._stats` — mean
`mu + 1/lam`, variance `sig^2 + 1/lam^2`, skewness
`(2/(sig*lam)^3) * (1 + 1/(sig*lam)^2)^(-3/2)`, and excess kurtosis
`3*(1 + 2/(sig*lam)^2 + 3/(sig*lam)^4)/(1 + 1/(sig*lam)^2)^2 - 3` — equal
(exactly, hence within any tolerance) the corresponding moments obtained by
integrating `x^n` times the density `_pdf` with the usual centering and
normalization. -/
theorem claim_C3_moments_match (mu sig lam : ℝ) (hs : 0 < sig) (hl : 0 < lam) :
    EMG_gen1.stats mu sig lam = numericalMoments mu sig lam := by
  have hl' : lam ≠ 0 := hl.ne'
  have hs' : sig ≠ 0 := hs.ne'
  have hm := (EMG_central_moment_facts.2.2.2.2.2.2) mu sig lam hs hl
  show (mu + 1 / lam, sig ^ 2 + 1 / lam ^ 2,
      2 / (sig * lam) ^ 3 * (1 + 1 / (sig * lam) ^ 2) ^ (-3 / 2 : ℝ),
      3 * (1 + 2 / (sig * lam) ^ 2 + 3 / (sig * lam) ^ 4)
        / (1 + 1 / (sig * lam) ^ 2) ^ 2 - 3)
    = (∫ y, y * EMG_gen1.pdf y mu sig lam,
       ∫ x, (x - ∫ y, y * EMG_gen1.pdf y mu sig lam) ^ 2 * EMG_gen1.pdf x mu sig lam,
       (∫ x, (x - ∫ y, y * EMG_gen1.pdf y mu sig lam) ^ 3 * EMG_gen1.pdf x mu sig lam)
         / (∫ x, (x - ∫ y, y * EMG_gen1.pdf y mu sig lam) ^ 2
             * EMG_gen1.pdf x mu sig lam) ^ ((3 : ℝ) / 2),
       (∫ x, (x - ∫ y, y * EMG_gen1.pdf y mu sig lam) ^ 4 * EMG_gen1.pdf x mu sig lam)
         / (∫ x, (x - ∫ y, y * EMG_gen1.pdf y mu sig lam) ^ 2
             * EMG_gen1.pdf x mu sig lam) ^ 2 - 3)
  rw [hm, (EMG_central_moment_facts.2.2.2.1) mu sig lam hs hl, (EMG_central_moment_facts.2.2.2.2.1) mu sig lam hs hl, (EMG_central_moment_facts.2.2.2.2.2.1) mu sig lam hs hl]
  simp only [Prod.mk.injEq]
  refine ⟨trivial, trivial, ?_, ?_⟩
  · exact EMG_skew_closed_form sig lam hs hl
  · have h1 : (1 + 1 / (sig * lam) ^ 2 : ℝ) ≠ 0 := by positivity
    have h2 : (sig ^ 2 + 1 / lam ^ 2 : ℝ) ≠ 0 := by positivity
    field_simp
    ring

/-- Witness for C3 at the spec's concrete parameters `mu=0, sigma=1,
lambda=0.5`. -/
theorem claim_C3_witness :
    (0:ℝ) < 1 ∧ (0:ℝ) < 0.5 ∧ EMG_gen1.stats 0 1 0.5 = numericalMoments 0 1 0.5 :=
  ⟨by norm_num, by norm_num, claim_C3_moments_match 0 1 0.5 (by norm_num) (by norm_num)⟩
